import Mathlib

/-!
# go-proto-gql: front ends of the protobuf-to-GraphQL generator

A shallow embedding of the two front ends

* `cmd/proto2graphql/main.go` (the command-line tool) and
* `protoc-gen-gql/main.go` (the `protoc` plugin),

together with the parts of the Go standard library they call
(`strings`, `strconv`, `path`, `path/filepath` on a Unix system).

Go strings are modelled as lists of characters.  Every library function used
here searches only for the ASCII characters `/`, `.`, `,` and `=`, which never
occur inside a multi-byte UTF-8 sequence, so the character view and Go's byte
view agree on every position these functions look at.
-/

namespace ProtoGql

/-- A Go `string`, as the list of its characters. -/
abbrev GoString := List Char

/-! ## Descriptors -/

/-- The part of `descriptorpb.FileDescriptorProto` the front ends look at:
the optional `Name` (a `*string` in Go), and two further fields standing for
the rest of the descriptor's content. -/
structure FileDescriptorProto where
  Name : Option GoString
  Package : Option GoString
  Dependency : List GoString
deriving DecidableEq, Repr

/-- The nil-safe getter `GetName`: the empty string when `Name` is unset. -/
def FileDescriptorProto.GetName (d : FileDescriptorProto) : GoString :=
  d.Name.getD []

/-! ## A Go `map[string]bool` -/

/-- A Go `map[string]bool`, as an association list with at most one entry per key. -/
abbrev GoMap := List (GoString × Bool)

/-- The two-result lookup `v, ok := m[k]`. -/
def GoMap.get? (m : GoMap) (k : GoString) : Option Bool :=
  m.lookup k

/-- The assignment `m[k] = v`. -/
def GoMap.set (m : GoMap) (k : GoString) (v : Bool) : GoMap :=
  (k, v) :: m.filter (fun p => !(p.1 == k))

/-! ## `uniqueFiles` (cmd/proto2graphql/main.go, lines 38-49) -/

/-- The `for _, dsc := range input` loop of `uniqueFiles`, on the state
`(inResult, result)`.  `none` is the run-time panic of `*fileName` on a
descriptor whose `Name` is nil. -/
def uniqueFilesLoop : List FileDescriptorProto → GoMap → List FileDescriptorProto →
    Option (List FileDescriptorProto)
  | [], _, result => some result
  | dsc :: rest, inResult, result =>
    match dsc.Name with
    | none => none
    | some fileName =>
      match inResult.get? fileName with
      | some _ => uniqueFilesLoop rest inResult result
      | none => uniqueFilesLoop rest (inResult.set fileName true) (result ++ [dsc])

/-- The function `uniqueFiles`: starts from the empty map and the nil slice. -/
def uniqueFiles (input : List FileDescriptorProto) : Option (List FileDescriptorProto) :=
  uniqueFilesLoop input [] []

/-- The entries the specification keeps, in its own words: the entry at
position `i` is kept exactly when no entry at an earlier position has the same
name; kept entries stay in input order. -/
def firstOccurrences (input : List FileDescriptorProto) : List FileDescriptorProto :=
  (input.enum.filter
    (fun p => (input.take p.1).all (fun e => decide (e.Name ≠ p.2.Name)))).map Prod.snd

/-- The entries of `l` kept when the entries of `pre` precede them. -/
def keptAfter : List FileDescriptorProto → List FileDescriptorProto → List FileDescriptorProto
  | _, [] => []
  | pre, d :: l =>
    if pre.all (fun e => decide (e.Name ≠ d.Name)) then d :: keptAfter (pre ++ [d]) l
    else keptAfter (pre ++ [d]) l


/-! ## Package `strings` -/

/-- The scan behind `strings.Index`: the least position at or after `i` where
`substr` begins, `-1` when there is none. -/
def strings.Index.go (substr : GoString) : GoString → Nat → Int
  | [], i => if substr = [] then (i : Int) else -1
  | c :: t, i => if substr.isPrefixOf (c :: t) then (i : Int) else strings.Index.go substr t (i + 1)

/-- The function `strings.Index(s, substr)`: the index of the first instance of
`substr` in `s`, or `-1`. -/
def strings.Index (s substr : GoString) : Int :=
  strings.Index.go substr s 0

/-- The loop of `genSplit`: cut at the first separator, continue after it. -/
def strings.Split.loop (sep : GoString) : Nat → GoString → List GoString
  | 0, s => [s]
  | fuel + 1, s =>
    let m := strings.Index s sep
    if m < 0 then [s]
    else s.take m.toNat :: strings.Split.loop sep fuel (s.drop (m.toNat + sep.length))

/-- The function `strings.Split(s, sep)`: for an empty separator the string is
exploded into its characters; otherwise it is cut at every instance of `sep`.
Every cut consumes at least one character, so `len(s)` rounds are enough. -/
def strings.Split (s sep : GoString) : List GoString :=
  if sep = [] then s.map (fun c => [c]) else strings.Split.loop sep s.length s

/-- The function `strings.Join(elems, sep)`. -/
def strings.Join (elems : List GoString) (sep : GoString) : GoString :=
  sep.intercalate elems

/-- The function `strings.HasPrefix`. -/
def strings.HasPrefix (s pre : GoString) : Bool :=
  pre.isPrefixOf s

/-- The function `strings.HasSuffix`. -/
def strings.HasSuffix (s suffix : GoString) : Bool :=
  suffix.isSuffixOf s

/-- The function `strings.TrimSuffix(s, suffix)`: `s` without the trailing
`suffix`, or `s` itself when it does not end in `suffix`. -/
def strings.TrimSuffix (s suffix : GoString) : GoString :=
  if strings.HasSuffix s suffix then s.take (s.length - suffix.length) else s

/-- The function `strings.Trim(s, cutset)`: `s` with all leading and trailing
characters contained in `cutset` removed. -/
def strings.Trim (s cutset : GoString) : GoString :=
  ((s.dropWhile (fun c => cutset.contains c)).reverse.dropWhile
    (fun c => cutset.contains c)).reverse

/-! ## Package `strconv` -/

/-- The function `strconv.ParseBool`: the twelve accepted spellings; `none` is
the syntax error returned for any other string. -/
def strconv.ParseBool (str : GoString) : Option Bool :=
  if str = "1".toList ∨ str = "t".toList ∨ str = "T".toList ∨ str = "TRUE".toList
      ∨ str = "true".toList ∨ str = "True".toList then some true
  else if str = "0".toList ∨ str = "f".toList ∨ str = "F".toList ∨ str = "FALSE".toList
      ∨ str = "false".toList ∨ str = "False".toList then some false
  else none

/-! ## Package `path` (and `path/filepath` on Unix, where the separator is `/`) -/

/-- The backward scan `for out.w > dotdot && out.index(out.w) != '/' { out.w-- }`
of `Clean`, started at write position `w`; returns the final write position. -/
def path.Clean.backtrack (dotdot : Nat) (buf : GoString) : Nat → Nat
  | 0 => 0
  | w + 1 =>
    if w + 1 > dotdot ∧ buf.get? (w + 1) ≠ some '/' then path.Clean.backtrack dotdot buf w
    else w + 1

/-- One round of the main loop `for r < n` of `Clean`, entered with
`path[r:] = c :: t`, the content `out` of the output buffer (`buf[:w]`) and the
position `dotdot` where `..` must stop.  Returns the new `path[r:]`, buffer
content and `dotdot`. -/
def path.Clean.step (rooted : Bool) (c : Char) (t : GoString) (out : GoString) (dotdot : Nat) :
    GoString × GoString × Nat :=
  if c = '/' then
    -- empty path element
    (t, out, dotdot)
  else if c = '.' ∧ (t = [] ∨ t.head? = some '/') then
    -- . element
    (t, out, dotdot)
  else if c = '.' ∧ t.head? = some '.' ∧ (t.tail = [] ∨ t.tail.head? = some '/') then
    -- .. element: remove to last /
    if out.length > dotdot then
      -- can backtrack
      (t.tail, out.take (path.Clean.backtrack dotdot out (out.length - 1)), dotdot)
    else if rooted = false then
      -- cannot backtrack, but not rooted, so append .. element
      let out1 := if out.length > 0 then out ++ ['/'] else out
      let out2 := out1 ++ ['.', '.']
      (t.tail, out2, out2.length)
    else
      (t.tail, out, dotdot)
  else
    -- real path element: add slash if needed, then copy the element
    let out1 :=
      if (rooted = true ∧ out.length ≠ 1) ∨ (rooted = false ∧ out.length ≠ 0) then out ++ ['/']
      else out
    ((c :: t).dropWhile (fun x => x ≠ '/'), out1 ++ (c :: t).takeWhile (fun x => x ≠ '/'), dotdot)

/-- The main loop `for r < n` of `Clean`.  Every round consumes at least one
character of `path[r:]`, so `len(path)` rounds are enough. -/
def path.Clean.loop (rooted : Bool) : Nat → GoString → GoString → Nat → GoString
  | 0, _, out, _ => out
  | _ + 1, [], out, _ => out
  | fuel + 1, c :: t, out, dotdot =>
    path.Clean.loop rooted fuel (path.Clean.step rooted c t out dotdot).1
      (path.Clean.step rooted c t out dotdot).2.1 (path.Clean.step rooted c t out dotdot).2.2

/-- The function `path.Clean`: the shortest path name equivalent to `path` by
purely lexical processing. -/
def path.Clean (p : GoString) : GoString :=
  if p = [] then ['.']
  else
    let rooted : Bool := p.head? = some '/'
    let out :=
      if rooted then path.Clean.loop rooted p.length p.tail ['/'] 1
      else path.Clean.loop rooted p.length p [] 0
    if out.length = 0 then ['.'] else out

/-- The backward scan of `LastIndex(s, "/")` over the reversed prefix still to
be inspected: the index of the last `/`, or `-1`. -/
def path.lastSlash.go : GoString → Int
  | [] => -1
  | c :: before => if c = '/' then (before.length : Int) else path.lastSlash.go before

/-- The index of the last `/` of `s`, or `-1` (`strings.LastIndex(s, "/")`). -/
def path.lastSlash (s : GoString) : Int :=
  path.lastSlash.go s.reverse

/-- The function `path.Split`: the directory part, up to and including the final
slash, and the file part after it. -/
def path.Split (p : GoString) : GoString × GoString :=
  let i := path.lastSlash p
  (p.take (i + 1).toNat, p.drop (i + 1).toNat)

/-- The backward scan of `path.Ext` over the reversed prefix still to be
inspected; `after` is the part of the path already passed. -/
def path.Ext.go : GoString → GoString → GoString
  | [], _ => []
  | c :: before, after =>
    if c = '/' then []
    else if c = '.' then c :: after
    else path.Ext.go before (c :: after)

/-- The function `path.Ext`: the suffix beginning at the final dot in the final
slash-separated element of the path; empty if there is no dot. -/
def path.Ext (p : GoString) : GoString :=
  path.Ext.go p.reverse []

/-- The function `path.Join`: the elements joined with slashes, leading empty
elements ignored, and the result cleaned; the empty string when all elements
are empty. -/
def path.Join (elem : List GoString) : GoString :=
  match elem.dropWhile (fun e => e.isEmpty) with
  | [] => []
  | e :: es => path.Clean (strings.Join (e :: es) ['/'])

/-- The function `filepath.Clean` on Unix: the algorithm of `path.Clean`. -/
def filepath.Clean (p : GoString) : GoString :=
  path.Clean p

/-- The function `filepath.Join` on Unix. -/
def filepath.Join (elem : List GoString) : GoString :=
  match elem.dropWhile (fun e => e.isEmpty) with
  | [] => []
  | e :: es => filepath.Clean (strings.Join (e :: es) ['/'])

/-- The function `filepath.IsAbs` on Unix. -/
def filepath.IsAbs (p : GoString) : Bool :=
  strings.HasPrefix p ['/']

/-- The function `filepath.Abs` on Unix.  `getwd` is the result of `os.Getwd`
(`none` when it fails); `none` is the error return. -/
def filepath.Abs (getwd : Option GoString) (p : GoString) : Option GoString :=
  if filepath.IsAbs p then some (filepath.Clean p)
  else
    match getwd with
    | none => none
    | some wd => some (filepath.Join [wd, p])

/-- The function `filepath.Dir` on Unix: all but the last element of the path,
cleaned. -/
def filepath.Dir (p : GoString) : GoString :=
  let i := path.lastSlash p
  filepath.Clean (p.take (i + 1).toNat)

/-! ## `resolveGraphqlFilename` (both front ends, identical text) -/

/-- The function `resolveGraphqlFilename`; `getwd` is what `os.Getwd` returns
inside `filepath.Abs`. -/
def resolveGraphqlFilename (getwd : Option GoString) (protoFileName : GoString) (merge : Bool)
    (extension : GoString) : GoString :=
  if merge then
    let gqlFileName0 := "schema.".toList ++ extension
    let gqlFileName :=
      match filepath.Abs getwd protoFileName with
      | some absProtoFileName =>
        let protoDirSlice := strings.Split (filepath.Dir absProtoFileName) ['/']
        if protoDirSlice.length > 0 then
          protoDirSlice.getLastD [] ++ ".".toList ++ extension
        else gqlFileName0
      | none => gqlFileName0
    let protoDir := (path.Split protoFileName).1
    path.Join [protoDir, gqlFileName]
  else
    strings.TrimSuffix protoFileName (path.Ext protoFileName) ++ ".".toList ++ extension

/-! ## Collaborators of the front ends (package `generator`, `protogen`, `formatter`) -/

/-- Modelled from the spec: the constant `generator.DefaultExtension`, whose
package is not part of the two front-end files; the specification gives the
default extension as `graphql`. -/
def generator.DefaultExtension : GoString := "graphql".toList

/-- The fields of `generator.Config` the front ends set and read; each is a
pointer in Go, `none` standing for nil. -/
structure Config where
  TypePrefix : Option Bool
  GoModel : Option GoString
  Output : Option GoString
deriving DecidableEq, Repr

/-- A `generator.SchemaDescriptor` as the front ends see it: the descriptor
files it was built from and the schema tree returned by `AsGraphql`. -/
structure SchemaDescriptor (Schema : Type) where
  FileDescriptors : List FileDescriptorProto
  AsGraphql : Schema

/-- A Go `error` value of the plugin front end: the `*strconv.NumError` of
`strconv.ParseBool` (function name, offending text), or an error handed back by
a collaborator. -/
inductive GoError where
  | numError (func_name : GoString) (num : GoString)
  | collaborator (msg : GoString)
deriving DecidableEq, Repr

/-- How a Go function call ends: it returns, the process is ended by
`log.Fatal` (exit status 1), or a run-time panic occurs. -/
inductive Outcome (α : Type) where
  | returned (a : α)
  | fatal (msg : GoString)
  | panic (msg : GoString)
deriving DecidableEq, Repr

/-- The part of `pluginpb.CodeGeneratorRequest` read by the plugin. -/
structure CodeGeneratorRequest where
  FileToGenerate : List GoString
  Parameter : Option GoString
  ProtoFile : List FileDescriptorProto
deriving DecidableEq, Repr

/-- The nil-safe getter `GetParameter`. -/
def CodeGeneratorRequest.GetParameter (req : CodeGeneratorRequest) : GoString :=
  req.Parameter.getD []

/-- A `pluginpb.CodeGeneratorResponse_File` with the two fields the plugin sets. -/
structure ResponseFile where
  Name : GoString
  Content : GoString
deriving DecidableEq, Repr

/-! ## The plugin front end (protoc-gen-gql/main.go) -/

/-- The local variables of `generate` that the parameter loop assigns.  The Go
variable named by the key of the third boolean parameter is called `prefixB`
here.  `config.TypePrefix` points at that variable, which only the same case of
the switch assigns, so the pointer is kept as the value it points to. -/
structure Params where
  genServiceDesc : Bool
  merge : Bool
  prefixB : Bool
  extension : GoString
  config : Config
deriving DecidableEq, Repr

/-- The values of the locals of `generate` before the parameter loop (lines 50-55). -/
def Params.initial : Params :=
  { genServiceDesc := false, merge := false, prefixB := false,
    extension := generator.DefaultExtension,
    config := { TypePrefix := none, GoModel := none, Output := none } }

/-- The cut of one token at its first `=` (lines 57-60): the pair `(param, value)`
after the `if`. -/
def cutParam (param : GoString) : GoString × GoString :=
  let i := strings.Index param "=".toList
  if i ≥ 0 then (param.take i.toNat, param.drop (i.toNat + 1)) else (param, [])

/-- One round of the parameter loop of `generate` (lines 57-81). -/
def decodeParam (st : Params) (param0 : GoString) : Except GoError Params :=
  let param := (cutParam param0).1
  let value := (cutParam param0).2
  if param = "svc".toList then
    match strconv.ParseBool value with
    | some b => .ok { st with genServiceDesc := b }
    | none => .error (.numError "ParseBool".toList value)
  else if param = "merge".toList then
    match strconv.ParseBool value with
    | some b => .ok { st with merge := b }
    | none => .error (.numError "ParseBool".toList value)
  else if param = "prefix".toList then
    match strconv.ParseBool value with
    | some b => .ok { st with prefixB := b, config := { st.config with TypePrefix := some b } }
    | none => .error (.numError "ParseBool".toList value)
  else if param = "ext".toList then
    .ok { st with extension := strings.Trim value ".".toList }
  else if param = "go_model".toList then
    .ok { st with config := { st.config with GoModel := some value } }
  else if param = "output".toList then
    .ok { st with config := { st.config with Output := some value } }
  else .ok st

/-- The parameter loop over a list of tokens, stopping at the first error. -/
def decodeTokens : List GoString → Params → Except GoError Params
  | [], st => .ok st
  | param :: rest, st =>
    match decodeParam st param with
    | .ok st1 => decodeTokens rest st1
    | .error e => .error e

/-- The parameter loop of `generate` (lines 50-82) on a parameter string. -/
def decodeParameter (parameter : GoString) : Except GoError Params :=
  decodeTokens (strings.Split parameter ",".toList) Params.initial

/-- The collaborators of the plugin: `protogen.Options.New`, the two functions
of package `generator`, the formatter (`FormatSchema` into a buffer, then
`buff.String()`), and the result of `os.Getwd`. -/
structure PluginEnv (Plugin Descs Schema : Type) where
  protogenNew : CodeGeneratorRequest → Except GoString Plugin
  CreateDescriptorsFromProto : CodeGeneratorRequest → Except GoString Descs
  NewSchemas : Descs → Bool → Bool → Plugin → Config → Except GoString (List (SchemaDescriptor Schema))
  FormatSchema : Schema → GoString
  getwd : Option GoString

/-- The calls `generate` makes to its collaborators, in the order made. -/
inductive PluginCall where
  | protogenNew
  | CreateDescriptorsFromProto
  | NewSchemas (merge genServiceDesc : Bool) (config : Config)
deriving DecidableEq, Repr

/-- The loop over the schemas of `generate` (lines 96-110); `outFiles` is the
slice built so far.  The panic is the index expression `FileDescriptors[0]` on an
empty slice. -/
def generate.emit {Plugin Descs Schema : Type} (env : PluginEnv Plugin Descs Schema)
    (st : Params) : List (SchemaDescriptor Schema) → List ResponseFile →
    Outcome (List ResponseFile × Option GoError)
  | [], outFiles => .returned (outFiles, none)
  | schema :: rest, outFiles =>
    let buff := env.FormatSchema schema.AsGraphql
    let output : Option GoString :=
      match st.config.Output with
      | some o =>
        if o ≠ [] then some o
        else (schema.FileDescriptors.head?).map
          (fun fd => resolveGraphqlFilename env.getwd fd.GetName st.merge st.extension)
      | none => (schema.FileDescriptors.head?).map
          (fun fd => resolveGraphqlFilename env.getwd fd.GetName st.merge st.extension)
    match output with
    | none => .panic "index out of range [0] with length 0".toList
    | some name => generate.emit env st rest (outFiles ++ [{ Name := name, Content := buff }])

/-- The function `generate` of the plugin: the collaborator calls it made and
how it ended.  A returned pair is `(outFiles, err)`. -/
def generate {Plugin Descs Schema : Type} (env : PluginEnv Plugin Descs Schema)
    (req : CodeGeneratorRequest) :
    List PluginCall × Outcome (List ResponseFile × Option GoError) :=
  match decodeParameter req.GetParameter with
  | .error e => ([], .returned ([], some e))
  | .ok st =>
    match env.protogenNew req with
    | .error msg => ([.protogenNew], .fatal msg)
    | .ok p =>
      match env.CreateDescriptorsFromProto req with
      | .error msg =>
        ([.protogenNew, .CreateDescriptorsFromProto], .returned ([], some (.collaborator msg)))
      | .ok descs =>
        let calls := [.protogenNew, .CreateDescriptorsFromProto,
          .NewSchemas st.merge st.genServiceDesc st.config]
        match env.NewSchemas descs st.merge st.genServiceDesc p st.config with
        | .error msg => (calls, .returned ([], some (.collaborator msg)))
        | .ok gqlDesc => (calls, generate.emit env st gqlDesc [])

/-! ## The command-line front end (cmd/proto2graphql/main.go) -/

/-- The collaborators of the command-line tool around its output loop: file
creation (`os.Create`, which fails or yields the file system with the file
created and truncated), the formatter writing a schema into the created file
(followed by the deferred `Close`), and the result of `os.Getwd`. -/
structure CliEnv (FS Schema : Type) where
  osCreate : FS → GoString → Except GoString FS
  FormatSchema : FS → GoString → Schema → FS
  getwd : Option GoString

/-- What the output loop does, in the order done. -/
inductive CliEvent (Schema : Type) where
  | generateFile (schema : SchemaDescriptor Schema) (merge : Bool)
  | osCreate (name : GoString)
  | FormatSchema (name : GoString) (schema : Schema)

/-- The function `generateFile` (lines 92-107) on the file system `fs`;
`extension` is the value of the `-ext` flag.  A returned `.error` is the Go
error of `os.Create`. -/
def generateFile {FS Schema : Type} (env : CliEnv FS Schema) (fs : FS)
    (schema : SchemaDescriptor Schema) (merge : Bool) (config : Config) (extension : GoString) :
    List (CliEvent Schema) × Outcome (Except GoString FS) :=
  let output : Option GoString :=
    match config.Output with
    | some o =>
      if o ≠ [] then some o
      else (schema.FileDescriptors.head?).map
        (fun fd => resolveGraphqlFilename env.getwd fd.GetName merge extension)
    | none => (schema.FileDescriptors.head?).map
        (fun fd => resolveGraphqlFilename env.getwd fd.GetName merge extension)
  match output with
  | none => ([], .panic "index out of range [0] with length 0".toList)
  | some name =>
    match env.osCreate fs name with
    | .error err => ([.osCreate name], .returned (.error err))
    | .ok fs1 =>
      ([.osCreate name, .FormatSchema name schema.AsGraphql],
        .returned (.ok (env.FormatSchema fs1 name schema.AsGraphql)))

/-- The message of the `log.Fatalf` call of the output loop, `%d` being the
decimal rendering of the count. -/
def countMismatch (n : Nat) : GoString :=
  "unexpected number of proto descriptors: ".toList ++ (Nat.repr n).toList
    ++ " for gql schema".toList

/-- The output loop of `main` (lines 72-83): events, final file system and the
way the run ends (`returned ()` when `main` falls off its end). -/
def mainLoop {FS Schema : Type} (env : CliEnv FS Schema) (merge : Bool) (config : Config)
    (extension : GoString) : List (SchemaDescriptor Schema) → FS →
    List (CliEvent Schema) × FS × Outcome Unit
  | [], fs => ([], fs, .returned ())
  | schema :: rest, fs =>
    if schema.FileDescriptors.length < 1 then
      ([], fs, .fatal (countMismatch schema.FileDescriptors.length))
    else if schema.FileDescriptors.length > 1 then
      match generateFile env fs schema true config extension with
      | (ev, .returned (.ok fs1)) => (.generateFile schema true :: ev, fs1, .returned ())
      | (ev, .returned (.error err)) => (.generateFile schema true :: ev, fs, .fatal err)
      | (ev, .fatal msg) => (.generateFile schema true :: ev, fs, .fatal msg)
      | (ev, .panic msg) => (.generateFile schema true :: ev, fs, .panic msg)
    else
      match generateFile env fs schema merge config extension with
      | (ev, .returned (.ok fs1)) =>
        let r := mainLoop env merge config extension rest fs1
        (.generateFile schema merge :: ev ++ r.1, r.2.1, r.2.2)
      | (ev, .returned (.error err)) => (.generateFile schema merge :: ev, fs, .fatal err)
      | (ev, .fatal msg) => (.generateFile schema merge :: ev, fs, .fatal msg)
      | (ev, .panic msg) => (.generateFile schema merge :: ev, fs, .panic msg)

/-- The names passed to `os.Create`, in order. -/
def createdNames {Schema : Type} : List (CliEvent Schema) → List GoString
  | [] => []
  | .osCreate name :: ev => name :: createdNames ev
  | _ :: ev => createdNames ev

/-- The number of calls of `generateFile`. -/
def generateFileCalls {Schema : Type} : List (CliEvent Schema) → Nat
  | [] => 0
  | .generateFile _ _ :: ev => generateFileCalls ev + 1
  | _ :: ev => generateFileCalls ev

/-- The schemas written by the formatter, each with the name of its file, in order. -/
def writtenSchemas {Schema : Type} : List (CliEvent Schema) → List (GoString × Schema)
  | [] => []
  | .FormatSchema name schema :: ev => (name, schema) :: writtenSchemas ev
  | _ :: ev => writtenSchemas ev

/-! ## Collaborators used to run the front ends on concrete inputs -/

/-- A plugin environment whose four collaborators succeed: the Translator
returns the schemas `groups` whatever it is given, the formatter renders a
schema (here already a text) as itself. -/
def fixedPluginEnv (groups : List (SchemaDescriptor GoString)) (getwd : Option GoString) :
    PluginEnv Unit Unit GoString :=
  { protogenNew := fun _ => .ok ()
    CreateDescriptorsFromProto := fun _ => .ok ()
    NewSchemas := fun _ _ _ _ _ => .ok groups
    FormatSchema := fun s => s
    getwd := getwd }

/-- A command-line environment in which every file creation succeeds; the file
system is the list of `(name, content)` pairs written, newest first. -/
def fixedCliEnv (getwd : Option GoString) : CliEnv (List (GoString × GoString)) GoString :=
  { osCreate := fun fs _ => .ok fs
    FormatSchema := fun fs name s => (name, s) :: fs
    getwd := getwd }

/-- A descriptor that carries only a name. -/
def namedFile (name : String) : FileDescriptorProto :=
  { Name := some name.toList, Package := none, Dependency := [] }

/-- A request that carries only a parameter string. -/
def requestWith (parameter : String) : CodeGeneratorRequest :=
  { FileToGenerate := [], Parameter := some parameter.toList, ProtoFile := [] }

/-! ## Predicates on paths used in the statements -/

/-- A real path element: not empty, without a slash, and neither `.` nor `..`. -/
def IsElement (g : GoString) : Prop :=
  g ≠ [] ∧ '/' ∉ g ∧ g ≠ ['.'] ∧ g ≠ ['.', '.']

/-- A clean rooted path: the root `/` alone, or a slash before each of one or
more real path elements. -/
def IsCleanRooted (out : GoString) : Prop :=
  ∃ segs : List GoString, (∀ s ∈ segs, IsElement s)
    ∧ out = if segs = [] then ['/'] else (segs.map (fun s => '/' :: s)).flatten

/-! ## The parameter string in the words of the specification -/

/-- The key of a token: the text before its first `=`, all of the token when it
has none. -/
def tokenKey (t : GoString) : GoString :=
  t.takeWhile (fun x => x ≠ '=')

/-- The value of a token: the text after its first `=`, empty when it has none. -/
def tokenValue (t : GoString) : GoString :=
  (t.dropWhile (fun x => x ≠ '=')).drop 1

/-- The value carried by the last token with the key `key`, if there is one. -/
def lastValue (key : GoString) (tokens : List GoString) : Option GoString :=
  ((tokens.filter (fun t => decide (tokenKey t = key))).getLast?).map tokenValue

/-- The function `strconv.FormatBool`: how a boolean is rendered. -/
def strconv.FormatBool (b : Bool) : GoString :=
  if b then "true".toList else "false".toList

/-! ## `main` of the plugin (protoc-gen-gql/main.go, lines 21-47) -/

/-- The fields of `pluginpb.CodeGeneratorResponse` that `main` sets. -/
structure CodeGeneratorResponse where
  Error : Option GoString
  SupportedFeatures : Option Nat
  File : List ResponseFile
deriving DecidableEq, Repr

/-- The enum value `pluginpb.CodeGeneratorResponse_FEATURE_PROTO3_OPTIONAL`. -/
def FEATURE_PROTO3_OPTIONAL : Nat := 1

/-- What `main` of the plugin uses besides `generate`: reading standard input to
its end, the two functions of package `proto`, writing to standard output, and
`strconv.Quote`, by which the message of a `*strconv.NumError` renders the
offending text.  Byte strings are lists of numbers. -/
structure PluginRuntime where
  ReadAll : Except GoString (List Nat)
  Unmarshal : List Nat → Except GoString CodeGeneratorRequest
  Marshal : CodeGeneratorResponse → Except GoString (List Nat)
  Write : List Nat → Except GoString Unit
  Quote : GoString → GoString

/-- The method `Error()` of a Go error of the plugin.  For a `*strconv.NumError`
it is `"strconv." + Func + ": parsing " + Quote(Num) + ": " + Err.Error()`, the
inner error being `strconv.ErrSyntax`. -/
def GoError.Error (quote : GoString → GoString) : GoError → GoString
  | .numError func_name num =>
    "strconv.".toList ++ func_name ++ ": parsing ".toList ++ quote num ++ ": ".toList
      ++ "invalid syntax".toList
  | .collaborator msg => msg

/-- The function `main` of the plugin.  When it returns, the result is the
response it built and the bytes it wrote to standard output; `fatal` is an exit
through `log.Fatal`, with nothing written. -/
def protocGenGql.main {Plugin Descs Schema : Type} (rt : PluginRuntime)
    (env : PluginEnv Plugin Descs Schema) : Outcome (CodeGeneratorResponse × List Nat) :=
  match rt.ReadAll with
  | .error err => .fatal err
  | .ok inp =>
    match rt.Unmarshal inp with
    | .error err => .fatal err
    | .ok req =>
      match (generate env req).2 with
      | .fatal msg => .fatal msg
      | .panic msg => .panic msg
      | .returned (files, err) =>
        let res : CodeGeneratorResponse :=
          { File := files
            SupportedFeatures := some FEATURE_PROTO3_OPTIONAL
            Error := err.map (GoError.Error rt.Quote) }
        match rt.Marshal res with
        | .error err => .fatal err
        | .ok out =>
          match rt.Write out with
          | .error err => .fatal err
          | .ok _ => .returned (res, out)

/-- A runtime in which standard input holds the encoding of `req`, marshalling
and writing succeed (the encoding of a response is left empty), and quoting
puts the text between double quotes. -/
def fixedRuntime (req : CodeGeneratorRequest) : PluginRuntime :=
  { ReadAll := .ok []
    Unmarshal := fun _ => .ok req
    Marshal := fun _ => .ok []
    Write := fun _ => .ok ()
    Quote := fun s => '"' :: s ++ ['"'] }

/-! ## Clean paths written out element by element -/

/-- The buffer of `Clean` right before a real path element is copied into it: a
slash is appended unless the buffer is the root of a rooted path or empty. -/
def withSlash (rooted : Bool) (out : GoString) : GoString :=
  if (rooted = true ∧ out.length ≠ 1) ∨ (rooted = false ∧ out.length ≠ 0) then out ++ ['/']
  else out

/-- The elements `segs`, each with a slash before it. -/
def slashBefore (segs : List GoString) : GoString :=
  (segs.map (fun s => '/' :: s)).flatten

/-- The elements `segs`, each with a slash after it. -/
def slashAfter (segs : List GoString) : GoString :=
  (segs.map (fun s => s ++ ['/'])).flatten

/-- The clean path with the elements `segs`: rooted, `/` alone or a slash
before each element; not rooted, the elements with a slash between them. -/
def cleanForm (rooted : Bool) (segs : List GoString) : GoString :=
  if rooted then (if segs = [] then ['/'] else slashBefore segs) else (slashBefore segs).tail

/-- A directory part in clean form: an optional leading slash, then real path
elements, each followed by a slash. -/
def IsCleanDir (dir : GoString) : Prop :=
  ∃ (rooted : Bool) (segs : List GoString), (∀ s ∈ segs, IsElement s)
    ∧ dir = (if rooted then ['/'] else []) ++ slashAfter segs

/-- The value of the variable `gqlFileName` of `resolveGraphqlFilename` when the
file name is joined to the directory part (merged naming). -/
def gqlFileName (getwd : Option GoString) (protoFileName extension : GoString) : GoString :=
  match filepath.Abs getwd protoFileName with
  | some absProtoFileName =>
    let protoDirSlice := strings.Split (filepath.Dir absProtoFileName) ['/']
    if protoDirSlice.length > 0 then
      protoDirSlice.getLastD [] ++ ".".toList ++ extension
    else "schema.".toList ++ extension
  | none => "schema.".toList ++ extension

instance IsElement.decidable (g : GoString) : Decidable (IsElement g) := by
  unfold IsElement
  exact inferInstance

/-! ## Directory parts in cleaned form -/

/-- The text `../` repeated `k` times. -/
def dotsDir (k : Nat) : GoString :=
  (List.replicate k ['.', '.', '/']).flatten

/-- The directory part `dir` in cleaned form: what `path.Clean` leaves in front
of a file name that is put after `dir`. -/
def cleanDir (dir : GoString) : GoString :=
  (path.Split (path.Clean (dir ++ ['x']))).1

/-- The state of the loop of `Clean` after it has read a directory part: the
buffer holds the clean path made of `k` elements `..` and the real path elements
`segs`, and `dotdot` stands behind the elements `..` (behind the root in a
rooted path, which has none). -/
def IsCleanState (rooted : Bool) (out : GoString) (dotdot : Nat) : Prop :=
  ∃ (k : Nat) (segs : List GoString), (rooted = true → k = 0)
    ∧ (∀ s ∈ segs, IsElement s)
    ∧ out = cleanForm rooted (List.replicate k ['.', '.'] ++ segs)
    ∧ dotdot = if rooted then 1 else (cleanForm false (List.replicate k ['.', '.'])).length

/-- A directory part in cleaned form, written out: the root if `rooted`, then
`k` times `../`, then the elements `segs`, each followed by a slash. -/
def cleanedDirForm (rooted : Bool) (k : Nat) (segs : List GoString) : GoString :=
  (if rooted then ['/'] else []) ++ dotsDir k ++ slashAfter segs

/-- How `path.Clean` reads a path that begins with the directory part `dir`:
the result is what its loop makes of the rest of the path, entered with the
clean path of `k` elements `..` and the elements `segs` in the buffer. -/
def CleanReads (dir : GoString) (rooted : Bool) (k : Nat) (segs : List GoString) : Prop :=
  ∀ R : GoString, path.Clean (dir ++ R)
    = if (path.Clean.loop rooted R.length R
            (cleanForm rooted (List.replicate k ['.', '.'] ++ segs))
            (if rooted then 1 else (cleanForm false (List.replicate k ['.', '.'])).length)).length
          = 0
      then ['.']
      else path.Clean.loop rooted R.length R
        (cleanForm rooted (List.replicate k ['.', '.'] ++ segs))
        (if rooted then 1 else (cleanForm false (List.replicate k ['.', '.'])).length)

/-- A directory part in cleaned form: an optional leading slash or else any
number of `../`, then real path elements, each followed by a slash. -/
def IsCleanedDir (dir : GoString) : Prop :=
  ∃ (rooted : Bool) (k : Nat) (segs : List GoString), (rooted = true → k = 0)
    ∧ (∀ s ∈ segs, IsElement s) ∧ dir = cleanedDirForm rooted k segs

/-! # Properties -/

theorem GoMap_get_set (m : GoMap) (k k2 : GoString) (v : Bool) :
    ((GoMap.set m k v).get? k2).isSome = (decide (k2 = k) || (m.get? k2).isSome) := by
  unfold GoMap.set GoMap.get?
  by_cases h : k2 = k
  · subst h; simp [List.lookup]
  · have h1 : (k2 == k) = false := by simpa using h
    simp only [List.lookup, h1, h, decide_False, Bool.false_or]
    induction m with
    | nil => simp
    | cons p m ih =>
      obtain ⟨a, b⟩ := p
      by_cases ha : a = k
      · subst ha
        have : (k2 == a) = false := h1
        simp [List.filter, List.lookup, this, ih]
      · have ha2 : (a == k) = false := by simpa using ha
        by_cases hk : k2 = a
        · subst hk; simp [List.filter, ha2, List.lookup]
        · have hk2 : (k2 == a) = false := by simpa using hk
          simp [List.filter, ha2, List.lookup, hk2, ih]

theorem uniqueFilesLoop_eq (l pre : List FileDescriptorProto) (m : GoMap)
    (result : List FileDescriptorProto)
    (hl : ∀ d ∈ l, d.Name ≠ none)
    (hm : ∀ k : GoString, (m.get? k).isSome = true ↔ ∃ e ∈ pre, e.Name = some k) :
    uniqueFilesLoop l m result = some (result ++ keptAfter pre l) := by
  induction l generalizing pre m result with
  | nil => simp [uniqueFilesLoop, keptAfter]
  | cons d l ih =>
    have hd : d.Name ≠ none := hl d (List.mem_cons_self _ _)
    have hl2 : ∀ e ∈ l, e.Name ≠ none := fun e he => hl e (List.mem_cons_of_mem _ he)
    obtain ⟨fileName, hname⟩ := Option.ne_none_iff_exists'.mp hd
    unfold uniqueFilesLoop
    simp only [hname]
    cases hget : m.get? fileName with
    | some b =>
      have hex : ∃ e ∈ pre, e.Name = some fileName := (hm fileName).mp (by simp [hget])
      have hall : (pre.all (fun e => decide (e.Name ≠ d.Name))) = false := by
        obtain ⟨e, he, hen⟩ := hex
        simp only [List.all_eq_false]
        exact ⟨e, he, by simp [hname, hen]⟩
      simp only [keptAfter, hall]
      rw [ih (pre ++ [d]) m result hl2]
      · simp
      · intro k
        rw [hm k]
        constructor
        · rintro ⟨e, he, hen⟩; exact ⟨e, by simp [he], hen⟩
        · rintro ⟨e, he, hen⟩
          simp only [List.mem_append, List.mem_singleton] at he
          rcases he with he | he
          · exact ⟨e, he, hen⟩
          · subst he
            rw [hname] at hen
            cases hen
            exact hex
    | none =>
      have hnex : ¬ ∃ e ∈ pre, e.Name = some fileName := by
        intro h
        have := (hm fileName).mpr h
        simp [hget] at this
      have hall : (pre.all (fun e => decide (e.Name ≠ d.Name))) = true := by
        simp only [List.all_eq_true, decide_eq_true_eq]
        intro e he hen
        exact hnex ⟨e, he, by rw [hen, hname]⟩
      simp only [keptAfter, hall]
      rw [ih (pre ++ [d]) (m.set fileName true) (result ++ [d]) hl2]
      · simp
      · intro k
        rw [GoMap_get_set]
        simp only [Bool.or_eq_true, decide_eq_true_eq, hm k]
        constructor
        · rintro (h | ⟨e, he, hen⟩)
          · exact ⟨d, by simp, by rw [hname, h]⟩
          · exact ⟨e, by simp [he], hen⟩
        · rintro ⟨e, he, hen⟩
          simp only [List.mem_append, List.mem_singleton] at he
          rcases he with he | he
          · exact Or.inr ⟨e, he, hen⟩
          · subst he
            rw [hname] at hen
            cases hen
            exact Or.inl rfl

theorem keptAfter_append (pre p q : List FileDescriptorProto) :
    keptAfter pre (p ++ q) = keptAfter pre p ++ keptAfter (pre ++ p) q := by
  induction p generalizing pre with
  | nil => simp [keptAfter]
  | cons d p ih =>
    simp only [List.cons_append, keptAfter]
    split <;> simp [ih]

theorem keptAfter_sublist (pre l : List FileDescriptorProto) :
    (keptAfter pre l).Sublist l := by
  induction l generalizing pre with
  | nil => simp [keptAfter]
  | cons d l ih =>
    simp only [keptAfter]
    split
    · exact (ih _).cons₂ d
    · exact (ih _).cons d

theorem keptAfter_name_not_before (pre l : List FileDescriptorProto) :
    ∀ e ∈ keptAfter pre l, ∀ b ∈ pre, b.Name ≠ e.Name := by
  induction l generalizing pre with
  | nil => simp [keptAfter]
  | cons d l ih =>
    intro e he b hb
    simp only [keptAfter] at he
    split at he
    · rename_i hall
      simp only [List.all_eq_true, decide_eq_true_eq] at hall
      rcases List.mem_cons.mp he with h | h
      · subst h; exact hall b hb
      · exact ih (pre ++ [d]) e h b (by simp [hb])
    · exact ih (pre ++ [d]) e he b (by simp [hb])

theorem keptAfter_nodup (pre l : List FileDescriptorProto) :
    ((keptAfter pre l).map (fun d => d.Name)).Nodup := by
  induction l generalizing pre with
  | nil => simp [keptAfter]
  | cons d l ih =>
    simp only [keptAfter]
    split
    · simp only [List.map_cons, List.nodup_cons, List.mem_map, not_exists, not_and]
      refine ⟨?_, ih _⟩
      intro e he hen
      exact keptAfter_name_not_before (pre ++ [d]) l e he d (by simp) hen.symm
    · exact ih _

theorem keptAfter_covers (pre l : List FileDescriptorProto) :
    ∀ d ∈ l, ∃ e ∈ pre ++ keptAfter pre l, e.Name = d.Name := by
  induction l generalizing pre with
  | nil => simp
  | cons d l ih =>
    intro x hx
    rcases List.mem_cons.mp hx with h | h
    · subst h
      simp only [keptAfter]
      split
      · exact ⟨x, by simp, rfl⟩
      · rename_i hall
        simp only [List.all_eq_true, decide_eq_true_eq, not_forall, not_not] at hall
        obtain ⟨e, he, hen⟩ := hall
        exact ⟨e, by simp [he], by simpa using hen⟩
    · obtain ⟨e, he, hen⟩ := ih (pre ++ [d]) x h
      simp only [List.mem_append, List.mem_singleton] at he
      rcases he with (he | he) | he
      · exact ⟨e, by simp [he], hen⟩
      · subst he
        simp only [keptAfter]
        split
        · exact ⟨e, by simp, hen⟩
        · rename_i hall
          simp only [List.all_eq_true, decide_eq_true_eq, not_forall, not_not] at hall
          obtain ⟨b, hb, hbn⟩ := hall
          exact ⟨b, by simp [hb], by rw [← hen]; simpa using hbn⟩
      · refine ⟨e, ?_, hen⟩
        simp only [keptAfter]
        split <;> simp [he]

theorem firstOccurrences_aux (pre l : List FileDescriptorProto) :
    ((l.enumFrom pre.length).filter
      (fun p => ((pre ++ l).take p.1).all (fun e => decide (e.Name ≠ p.2.Name)))).map Prod.snd
      = keptAfter pre l := by
  induction l generalizing pre with
  | nil => simp [keptAfter]
  | cons d l ih =>
    have hrest := ih (pre ++ [d])
    simp only [List.length_append, List.length_singleton, List.append_assoc,
      List.singleton_append] at hrest
    simp only [List.enumFrom_cons, List.filter_cons, List.take_left, keptAfter]
    split <;> simp only [List.map_cons, hrest]

theorem firstOccurrences_eq (input : List FileDescriptorProto) :
    firstOccurrences input = keptAfter [] input := by
  have := firstOccurrences_aux [] input
  simpa [firstOccurrences, List.enum] using this

/-! ### `path.Split` and `path.Ext` -/

theorem getLast?_slash (dir : GoString) (h : dir.getLast? = some '/') :
    ∃ d, dir = d ++ ['/'] := by
  rcases List.eq_nil_or_concat dir with h0 | ⟨d, c, hc⟩
  · subst h0; simp at h
  · subst hc
    rw [List.concat_eq_append] at h ⊢
    simp at h
    subst h
    exact ⟨d, rfl⟩

theorem lastSlash_go_skip (l before : GoString) (hl : '/' ∉ l) :
    path.lastSlash.go (l ++ before) = path.lastSlash.go before := by
  induction l with
  | nil => rfl
  | cons c l ih =>
    have hc : c ≠ '/' := fun h => hl (by simp [h])
    have hl2 : '/' ∉ l := fun h => hl (List.mem_cons_of_mem _ h)
    simp [path.lastSlash.go, hc, ih hl2]

/-- A path written as a directory part (empty or ending in a slash) followed by
a slash-free file part is split by `path.Split` into exactly these parts. -/
theorem path_Split_append (dir file : GoString) (hfile : '/' ∉ file)
    (hdir : dir = [] ∨ dir.getLast? = some '/') :
    path.Split (dir ++ file) = (dir, file) := by
  have hrev : '/' ∉ file.reverse := by simpa using hfile
  unfold path.Split path.lastSlash
  rw [List.reverse_append, lastSlash_go_skip _ _ hrev]
  rcases hdir with h | h
  · subst h; simp [path.lastSlash.go]
  · obtain ⟨d, hd⟩ := getLast?_slash dir h
    subst hd
    have h1 : ((d.length : Int) + 1).toNat = (d ++ ['/']).length := by simp
    simp only [List.reverse_append, List.reverse_cons, List.reverse_nil, List.nil_append,
      List.singleton_append, path.lastSlash.go, if_true, List.length_reverse, h1]
    simp only [List.take_left, List.drop_left]

theorem Ext_go_skip (l before after : GoString) (hl : ∀ c ∈ l, c ≠ '/' ∧ c ≠ '.') :
    path.Ext.go (l ++ before) after = path.Ext.go before (l.reverse ++ after) := by
  induction l generalizing after with
  | nil => rfl
  | cons c l ih =>
    have hc := hl c (by simp)
    have hl2 : ∀ x ∈ l, x ≠ '/' ∧ x ≠ '.' := fun x hx => hl x (List.mem_cons_of_mem _ hx)
    simp [path.Ext.go, hc.1, hc.2, ih _ hl2]

/-- The extension of a path whose final element has no dot is empty. -/
theorem path_Ext_no_dot (dir file : GoString) (hfile : '/' ∉ file) (hdot : '.' ∉ file)
    (hdir : dir = [] ∨ dir.getLast? = some '/') :
    path.Ext (dir ++ file) = [] := by
  unfold path.Ext
  rw [List.reverse_append, Ext_go_skip]
  · rcases hdir with h | h
    · subst h; simp [path.Ext.go]
    · obtain ⟨d, hd⟩ := getLast?_slash dir h
      subst hd
      simp [path.Ext.go]
  · intro c hc
    have hc2 : c ∈ file := by simpa using hc
    exact ⟨fun h => hfile (h ▸ hc2), fun h => hdot (h ▸ hc2)⟩

/-- The extension of a path whose final element is `stem.tail` with a dot-free
`tail` is `.tail`. -/
theorem path_Ext_dot (dir stem tail : GoString) (htail : '/' ∉ tail)
    (hdot : '.' ∉ tail) :
    path.Ext (dir ++ (stem ++ '.' :: tail)) = '.' :: tail := by
  unfold path.Ext
  have : (dir ++ (stem ++ '.' :: tail)).reverse = tail.reverse ++ ('.' :: (stem.reverse ++ dir.reverse)) := by
    simp
  rw [this, Ext_go_skip]
  · simp [path.Ext.go]
  · intro c hc
    have hc2 : c ∈ tail := by simpa using hc
    exact ⟨fun h => htail (h ▸ hc2), fun h => hdot (h ▸ hc2)⟩

theorem TrimSuffix_append (a b : GoString) : strings.TrimSuffix (a ++ b) b = a := by
  unfold strings.TrimSuffix strings.HasSuffix
  have : b.isSuffixOf (a ++ b) = true := by
    simp
  simp [this]

theorem TrimSuffix_nil (a : GoString) : strings.TrimSuffix a [] = a := by
  simpa using TrimSuffix_append a []

/-! ### Claims on `uniqueFiles` and on non-merged naming -/

/-- C1: on a list of descriptors that all carry a name, `uniqueFiles` returns
exactly the entries that no earlier entry shares its name with, unaltered and
in input order.  Hence the output is a subsequence of the input, its names are
pairwise distinct, every name of the input occurs in it, and the first entry
with a given name sits right after the kept entries among those before it. -/
theorem uniqueFiles_keeps_first_occurrences (input : List FileDescriptorProto)
    (hnamed : ∀ d ∈ input, d.Name ≠ none) :
    uniqueFiles input = some (firstOccurrences input)
    ∧ (firstOccurrences input).Sublist input
    ∧ ((firstOccurrences input).map (fun d => d.Name)).Nodup
    ∧ (∀ d ∈ input, ∃ e ∈ firstOccurrences input, e.Name = d.Name)
    ∧ (∀ pre d post, input = pre ++ d :: post → (∀ e ∈ pre, e.Name ≠ d.Name) →
        ∃ outPost, firstOccurrences input = firstOccurrences pre ++ d :: outPost) := by
  refine ⟨?_, ?_, ?_, ?_, ?_⟩
  · unfold uniqueFiles
    rw [uniqueFilesLoop_eq input [] [] [] hnamed (by simp [GoMap.get?]), firstOccurrences_eq]
    simp
  · rw [firstOccurrences_eq]; exact keptAfter_sublist _ _
  · rw [firstOccurrences_eq]; exact keptAfter_nodup _ _
  · rw [firstOccurrences_eq]
    intro d hd
    simpa using keptAfter_covers [] input d hd
  · intro pre d post hin hpre
    subst hin
    rw [firstOccurrences_eq, firstOccurrences_eq, keptAfter_append]
    have hall : (pre.all (fun e => decide (e.Name ≠ d.Name))) = true := by
      simpa using hpre
    refine ⟨keptAfter (pre ++ [d]) post, ?_⟩
    simp only [List.nil_append, keptAfter, hall, if_true]

/-- C1, at a concrete input: of four descriptors named `a`, `b`, `a`, `c` the
first, second and fourth are kept. -/
theorem uniqueFiles_keeps_first_occurrences_witness :
    uniqueFiles
        [⟨some "a".toList, some "p".toList, []⟩, ⟨some "b".toList, none, []⟩,
         ⟨some "a".toList, some "q".toList, []⟩, ⟨some "c".toList, none, ["a".toList]⟩]
      = some (firstOccurrences
        [⟨some "a".toList, some "p".toList, []⟩, ⟨some "b".toList, none, []⟩,
         ⟨some "a".toList, some "q".toList, []⟩, ⟨some "c".toList, none, ["a".toList]⟩])
    ∧ firstOccurrences
        [⟨some "a".toList, some "p".toList, []⟩, ⟨some "b".toList, none, []⟩,
         ⟨some "a".toList, some "q".toList, []⟩, ⟨some "c".toList, none, ["a".toList]⟩]
      = [⟨some "a".toList, some "p".toList, []⟩, ⟨some "b".toList, none, []⟩,
         ⟨some "c".toList, none, ["a".toList]⟩] :=
  ⟨(uniqueFiles_keeps_first_occurrences _ (by decide)).1, by decide⟩

/-- Non-merged naming on a source name given as `dir ++ file`, with `dir` empty
or ending in a slash and `file` free of slashes. -/
theorem resolveGraphqlFilename_no_merge_parts (getwd : Option GoString)
    (dir file extension : GoString) (hext : '/' ∉ extension) (hfile : '/' ∉ file)
    (hdir : dir = [] ∨ dir.getLast? = some '/') :
    ('.' ∉ file →
      resolveGraphqlFilename getwd (dir ++ file) false extension
        = dir ++ file ++ '.' :: extension)
    ∧ (∀ stem tail, file = stem ++ '.' :: tail → '.' ∉ tail →
      resolveGraphqlFilename getwd (dir ++ file) false extension
        = dir ++ stem ++ '.' :: extension)
    ∧ (path.Split (dir ++ file)).1 = dir
    ∧ (path.Split (resolveGraphqlFilename getwd (dir ++ file) false extension)).1 = dir := by
  have hno : '.' ∉ file →
      resolveGraphqlFilename getwd (dir ++ file) false extension
        = dir ++ file ++ '.' :: extension := by
    intro hdot
    simp [resolveGraphqlFilename, path_Ext_no_dot dir file hfile hdot hdir,
      TrimSuffix_nil]
  have hyes : ∀ stem tail, file = stem ++ '.' :: tail → '.' ∉ tail →
      resolveGraphqlFilename getwd (dir ++ file) false extension
        = dir ++ stem ++ '.' :: extension := by
    intro stem tail hst hdot
    subst hst
    have htail : '/' ∉ tail := fun h => hfile (by simp [h])
    have hE := path_Ext_dot dir stem tail htail hdot
    have hT : strings.TrimSuffix (dir ++ (stem ++ '.' :: tail)) ('.' :: tail) = dir ++ stem := by
      have := TrimSuffix_append (dir ++ stem) ('.' :: tail)
      simpa using this
    simp [resolveGraphqlFilename, hE, hT]
  refine ⟨hno, hyes, ?_, ?_⟩
  · rw [path_Split_append dir file hfile hdir]
  · by_cases hdot : '.' ∈ file
    · obtain ⟨stem, tail, hst, htl⟩ : ∃ stem tail, file = stem ++ '.' :: tail ∧ '.' ∉ tail := by
        have hr : '.' ∈ file.reverse := by simpa using hdot
        obtain ⟨a, b, hab, ha⟩ := List.eq_append_cons_of_mem hr
        refine ⟨b.reverse, a.reverse, ?_, by simpa using ha⟩
        have := congrArg List.reverse hab
        simpa using this
      rw [hyes stem tail hst htl, List.append_assoc]
      have hstem : '/' ∉ stem ++ '.' :: extension := by
        intro h
        rcases List.mem_append.mp h with h | h
        · exact hfile (by simp [hst, h])
        · rcases List.mem_cons.mp h with h | h
          · exact absurd h (by decide)
          · exact hext h
      rw [path_Split_append dir _ hstem hdir]
    · rw [hno hdot, List.append_assoc]
      have hstem : '/' ∉ file ++ '.' :: extension := by
        intro h
        rcases List.mem_append.mp h with h | h
        · exact hfile h
        · rcases List.mem_cons.mp h with h | h
          · exact absurd h (by decide)
          · exact hext h
      rw [path_Split_append dir _ hstem hdir]

/-! ### `strings.Index` and `strings.Split` for a one-character separator -/

theorem Index_go_single (c : Char) (s : GoString) (i : Nat) :
    strings.Index.go [c] s i
      = if c ∈ s then ((i + (s.takeWhile (fun x => x ≠ c)).length : Nat) : Int) else -1 := by
  induction s generalizing i with
  | nil => simp [strings.Index.go]
  | cons x t ih =>
    by_cases hx : x = c
    · subst hx
      simp [strings.Index.go, List.isPrefixOf, List.takeWhile]
    · have hx2 : c ≠ x := fun h => hx h.symm
      have hb : (c == x) = false := by simpa using hx2
      simp only [strings.Index.go, List.isPrefixOf, hb, Bool.false_and, Bool.false_eq_true,
        if_false, ih, List.mem_cons, hx2, false_or]
      split
      · simp [List.takeWhile, hx]; omega
      · rfl

theorem Index_single (c : Char) (s : GoString) :
    strings.Index s [c]
      = if c ∈ s then (((s.takeWhile (fun x => x ≠ c)).length : Nat) : Int) else -1 := by
  unfold strings.Index
  rw [Index_go_single]
  simp

theorem takeWhile_ne_append_cons (c : Char) (s : GoString) (hc : c ∈ s) :
    s = s.takeWhile (fun x => x ≠ c) ++ c :: (s.drop ((s.takeWhile (fun x => x ≠ c)).length + 1)) := by
  induction s with
  | nil => simp at hc
  | cons x t ih =>
    by_cases hx : x = c
    · subst hx; simp [List.takeWhile]
    · have hc2 : c ∈ t := by
        rcases List.mem_cons.mp hc with h | h
        · exact absurd h.symm hx
        · exact h
      have := ih hc2
      simp only [List.takeWhile, ne_eq, hx, not_false_eq_true, decide_True, List.length_cons,
        List.drop_succ_cons, List.cons_append, List.cons.injEq, true_and]
      exact this

theorem take_length_takeWhile (p : Char → Bool) (s : GoString) :
    s.take (s.takeWhile p).length = s.takeWhile p := by
  induction s with
  | nil => rfl
  | cons x t ih =>
    by_cases hx : p x = true
    · simp [List.takeWhile, hx, ih]
    · simp [List.takeWhile, hx]

theorem drop_length_takeWhile (p : Char → Bool) (s : GoString) :
    s.drop (s.takeWhile p).length = s.dropWhile p := by
  induction s with
  | nil => rfl
  | cons x t ih =>
    by_cases hx : p x = true
    · simp [List.takeWhile, List.dropWhile, hx, ih]
    · simp [List.takeWhile, List.dropWhile, hx]

theorem not_mem_takeWhile_ne (c : Char) (s : GoString) :
    c ∉ s.takeWhile (fun x => x ≠ c) := by
  intro h
  have := List.mem_takeWhile_imp h
  simp at this

theorem Split_loop_single (c : Char) (fuel : Nat) (s : GoString)
    (hfuel : s.length ≤ fuel) :
    strings.Split.loop [c] fuel s = s.splitOn c := by
  induction fuel generalizing s with
  | zero =>
    have : s = [] := List.length_eq_zero.mp (Nat.le_zero.mp hfuel)
    subst this
    simp [strings.Split.loop, List.splitOn, List.splitOnP_nil]
  | succ fuel ih =>
    unfold strings.Split.loop
    simp only [Index_single]
    by_cases hc : c ∈ s
    · have hs := takeWhile_ne_append_cons c s hc
      have hlen := congrArg List.length hs
      simp only [List.length_append, List.length_cons] at hlen
      have hrest : (s.drop ((s.takeWhile (fun x => x ≠ c)).length + 1)).length ≤ fuel := by
        omega
      have hnot : ∀ x ∈ s.takeWhile (fun x => x ≠ c), ¬ ((x == c) = true) := by
        intro x hx hxc
        have : x = c := by simpa using hxc
        exact not_mem_takeWhile_ne c s (this ▸ hx)
      have hsplit : s.splitOn c = s.takeWhile (fun x => x ≠ c)
          :: (s.drop ((s.takeWhile (fun x => x ≠ c)).length + 1)).splitOn c := by
        conv_lhs => rw [hs]
        exact List.splitOnP_first (fun x => x == c) _ hnot c (by simp) _
      have htake : s.take (s.takeWhile (fun x => x ≠ c)).length = s.takeWhile (fun x => x ≠ c) :=
        take_length_takeWhile _ s
      simp only [hc, if_true, Int.toNat_ofNat, List.length_singleton]
      rw [if_neg (by omega), htake, ih _ hrest, ← hsplit]
    · have hnot : ∀ x ∈ s, ¬ ((x == c) = true) := by
        intro x hx hxc
        have : x = c := by simpa using hxc
        exact hc (this ▸ hx)
      simp only [hc, if_false]
      rw [if_pos (by omega)]
      exact (List.splitOnP_eq_single (fun x => x == c) s hnot).symm

/-- For a one-character separator `strings.Split` is the list-level `splitOn`. -/
theorem Split_single (c : Char) (s : GoString) :
    strings.Split s [c] = s.splitOn c := by
  unfold strings.Split
  simp [Split_loop_single c s.length s (le_refl _)]

/-- The key and the value of a token in the words of the specification: the
text before the first `=` (all of the token when it has none) and the text
after it (empty when there is none). -/
theorem cutParam_eq (t : GoString) :
    cutParam t = (t.takeWhile (fun x => x ≠ '='), (t.dropWhile (fun x => x ≠ '=')).drop 1) := by
  unfold cutParam
  have hlit : "=".toList = ['='] := rfl
  rw [hlit, Index_single]
  by_cases hc : '=' ∈ t
  · have hs := takeWhile_ne_append_cons '=' t hc
    have htake : t.take (t.takeWhile (fun x => x ≠ '=')).length = t.takeWhile (fun x => x ≠ '=') :=
      take_length_takeWhile _ t
    have hdrop : t.dropWhile (fun x => x ≠ '=')
        = t.drop (t.takeWhile (fun x => x ≠ '=')).length :=
      (drop_length_takeWhile _ t).symm
    simp only [hc, if_true, Int.toNat_ofNat, htake, hdrop, List.drop_drop]
    rw [if_pos (by omega)]
  · have hall : ∀ x ∈ t, (fun x => decide (x ≠ '=')) x = true := by
      intro x hx
      have : x ≠ '=' := fun h => hc (h ▸ hx)
      simpa using this
    have h1 : t.takeWhile (fun x => x ≠ '=') = t := List.takeWhile_eq_self_iff.mpr hall
    have h2 : t.dropWhile (fun x => x ≠ '=') = [] := List.dropWhile_eq_nil_iff.mpr hall
    simp only [hc, if_false, h1, h2]
    rw [if_neg (by omega)]
    rfl

/-! ### The parameter loop -/

theorem splitOn_no_sep (c : Char) (n : Nat) (s : GoString) (hn : s.length ≤ n) :
    ∀ l ∈ s.splitOn c, c ∉ l := by
  induction n generalizing s with
  | zero =>
    have : s = [] := List.length_eq_zero.mp (Nat.le_zero.mp hn)
    subst this
    simp [List.splitOn, List.splitOnP_nil]
  | succ n ih =>
    by_cases hc : c ∈ s
    · have hs := takeWhile_ne_append_cons c s hc
      have hlen := congrArg List.length hs
      simp only [List.length_append, List.length_cons] at hlen
      have hnot : ∀ x ∈ s.takeWhile (fun x => x ≠ c), ¬ ((x == c) = true) := by
        intro x hx hxc
        have : x = c := by simpa using hxc
        exact not_mem_takeWhile_ne c s (this ▸ hx)
      have hsplit : s.splitOn c = s.takeWhile (fun x => x ≠ c)
          :: (s.drop ((s.takeWhile (fun x => x ≠ c)).length + 1)).splitOn c := by
        conv_lhs => rw [hs]
        exact List.splitOnP_first (fun x => x == c) _ hnot c (by simp) _
      intro l hl
      rw [hsplit] at hl
      rcases List.mem_cons.mp hl with h | h
      · subst h; exact not_mem_takeWhile_ne c s
      · exact ih _ (by omega) l h
    · have hnot : ∀ x ∈ s, ¬ ((x == c) = true) := by
        intro x hx hxc
        have : x = c := by simpa using hxc
        exact hc (this ▸ hx)
      intro l hl
      have h1 : s.splitOn c = [s] := List.splitOnP_eq_single (fun x => x == c) s hnot
      rw [h1] at hl
      simp at hl
      subst hl
      exact hc

/-- The tokens of a parameter string contain no comma. -/
theorem Split_comma_free (p l : GoString) (hl : l ∈ strings.Split p ",".toList) :
    ',' ∉ l := by
  have hlit : ",".toList = [','] := rfl
  rw [hlit, Split_single] at hl
  exact splitOn_no_sep ',' p.length p (le_refl _) l hl

/-- Splitting the comma-joined form of a non-empty list of comma-free tokens
gives the tokens back. -/
theorem Split_Join_comma (ls : List GoString) (hls : ls ≠ [])
    (hfree : ∀ l ∈ ls, ',' ∉ l) :
    strings.Split (strings.Join ls ",".toList) ",".toList = ls := by
  have hlit : ",".toList = [','] := rfl
  rw [hlit, Split_single]
  exact List.splitOn_intercalate ls ',' hfree hls

theorem decodeTokens_append (a b : List GoString) (st : Params) :
    decodeTokens (a ++ b) st
      = match decodeTokens a st with
        | .ok st1 => decodeTokens b st1
        | .error e => .error e := by
  induction a generalizing st with
  | nil => simp [decodeTokens]
  | cons t a ih =>
    simp only [List.cons_append, decodeTokens]
    cases h : decodeParam st t with
    | ok st1 => simp [ih]
    | error e => simp

/-- A token whose key is none of the six recognised ones leaves the state as it is. -/
theorem decodeParam_unknown (st : Params) (t : GoString)
    (hkey : (cutParam t).1 ∉ ["svc".toList, "merge".toList, "prefix".toList, "ext".toList,
      "go_model".toList, "output".toList]) :
    decodeParam st t = .ok st := by
  simp only [List.mem_cons, List.mem_singleton, List.not_mem_nil, or_false, not_or] at hkey
  obtain ⟨h1, h2, h3, h4, h5, h6⟩ := hkey
  unfold decodeParam
  simp only [h1, h2, h3, h4, h5, h6, if_false]

/-- A token with a boolean key whose value `strconv.ParseBool` rejects fails the round. -/
theorem decodeParam_bad_bool (st : Params) (t : GoString)
    (hkey : (cutParam t).1 ∈ ["svc".toList, "merge".toList, "prefix".toList])
    (hval : strconv.ParseBool (cutParam t).2 = none) :
    decodeParam st t = .error (.numError "ParseBool".toList (cutParam t).2) := by
  simp only [List.mem_cons, List.mem_singleton, List.not_mem_nil, or_false] at hkey
  unfold decodeParam
  rcases hkey with h | h | h
  · simp only [h, hval, if_true]
  · simp only [h]
    rw [if_neg (by decide), if_pos trivial]
    simp only [hval]
  · simp only [h]
    rw [if_neg (by decide), if_neg (by decide), if_pos trivial]
    simp only [hval]

theorem decodeTokens_bad_bool (ts : List GoString) (st : Params) (t : GoString) (ht : t ∈ ts)
    (hkey : (cutParam t).1 ∈ ["svc".toList, "merge".toList, "prefix".toList])
    (hval : strconv.ParseBool (cutParam t).2 = none) :
    ∃ e, decodeTokens ts st = .error e := by
  induction ts generalizing st with
  | nil => simp at ht
  | cons x ts ih =>
    simp only [decodeTokens]
    cases hx : decodeParam st x with
    | error e => exact ⟨e, rfl⟩
    | ok st1 =>
      rcases List.mem_cons.mp ht with h | h
      · subst h
        rw [decodeParam_bad_bool st t hkey hval] at hx
        cases hx
      · exact ih st1 h

/-! ### The output loops -/

/-- The name `generateFile` and the emit loop of `generate` give to a schema with
a first descriptor when there is no output override. -/
theorem generateFile_no_override {FS Schema : Type} (env : CliEnv FS Schema) (fs : FS)
    (schema : SchemaDescriptor Schema) (merge : Bool) (config : Config) (extension : GoString)
    (fd : FileDescriptorProto) (tl : List FileDescriptorProto)
    (hfd : schema.FileDescriptors = fd :: tl)
    (hout : config.Output = none ∨ config.Output = some []) :
    generateFile env fs schema merge config extension
      = match env.osCreate fs (resolveGraphqlFilename env.getwd fd.GetName merge extension) with
        | .error err =>
          ([.osCreate (resolveGraphqlFilename env.getwd fd.GetName merge extension)],
            .returned (.error err))
        | .ok fs1 =>
          ([.osCreate (resolveGraphqlFilename env.getwd fd.GetName merge extension),
            .FormatSchema (resolveGraphqlFilename env.getwd fd.GetName merge extension)
              schema.AsGraphql],
            .returned (.ok (env.FormatSchema fs1
              (resolveGraphqlFilename env.getwd fd.GetName merge extension) schema.AsGraphql))) := by
  unfold generateFile
  rcases hout with h | h <;> simp [h, hfd]

theorem generateFile_override {FS Schema : Type} (env : CliEnv FS Schema) (fs : FS)
    (schema : SchemaDescriptor Schema) (merge : Bool) (config : Config) (extension : GoString)
    (o : GoString) (ho : o ≠ []) (hout : config.Output = some o) :
    generateFile env fs schema merge config extension
      = match env.osCreate fs o with
        | .error err => ([.osCreate o], .returned (.error err))
        | .ok fs1 =>
          ([.osCreate o, .FormatSchema o schema.AsGraphql],
            .returned (.ok (env.FormatSchema fs1 o schema.AsGraphql))) := by
  unfold generateFile
  simp [hout, ho]

theorem generate_emit_override {Plugin Descs Schema : Type} (env : PluginEnv Plugin Descs Schema)
    (st : Params) (o : GoString) (ho : o ≠ []) (hout : st.config.Output = some o)
    (gs : List (SchemaDescriptor Schema)) (outFiles : List ResponseFile) :
    generate.emit env st gs outFiles
      = .returned (outFiles ++ gs.map (fun g =>
          { Name := o, Content := env.FormatSchema g.AsGraphql }), none) := by
  induction gs generalizing outFiles with
  | nil => simp [generate.emit]
  | cons g gs ih =>
    unfold generate.emit
    simp [hout, ho, ih]

/-- Without an output override, the files the output loop creates and the
schemas it writes are, in order, those of a leading part of the schemas, each
under its name; the file of the first schema is created when it has a source
file. -/
theorem mainLoop_names_leading_part {FS Schema : Type} (env : CliEnv FS Schema)
    (merge : Bool) (config : Config) (extension : GoString)
    (groups : List (SchemaDescriptor Schema)) (fs : FS)
    (hout : config.Output = none ∨ config.Output = some []) :
    createdNames (mainLoop env merge config extension groups fs).1
      <+: groups.map (fun g =>
        resolveGraphqlFilename env.getwd ((g.FileDescriptors.head?.map (fun fd => fd.GetName)).getD [])
          (if g.FileDescriptors.length > 1 then true else merge) extension)
    ∧ writtenSchemas (mainLoop env merge config extension groups fs).1
      <+: groups.map (fun g =>
        (resolveGraphqlFilename env.getwd ((g.FileDescriptors.head?.map (fun fd => fd.GetName)).getD [])
          (if g.FileDescriptors.length > 1 then true else merge) extension, g.AsGraphql))
    ∧ (∀ g rest, groups = g :: rest → 1 ≤ g.FileDescriptors.length →
        (createdNames (mainLoop env merge config extension groups fs).1).head?
          = some (resolveGraphqlFilename env.getwd
              ((g.FileDescriptors.head?.map (fun fd => fd.GetName)).getD [])
              (if g.FileDescriptors.length > 1 then true else merge) extension)) := by
  induction groups generalizing fs with
  | nil =>
    refine ⟨?_, ?_, ?_⟩
    · simp [mainLoop, createdNames]
    · simp [mainLoop, writtenSchemas]
    · intro g rest h; cases h
  | cons g rest ih =>
    cases hfd : g.FileDescriptors with
    | nil =>
      refine ⟨?_, ?_, ?_⟩
      · simp [mainLoop, hfd, createdNames]
      · simp [mainLoop, hfd, writtenSchemas]
      · intro g2 rest2 h hlen
        cases h
        simp [hfd] at hlen
    | cons fd tl =>
      cases tl with
      | nil =>
        have hgen := generateFile_no_override env fs g merge config extension fd [] hfd hout
        cases hc : env.osCreate fs (resolveGraphqlFilename env.getwd fd.GetName merge extension) with
        | error err =>
          rw [hc] at hgen
          refine ⟨?_, ?_, ?_⟩
          · simp [mainLoop, hfd, hgen, createdNames]
          · simp [mainLoop, hfd, hgen, writtenSchemas]
          · intro g2 rest2 h _
            cases h
            simp [mainLoop, hfd, hgen, createdNames]
        | ok fs1 =>
          rw [hc] at hgen
          obtain ⟨ih1, ih2, _⟩ := ih (env.FormatSchema fs1
            (resolveGraphqlFilename env.getwd fd.GetName merge extension) g.AsGraphql)
          refine ⟨?_, ?_, ?_⟩
          · simp only [mainLoop, hfd, hgen, createdNames, List.map_cons, List.length_singleton,
              List.head?_cons, Option.map_some', Option.getD_some]
            simpa [createdNames] using ih1
          · simp only [mainLoop, hfd, hgen, writtenSchemas, List.map_cons, List.length_singleton,
              List.head?_cons, Option.map_some', Option.getD_some]
            simpa [writtenSchemas] using ih2
          · intro g2 rest2 h _
            cases h
            simp [mainLoop, hfd, hgen, createdNames]
      | cons fd2 tl2 =>
        have hgen := generateFile_no_override env fs g true config extension fd (fd2 :: tl2) hfd hout
        cases hc : env.osCreate fs (resolveGraphqlFilename env.getwd fd.GetName true extension) with
        | error err =>
          rw [hc] at hgen
          refine ⟨?_, ?_, ?_⟩
          · simp [mainLoop, hfd, hgen, createdNames]
          · simp [mainLoop, hfd, hgen, writtenSchemas]
          · intro g2 rest2 h _
            cases h
            simp [mainLoop, hfd, hgen, createdNames]
        | ok fs1 =>
          rw [hc] at hgen
          refine ⟨?_, ?_, ?_⟩
          · simp [mainLoop, hfd, hgen, createdNames]
          · simp [mainLoop, hfd, hgen, writtenSchemas]
          · intro g2 rest2 h _
            cases h
            simp [mainLoop, hfd, hgen, createdNames]

/-- C6: an output override `o` that is not empty is the resolved name in both
front ends.  `generateFile` of the command-line tool creates exactly the file
`o`, whatever the schema, the merge flag and the extension are; and when the
parameter string of the plugin decodes to a configuration with output `o` and
the collaborators succeed, `generate` returns one entry per schema, each named
`o`. -/
theorem output_override_is_the_name (o : GoString) (ho : o ≠ []) :
    (∀ {FS Schema : Type} (env : CliEnv FS Schema) (fs : FS) (schema : SchemaDescriptor Schema)
        (merge : Bool) (config : Config) (extension : GoString),
        config.Output = some o →
        createdNames (generateFile env fs schema merge config extension).1 = [o])
    ∧ (∀ {Plugin Descs Schema : Type} (env : PluginEnv Plugin Descs Schema)
        (req : CodeGeneratorRequest) (st : Params) (p : Plugin) (descs : Descs)
        (gs : List (SchemaDescriptor Schema)),
        decodeParameter req.GetParameter = .ok st → st.config.Output = some o →
        env.protogenNew req = .ok p → env.CreateDescriptorsFromProto req = .ok descs →
        env.NewSchemas descs st.merge st.genServiceDesc p st.config = .ok gs →
        (generate env req).2
          = .returned (gs.map (fun g => { Name := o, Content := env.FormatSchema g.AsGraphql }),
              none)) := by
  refine ⟨?_, ?_⟩
  · intro FS Schema env fs schema merge config extension hout
    rw [generateFile_override env fs schema merge config extension o ho hout]
    cases env.osCreate fs o <;> simp [createdNames]
  · intro Plugin Descs Schema env req st p descs gs hdec hout hp hd hs
    unfold generate
    simp only [hdec, hp, hd, hs]
    rw [generate_emit_override env st o ho hout]
    simp

/-- C6, at the specification's example `out.graphql`: the command-line tool
creates `out.graphql` for a schema from `svc/a.proto`, and the plugin run with
the parameter `output=out.graphql` names the entries of two schemas
`out.graphql`. -/
theorem output_override_is_the_name_witness :
    createdNames (generateFile (fixedCliEnv none) [] ⟨[namedFile "svc/a.proto"], "S1".toList⟩
        true ⟨some false, some [], some "out.graphql".toList⟩ "gql".toList).1
      = ["out.graphql".toList]
    ∧ (generate (fixedPluginEnv [⟨[namedFile "svc/a.proto"], "S1".toList⟩,
          ⟨[namedFile "b.proto", namedFile "c.proto"], "S2".toList⟩] none)
        (requestWith "merge=true,output=out.graphql")).2
      = .returned ([⟨"out.graphql".toList, "S1".toList⟩, ⟨"out.graphql".toList, "S2".toList⟩],
          none) :=
  ⟨(output_override_is_the_name "out.graphql".toList (by decide)).1 (fixedCliEnv none) []
      ⟨[namedFile "svc/a.proto"], "S1".toList⟩ true
      ⟨some false, some [], some "out.graphql".toList⟩ "gql".toList rfl,
   (output_override_is_the_name "out.graphql".toList (by decide)).2
      (fixedPluginEnv [⟨[namedFile "svc/a.proto"], "S1".toList⟩,
          ⟨[namedFile "b.proto", namedFile "c.proto"], "S2".toList⟩] none)
      (requestWith "merge=true,output=out.graphql")
      ⟨false, true, false, "graphql".toList, ⟨none, none, some "out.graphql".toList⟩⟩ () ()
      _ rfl rfl rfl rfl rfl⟩

/-- C4: the plugin does not force merged naming.  With the empty parameter
string (merge off) and a Translator that returns one schema built from
`svc/a.proto` and `svc/b.proto`, `generate` names the entry `svc/a.graphql`,
whereas merged naming of the first source file is `svc/svc.graphql`, the name
the same schema gets with `merge=true`. -/
theorem generate_does_not_force_merge :
    (generate (fixedPluginEnv
        [⟨[namedFile "svc/a.proto", namedFile "svc/b.proto"], "SDL".toList⟩]
        (some "/work".toList)) (requestWith "")).2
      = .returned ([⟨"svc/a.graphql".toList, "SDL".toList⟩], none)
    ∧ resolveGraphqlFilename (some "/work".toList) (namedFile "svc/a.proto").GetName true
        "graphql".toList = "svc/svc.graphql".toList
    ∧ (generate (fixedPluginEnv
        [⟨[namedFile "svc/a.proto", namedFile "svc/b.proto"], "SDL".toList⟩]
        (some "/work".toList)) (requestWith "merge=true")).2
      = .returned ([⟨"svc/svc.graphql".toList, "SDL".toList⟩], none) := by
  decide

/-- C7: the plugin does not reject a schema without source files.  With an output
override such a schema is emitted as an entry and no error is returned; without
one the lookup of the first source file is made and ends the run in a panic,
not in a returned count-mismatch error. -/
theorem generate_zero_source_files :
    (generate (fixedPluginEnv [⟨[], "SDL".toList⟩] (some "/work".toList))
        (requestWith "output=out.graphql")).2
      = .returned ([⟨"out.graphql".toList, "SDL".toList⟩], none)
    ∧ (generate (fixedPluginEnv [⟨[], "SDL".toList⟩] (some "/work".toList))
        (requestWith "")).2
      = .panic "index out of range [0] with length 0".toList := by
  decide

/-- C10: the output loop stops after the first schema with more than one source
file.  For a schema from `svc/a.proto` and `svc/b.proto` followed by a schema
from `x/c.proto`, with every file creation succeeding, `generateFile` is called
once, only `svc/svc.graphql` is created, and the run ends normally. -/
theorem mainLoop_stops_after_merged_schema :
    generateFileCalls (mainLoop (fixedCliEnv (some "/work".toList)) false
        ⟨some false, some [], some []⟩ "graphql".toList
        [⟨[namedFile "svc/a.proto", namedFile "svc/b.proto"], "S1".toList⟩,
         ⟨[namedFile "x/c.proto"], "S2".toList⟩] []).1 = 1
    ∧ createdNames (mainLoop (fixedCliEnv (some "/work".toList)) false
        ⟨some false, some [], some []⟩ "graphql".toList
        [⟨[namedFile "svc/a.proto", namedFile "svc/b.proto"], "S1".toList⟩,
         ⟨[namedFile "x/c.proto"], "S2".toList⟩] []).1 = ["svc/svc.graphql".toList]
    ∧ (mainLoop (fixedCliEnv (some "/work".toList)) false
        ⟨some false, some [], some []⟩ "graphql".toList
        [⟨[namedFile "svc/a.proto", namedFile "svc/b.proto"], "S1".toList⟩,
         ⟨[namedFile "x/c.proto"], "S2".toList⟩] []).2
      = ([("svc/svc.graphql".toList, "S1".toList)], .returned ()) := by
  decide

theorem ParseBool_eq_none (v : GoString)
    (hv : v ∉ ["1".toList, "t".toList, "T".toList, "TRUE".toList, "true".toList, "True".toList,
      "0".toList, "f".toList, "F".toList, "FALSE".toList, "false".toList, "False".toList]) :
    strconv.ParseBool v = none := by
  simp only [List.mem_cons, List.mem_singleton, List.not_mem_nil, or_false, not_or] at hv
  obtain ⟨h1, h2, h3, h4, h5, h6, h7, h8, h9, h10, h11, h12⟩ := hv
  unfold strconv.ParseBool
  simp only [h1, h2, h3, h4, h5, h6, h7, h8, h9, h10, h11, h12, or_self, if_false]

/-- C8, as amended: when the parameter string has a token whose key (the text
before its first `=`) is `svc`, `merge` or `prefix` and whose value (the text
after it, empty without `=`) is none of the twelve spellings that
`strconv.ParseBool` accepts, `generate` returns an error and no file entries,
having called none of its collaborators. -/
theorem generate_rejects_bad_boolean {Plugin Descs Schema : Type}
    (env : PluginEnv Plugin Descs Schema) (req : CodeGeneratorRequest) (t : GoString)
    (ht : t ∈ strings.Split req.GetParameter ",".toList)
    (hkey : t.takeWhile (fun x => x ≠ '=') ∈ ["svc".toList, "merge".toList, "prefix".toList])
    (hval : (t.dropWhile (fun x => x ≠ '=')).drop 1 ∉
      ["1".toList, "t".toList, "T".toList, "TRUE".toList, "true".toList, "True".toList,
       "0".toList, "f".toList, "F".toList, "FALSE".toList, "false".toList, "False".toList]) :
    ∃ e, generate env req = ([], .returned ([], some e)) := by
  have hcut := cutParam_eq t
  have hk : (cutParam t).1 ∈ ["svc".toList, "merge".toList, "prefix".toList] := by
    rw [hcut]; exact hkey
  have hv : strconv.ParseBool (cutParam t).2 = none := by
    rw [hcut]; exact ParseBool_eq_none _ hval
  obtain ⟨e, he⟩ := decodeTokens_bad_bool _ Params.initial t ht hk hv
  refine ⟨e, ?_⟩
  unfold generate decodeParameter
  simp only [he]

/-- C8 as amended, at the parameter string `svc=true,merge=yes`: the value `yes`
of the second token is rejected. -/
theorem generate_rejects_bad_boolean_witness :
    ∃ e, generate (fixedPluginEnv [⟨[namedFile "a.proto"], "SDL".toList⟩] none)
      (requestWith "svc=true,merge=yes") = ([], .returned ([], some e)) :=
  generate_rejects_bad_boolean (fixedPluginEnv [⟨[namedFile "a.proto"], "SDL".toList⟩] none)
    (requestWith "svc=true,merge=yes") "merge=yes".toList (by decide) (by decide) (by decide)

/-- C8 as stated fails at the parameter string `svc=1`: its only token has the key
`svc` and the value `1`, which is neither `true` nor `false`, yet `generate`
returns no error and has called all three of its collaborators, with service
nodes switched on. -/
theorem generate_accepts_svc_1 :
    "svc=1".toList ∈ strings.Split (requestWith "svc=1").GetParameter ",".toList
    ∧ "svc=1".toList.takeWhile (fun x => x ≠ '=') = "svc".toList
    ∧ ("svc=1".toList.dropWhile (fun x => x ≠ '=')).drop 1 = "1".toList
    ∧ "1".toList ≠ "true".toList ∧ "1".toList ≠ "false".toList
    ∧ generate (fixedPluginEnv [] none) (requestWith "svc=1")
      = ([.protogenNew, .CreateDescriptorsFromProto, .NewSchemas false true ⟨none, none, none⟩],
          .returned ([], none)) := by
  decide

/-- C9: a token without a comma whose key (the text before its first `=`, or the
whole token) is none of `svc`, `merge`, `prefix`, `ext`, `go_model`, `output`
changes nothing.  If `p` decodes to a configuration, then the parameter string
made of the tokens of `p` with the token `t` put in at any place decodes to the
same configuration. -/
theorem decodeParameter_ignores_unknown_key (p t : GoString) (pre post : List GoString)
    (st : Params)
    (hsplit : strings.Split p ",".toList = pre ++ post)
    (hcomma : ',' ∉ t)
    (hkey : t.takeWhile (fun x => x ≠ '=') ∉ ["svc".toList, "merge".toList, "prefix".toList,
      "ext".toList, "go_model".toList, "output".toList])
    (hdec : decodeParameter p = .ok st) :
    decodeParameter (strings.Join (pre ++ t :: post) ",".toList) = .ok st := by
  have hfree : ∀ l ∈ pre ++ t :: post, ',' ∉ l := by
    intro l hl
    rcases List.mem_append.mp hl with h | h
    · exact Split_comma_free p l (by rw [hsplit]; exact List.mem_append_left _ h)
    · rcases List.mem_cons.mp h with h | h
      · subst h; exact hcomma
      · exact Split_comma_free p l (by rw [hsplit]; exact List.mem_append_right _ h)
  have hk : (cutParam t).1 ∉ ["svc".toList, "merge".toList, "prefix".toList,
      "ext".toList, "go_model".toList, "output".toList] := by
    rw [cutParam_eq]; exact hkey
  unfold decodeParameter at hdec ⊢
  rw [Split_Join_comma _ (by simp) hfree, decodeTokens_append]
  rw [hsplit, decodeTokens_append] at hdec
  cases hpre : decodeTokens pre Params.initial with
  | error e => rw [hpre] at hdec; cases hdec
  | ok st1 =>
    rw [hpre] at hdec
    simp only [decodeTokens, decodeParam_unknown st1 t hk]
    exact hdec

/-- C9, at the specification's example: `svc=true` decodes with service nodes on,
and so does `svc=true,bogus=1`, to the same configuration. -/
theorem decodeParameter_ignores_unknown_key_witness :
    decodeParameter "svc=true".toList
      = .ok ⟨true, false, false, "graphql".toList, ⟨none, none, none⟩⟩
    ∧ strings.Join (["svc=true".toList] ++ "bogus=1".toList :: []) ",".toList
      = "svc=true,bogus=1".toList
    ∧ decodeParameter (strings.Join (["svc=true".toList] ++ "bogus=1".toList :: []) ",".toList)
      = .ok ⟨true, false, false, "graphql".toList, ⟨none, none, none⟩⟩ :=
  ⟨rfl, by decide,
    decodeParameter_ignores_unknown_key "svc=true".toList "bogus=1".toList ["svc=true".toList] []
      ⟨true, false, false, "graphql".toList, ⟨none, none, none⟩⟩ (by decide) (by decide)
      (by decide) rfl⟩

/-! ### The loop of `path.Clean` -/

/-- Every path is a directory part, empty or ending in a slash, followed by a
file part without a slash. -/
theorem exists_dir_file (p : GoString) :
    ∃ dir file, p = dir ++ file ∧ '/' ∉ file ∧ (dir = [] ∨ dir.getLast? = some '/') := by
  refine ⟨(p.reverse.dropWhile (fun x => x ≠ '/')).reverse,
    (p.reverse.takeWhile (fun x => x ≠ '/')).reverse, ?_, ?_, ?_⟩
  · rw [← List.reverse_append, List.takeWhile_append_dropWhile, List.reverse_reverse]
  · intro h
    have h1 : '/' ∈ p.reverse.takeWhile (fun x => x ≠ '/') := List.mem_reverse.mp h
    have := List.mem_takeWhile_imp h1
    simp at this
  · by_cases h : p.reverse.dropWhile (fun x => x ≠ '/') = []
    · left; rw [h]; rfl
    · right
      rw [List.getLast?_reverse]
      have h1 := List.head?_dropWhile_not (fun x => decide (x ≠ '/')) p.reverse
      cases hd : (p.reverse.dropWhile (fun x => x ≠ '/')).head? with
      | none => exact absurd (List.head?_eq_none_iff.mp hd) h
      | some c =>
        rw [hd] at h1
        simp at h1
        rw [h1]

theorem dropWhile_append_slash (x g : GoString) :
    (x ++ '/' :: g).dropWhile (fun c => c ≠ '/') = x.dropWhile (fun c => c ≠ '/') ++ '/' :: g := by
  induction x with
  | nil => rfl
  | cons c x ih =>
    by_cases hc : c = '/'
    · subst hc; rfl
    · have hd : decide (c ≠ '/') = true := by simpa using hc
      simp only [List.cons_append, List.dropWhile, hd]
      exact ih

theorem dropWhile_length_le (p : Char → Bool) (x : GoString) :
    (x.dropWhile p).length ≤ x.length := by
  induction x with
  | nil => simp
  | cons c x ih =>
    simp only [List.dropWhile]
    split
    · simp only [List.length_cons]; omega
    · simp

/-- The input left by one round of the loop. -/
theorem Clean_step_fst (rooted : Bool) (c : Char) (t out : GoString) (dotdot : Nat) :
    (path.Clean.step rooted c t out dotdot).1
      = if c = '/' then t
        else if c = '.' ∧ (t = [] ∨ t.head? = some '/') then t
        else if c = '.' ∧ t.head? = some '.' ∧ (t.tail = [] ∨ t.tail.head? = some '/') then t.tail
        else (c :: t).dropWhile (fun x => x ≠ '/') := by
  unfold path.Clean.step
  split_ifs <;> rfl

/-- A round of the loop entered before a slash that precedes `g` leaves the
input before such a slash again, or at `g`. -/
theorem Clean_step_rest (rooted : Bool) (c : Char) (t x g out : GoString) (dotdot : Nat)
    (hx : c :: t = x ++ '/' :: g) :
    (x = [] ∧ path.Clean.step rooted c t out dotdot = (g, out, dotdot))
    ∨ ∃ x2, x2.length < x.length
        ∧ (path.Clean.step rooted c t out dotdot).1 = x2 ++ '/' :: g := by
  cases x with
  | nil =>
    left
    simp only [List.nil_append, List.cons.injEq] at hx
    obtain ⟨hc, ht⟩ := hx
    subst hc; subst ht
    simp [path.Clean.step]
  | cons c2 x1 =>
    right
    simp only [List.cons_append, List.cons.injEq] at hx
    obtain ⟨hc, ht⟩ := hx
    subst hc; subst ht
    rw [Clean_step_fst]
    split_ifs with h1 h2 h3
    · exact ⟨x1, by simp, rfl⟩
    · exact ⟨x1, by simp, rfl⟩
    · cases x1 with
      | nil => simp at h3
      | cons c3 x3 => exact ⟨x3, by simp only [List.length_cons]; omega, rfl⟩
    · refine ⟨x1.dropWhile (fun c => c ≠ '/'), ?_, ?_⟩
      · have := dropWhile_length_le (fun c => decide (c ≠ '/')) x1
        simp only [List.length_cons]; omega
      · have hd : decide (c ≠ '/') = true := by simpa using h1
        simp only [List.dropWhile, hd]
        exact dropWhile_append_slash x1 g

/-- From any state that satisfies an invariant `P` of the rounds, the loop run on
`x ++ "/" ++ g` arrives at the input `g` in a state that satisfies `P`. -/
theorem Clean_loop_reach (rooted : Bool) (P : GoString → Nat → Prop)
    (hP : ∀ c t out dotdot, P out dotdot →
      P (path.Clean.step rooted c t out dotdot).2.1 (path.Clean.step rooted c t out dotdot).2.2)
    (g : GoString) (n : Nat) :
    ∀ (x : GoString) (fuel : Nat) (out : GoString) (dotdot : Nat), x.length ≤ n →
      (x ++ '/' :: g).length ≤ fuel → P out dotdot →
      ∃ fuel2 out2 dotdot2, g.length ≤ fuel2 ∧ P out2 dotdot2
        ∧ path.Clean.loop rooted fuel (x ++ '/' :: g) out dotdot
          = path.Clean.loop rooted fuel2 g out2 dotdot2 := by
  induction n with
  | zero =>
    intro x fuel out dotdot hx hfuel hPo
    have hx0 : x = [] := List.length_eq_zero.mp (Nat.le_zero.mp hx)
    subst hx0
    cases fuel with
    | zero => simp at hfuel
    | succ fuel =>
      refine ⟨fuel, out, dotdot, ?_, hPo, ?_⟩
      · simp at hfuel; omega
      · simp [path.Clean.loop, path.Clean.step]
  | succ n ih =>
    intro x fuel out dotdot hx hfuel hPo
    cases fuel with
    | zero => simp at hfuel
    | succ fuel =>
      cases hxe : x ++ '/' :: g with
      | nil => simp at hxe
      | cons c t =>
        rcases Clean_step_rest rooted c t x g out dotdot hxe.symm with ⟨hx0, hstep⟩ | ⟨x2, hlen, hrest⟩
        · subst hx0
          simp only [List.nil_append, List.cons.injEq] at hxe
          refine ⟨fuel, out, dotdot, ?_, hPo, ?_⟩
          · simp at hfuel; omega
          · simp only [path.Clean.loop, hstep]
        · have hlen2 : (x2 ++ '/' :: g).length ≤ fuel := by
            simp only [List.length_append, List.length_cons] at hfuel ⊢
            omega
          obtain ⟨fuel2, out2, dotdot2, h1, h2, h3⟩ :=
            ih x2 fuel _ _ (by omega) hlen2 (hP c t out dotdot hPo)
          refine ⟨fuel2, out2, dotdot2, h1, h2, ?_⟩
          simp only [path.Clean.loop, hrest]
          exact h3

theorem Clean_loop_nil (rooted : Bool) (fuel : Nat) (out : GoString) (dotdot : Nat) :
    path.Clean.loop rooted fuel [] out dotdot = out := by
  cases fuel <;> rfl

/-- The round of the loop for a real path element. -/
theorem Clean_step_element (rooted : Bool) (c : Char) (t out : GoString) (dotdot : Nat)
    (h1 : c ≠ '/') (h2 : ¬ (c = '.' ∧ (t = [] ∨ t.head? = some '/')))
    (h3 : ¬ (c = '.' ∧ t.head? = some '.' ∧ (t.tail = [] ∨ t.tail.head? = some '/'))) :
    path.Clean.step rooted c t out dotdot
      = ((c :: t).dropWhile (fun x => x ≠ '/'),
         (if (rooted = true ∧ out.length ≠ 1) ∨ (rooted = false ∧ out.length ≠ 0)
           then out ++ ['/'] else out) ++ (c :: t).takeWhile (fun x => x ≠ '/'),
         dotdot) := by
  unfold path.Clean.step
  rw [if_neg h1, if_neg h2, if_neg h3]

theorem IsElement_cons (c : Char) (t : GoString) (h : IsElement (c :: t)) :
    c ≠ '/' ∧ ¬ (c = '.' ∧ (t = [] ∨ t.head? = some '/'))
      ∧ ¬ (c = '.' ∧ t.head? = some '.' ∧ (t.tail = [] ∨ t.tail.head? = some '/')) := by
  obtain ⟨_, hs, hd, hdd⟩ := h
  have hc : c ≠ '/' := fun h => hs (by simp [h])
  have ht : ∀ x ∈ t, x ≠ '/' := fun x hx h => hs (List.mem_cons_of_mem _ (h ▸ hx))
  refine ⟨hc, ?_, ?_⟩
  · rintro ⟨h1, h2 | h2⟩
    · subst h1; subst h2; exact hd rfl
    · cases t with
      | nil => simp at h2
      | cons y t => simp at h2; exact ht y (by simp) h2
  · rintro ⟨h1, h2, h3⟩
    cases t with
    | nil => simp at h2
    | cons y t =>
      simp at h2
      subst h1; subst h2
      rcases h3 with h3 | h3
      · simp at h3; subst h3; exact hdd rfl
      · cases t with
        | nil => simp at h3
        | cons z t => simp at h3; exact ht z (by simp) h3

/-- Run on a real path element alone, the loop appends it to the buffer, after a
slash where one is needed. -/
theorem Clean_loop_element (rooted : Bool) (g : GoString) (hg : IsElement g) (fuel : Nat)
    (out : GoString) (dotdot : Nat) (hfuel : g.length ≤ fuel) :
    path.Clean.loop rooted fuel g out dotdot
      = (if (rooted = true ∧ out.length ≠ 1) ∨ (rooted = false ∧ out.length ≠ 0)
          then out ++ ['/'] else out) ++ g := by
  cases g with
  | nil => exact absurd rfl hg.1
  | cons c t =>
    cases fuel with
    | zero => simp at hfuel
    | succ fuel =>
      obtain ⟨h1, h2, h3⟩ := IsElement_cons c t hg
      have hall : ∀ x ∈ c :: t, (fun x => decide (x ≠ '/')) x = true := by
        intro x hx
        have : x ≠ '/' := fun h => hg.2.1 (h ▸ hx)
        simpa using this
      have htake : (c :: t).takeWhile (fun x => x ≠ '/') = c :: t :=
        List.takeWhile_eq_self_iff.mpr hall
      have hdrop : (c :: t).dropWhile (fun x => x ≠ '/') = [] :=
        List.dropWhile_eq_nil_iff.mpr hall
      simp only [path.Clean.loop, Clean_step_element rooted c t out dotdot h1 h2 h3, htake, hdrop,
        Clean_loop_nil]

/-- In the branch of the loop for a real path element, the text copied to the
buffer is a real path element. -/
theorem takeWhile_IsElement (c : Char) (t : GoString)
    (h1 : c ≠ '/') (h2 : ¬ (c = '.' ∧ (t = [] ∨ t.head? = some '/')))
    (h3 : ¬ (c = '.' ∧ t.head? = some '.' ∧ (t.tail = [] ∨ t.tail.head? = some '/'))) :
    IsElement ((c :: t).takeWhile (fun x => x ≠ '/')) := by
  have hd : decide (c ≠ '/') = true := by simpa using h1
  have hcons : (c :: t).takeWhile (fun x => x ≠ '/') = c :: t.takeWhile (fun x => x ≠ '/') := by
    simp only [List.takeWhile, hd]
  have hnil : ∀ u : GoString, u.takeWhile (fun x => x ≠ '/') = [] → u = [] ∨ u.head? = some '/' := by
    intro u hu
    cases u with
    | nil => left; rfl
    | cons y u =>
      right
      by_cases hy : y = '/'
      · simp [hy]
      · have : decide (y ≠ '/') = true := by simpa using hy
        simp only [List.takeWhile, this] at hu
        cases hu
  refine ⟨?_, ?_, ?_, ?_⟩
  · rw [hcons]; exact List.cons_ne_nil _ _
  · intro h
    have := List.mem_takeWhile_imp h
    simp at this
  · rw [hcons]
    intro h
    simp only [List.cons.injEq] at h
    exact h2 ⟨h.1, hnil t h.2⟩
  · rw [hcons]
    intro h
    simp only [List.cons.injEq] at h
    obtain ⟨hc, ht⟩ := h
    cases t with
    | nil => simp at ht
    | cons y t =>
      by_cases hy : y = '/'
      · subst hy
        have : decide ('/' ≠ '/') = false := by decide
        simp only [List.takeWhile, this] at ht
        cases ht
      · have hyd : decide (y ≠ '/') = true := by simpa using hy
        simp only [List.takeWhile, hyd, List.cons.injEq] at ht
        exact h3 ⟨hc, by simp [ht.1], by simpa using hnil t ht.2⟩

/-! ### Clean rooted paths -/

theorem backtrack_to_slash (dotdot : Nat) (a b : GoString) (hb : '/' ∉ b)
    (hdd : dotdot ≤ a.length) (k : Nat) (hk : k ≤ b.length) :
    path.Clean.backtrack dotdot (a ++ '/' :: b) (a.length + k) = a.length := by
  induction k with
  | zero =>
    cases ha : a.length with
    | zero => rfl
    | succ n =>
      have hget : (a ++ '/' :: b).get? (n + 1) = some '/' := by
        rw [← ha, List.get?_eq_getElem?, List.getElem?_append_right (le_refl _)]
        simp
      simp only [Nat.add_zero, path.Clean.backtrack, hget, ne_eq, not_true_eq_false, and_false,
        if_false]
  | succ k ih =>
    have hlt : k < b.length := by omega
    have hget : (a ++ '/' :: b).get? (a.length + (k + 1)) = some (b.get ⟨k, hlt⟩) := by
      simp [List.getElem?_append_right, List.getElem?_eq_getElem hlt]
    have hne : b.get ⟨k, hlt⟩ ≠ '/' := fun h => hb (h ▸ List.get_mem b k hlt)
    have hrw : a.length + (k + 1) = (a.length + k) + 1 := by omega
    rw [hrw, path.Clean.backtrack]
    rw [← hrw, hget]
    rw [if_pos ⟨by omega, by simpa using hne⟩]
    exact ih (by omega)

theorem backtrack_root (b : GoString) (hb : '/' ∉ b) (k : Nat) :
    path.Clean.backtrack 1 ('/' :: b) (k + 1) = 1 := by
  induction k with
  | zero => simp [path.Clean.backtrack]
  | succ k ih =>
    have hget : ('/' :: b).get? (k + 1 + 1) ≠ some '/' := by
      intro h
      simp only [List.get?_cons_succ] at h
      exact hb (List.get?_mem h)
    rw [path.Clean.backtrack, if_pos ⟨by omega, hget⟩]
    exact ih

theorem IsCleanRooted_root : IsCleanRooted ['/'] :=
  ⟨[], by simp, by simp⟩

theorem IsCleanRooted_head (out : GoString) (h : IsCleanRooted out) : out.head? = some '/' := by
  obtain ⟨segs, _, hout⟩ := h
  subst hout
  cases segs with
  | nil => rfl
  | cons s segs => simp

theorem IsCleanRooted_length_one (out : GoString) (h : IsCleanRooted out) (hlen : out.length = 1) :
    out = ['/'] := by
  have hh := IsCleanRooted_head out h
  cases out with
  | nil => simp at hlen
  | cons c t =>
    simp at hh hlen
    subst hh; subst hlen; rfl

/-- Appending a real path element, after a slash unless the buffer is the root,
keeps the buffer a clean rooted path. -/
theorem IsCleanRooted_append (out e : GoString) (h : IsCleanRooted out) (he : IsElement e) :
    IsCleanRooted ((if out.length ≠ 1 then out ++ ['/'] else out) ++ e) := by
  obtain ⟨segs, hsegs, hout⟩ := h
  refine ⟨segs ++ [e], ?_, ?_⟩
  · intro s hs
    rcases List.mem_append.mp hs with h | h
    · exact hsegs s h
    · simp at h; subst h; exact he
  · cases segs with
    | nil =>
      subst hout
      simp
    | cons s segs =>
      have hs : s ≠ [] := (hsegs s (by simp)).1
      have hlen : out.length ≠ 1 := by
        subst hout
        cases s with
        | nil => exact absurd rfl hs
        | cons c s => simp
      rw [if_pos hlen]
      subst hout
      simp

/-- Backtracking over the last element keeps the buffer a clean rooted path. -/
theorem IsCleanRooted_backtrack (out : GoString) (h : IsCleanRooted out) (hlen : out.length > 1) :
    IsCleanRooted (out.take (path.Clean.backtrack 1 out (out.length - 1))) := by
  obtain ⟨segs, hsegs, hout⟩ := h
  rcases List.eq_nil_or_concat segs with h0 | ⟨init, last, hc⟩
  · subst h0; subst hout; simp at hlen
  · rw [List.concat_eq_append] at hc
    subst hc
    have hlast : IsElement last := hsegs last (by simp)
    have hinit : ∀ s ∈ init, IsElement s := fun s hs => hsegs s (by simp [hs])
    have hne : init ++ [last] ≠ [] := by simp
    rw [if_neg hne] at hout
    cases init with
    | nil =>
      have hout2 : out = '/' :: last := by subst hout; simp
      subst hout2
      obtain ⟨n, hn⟩ : ∃ n, last.length = n + 1 := by
        cases last with
        | nil => exact absurd rfl hlast.1
        | cons c l => exact ⟨l.length, rfl⟩
      have hw : ('/' :: last).length - 1 = n + 1 := by simp [hn]
      rw [hw, backtrack_root last hlast.2.1 n]
      exact IsCleanRooted_root
    | cons s init =>
      have hs : s ≠ [] := (hinit s (by simp)).1
      have hout2 : out = ((s :: init).map (fun s => '/' :: s)).flatten ++ '/' :: last := by
        subst hout; simp
      have ha : 1 ≤ (((s :: init).map (fun s => '/' :: s)).flatten).length := by
        simp
      have hw : out.length - 1
          = (((s :: init).map (fun s => '/' :: s)).flatten).length + last.length := by
        rw [hout2]; simp only [List.length_append, List.length_cons]; omega
      rw [hw]
      conv => arg 1; rw [hout2]
      rw [backtrack_to_slash 1 _ last hlast.2.1 ha last.length (le_refl _), List.take_left]
      exact ⟨s :: init, hinit, by simp⟩

/-- Every round of the loop of a rooted path keeps the buffer a clean rooted
path and `dotdot` at 1. -/
theorem Clean_step_rooted (c : Char) (t out : GoString) (dotdot : Nat)
    (h : IsCleanRooted out ∧ dotdot = 1) :
    IsCleanRooted (path.Clean.step true c t out dotdot).2.1
      ∧ (path.Clean.step true c t out dotdot).2.2 = 1 := by
  obtain ⟨hout, hdd⟩ := h
  subst hdd
  by_cases h1 : c = '/'
  · simp only [path.Clean.step, h1, if_true]
    exact ⟨hout, trivial⟩
  · by_cases h2 : c = '.' ∧ (t = [] ∨ t.head? = some '/')
    · simp only [path.Clean.step, if_neg h1, if_pos h2]
      exact ⟨hout, trivial⟩
    · by_cases h3 : c = '.' ∧ t.head? = some '.' ∧ (t.tail = [] ∨ t.tail.head? = some '/')
      · by_cases h4 : out.length > 1
        · simp only [path.Clean.step, if_neg h1, if_neg h2, if_pos h3, if_pos h4]
          exact ⟨IsCleanRooted_backtrack out hout h4, trivial⟩
        · have h5 : ¬ (true = false) := by decide
          simp only [path.Clean.step, if_neg h1, if_neg h2, if_pos h3, if_neg h4, if_neg h5]
          exact ⟨hout, trivial⟩
      · rw [Clean_step_element true c t out 1 h1 h2 h3]
        refine ⟨?_, rfl⟩
        have he := takeWhile_IsElement c t h1 h2 h3
        have := IsCleanRooted_append out _ hout he
        simpa using this

theorem Clean_loop_rooted (fuel : Nat) (rest out : GoString) (h : IsCleanRooted out) :
    IsCleanRooted (path.Clean.loop true fuel rest out 1) := by
  induction fuel generalizing rest out with
  | zero => exact h
  | succ fuel ih =>
    cases rest with
    | nil => exact h
    | cons c t =>
      obtain ⟨h1, h2⟩ := Clean_step_rooted c t out 1 ⟨h, rfl⟩
      simp only [path.Clean.loop]
      rw [h2]
      exact ih _ _ h1

/-- The function `path.Clean` turns a path that begins with a slash into a clean
rooted path. -/
theorem Clean_rooted (p : GoString) (hp : p.head? = some '/') : IsCleanRooted (path.Clean p) := by
  cases p with
  | nil => simp at hp
  | cons c t =>
    have hloop := Clean_loop_rooted (c :: t).length t ['/'] IsCleanRooted_root
    have hne : (path.Clean.loop true (c :: t).length t ['/'] 1).length ≠ 0 := by
      have := IsCleanRooted_head _ hloop
      intro h0
      rw [List.length_eq_zero.mp h0] at this
      simp at this
    unfold path.Clean
    simp only [hp, decide_True, if_true, List.tail_cons, if_neg hne]
    simpa using hloop

theorem splitOn_append_of_not_mem (c : Char) (s rest : GoString) (hs : c ∉ s) :
    (s ++ rest).splitOn c = (rest.splitOn c).modifyHead (fun h => s ++ h) := by
  induction s with
  | nil =>
    simp only [List.nil_append]
    cases rest.splitOn c <;> rfl
  | cons x s ih =>
    have hx : (x == c) = false := by
      have : x ≠ c := fun h => hs (by simp [h])
      simpa using this
    have hs2 : c ∉ s := fun h => hs (List.mem_cons_of_mem _ h)
    simp only [List.cons_append, List.splitOn, List.splitOnP_cons, hx, Bool.false_eq_true,
      if_false]
    have := ih hs2
    simp only [List.splitOn] at this
    rw [this]
    cases List.splitOnP (fun x => x == c) rest <;> rfl

theorem splitOn_slash_flatten (segs : List GoString) (h : ∀ s ∈ segs, '/' ∉ s) :
    ((segs.map (fun s => '/' :: s)).flatten).splitOn '/' = [] :: segs := by
  induction segs with
  | nil => simp [List.splitOn, List.splitOnP_nil]
  | cons s segs ih =>
    have h1 := ih (fun x hx => h x (List.mem_cons_of_mem _ hx))
    have h2 := splitOn_append_of_not_mem '/' s ((segs.map (fun s => '/' :: s)).flatten)
      (h s (by simp))
    rw [h1] at h2
    simp only [List.map_cons, List.flatten_cons, List.cons_append]
    have h3 : ('/' :: (s ++ (segs.map (fun s => '/' :: s)).flatten)).splitOn '/'
        = [] :: (s ++ (segs.map (fun s => '/' :: s)).flatten).splitOn '/' := by
      simp [List.splitOn, List.splitOnP_cons]
    rw [h3, h2]
    simp [List.modifyHead]

/-- The last slash-separated segment of a clean rooted path other than the root
is a real path element. -/
theorem IsCleanRooted_last_segment (out : GoString) (h : IsCleanRooted out) (hne : out ≠ ['/']) :
    (strings.Split out ['/']).length > 0
      ∧ IsElement ((strings.Split out ['/']).getLastD []) := by
  obtain ⟨segs, hsegs, hout⟩ := h
  cases segs with
  | nil => simp at hout; exact absurd hout hne
  | cons s segs =>
    rw [if_neg (by simp)] at hout
    rw [Split_single, hout, splitOn_slash_flatten _ (fun x hx => (hsegs x hx).2.1)]
    refine ⟨by simp, ?_⟩
    have hmem : ([] :: s :: segs).getLastD [] ∈ s :: segs := by
      have h1 : ([] :: s :: segs).getLastD [] = (s :: segs).getLast (List.cons_ne_nil _ _) := by
        rw [List.getLastD_cons, List.getLastD_cons, List.getLast_eq_getLastD]
      rw [h1]
      exact List.getLast_mem _
    exact hsegs _ hmem

/-! ### Merged naming -/

/-- Cleaning a path whose last element is the real path element `g` gives a path
whose file part is `g`. -/
theorem Clean_ends_with_element (p g : GoString) (hg : IsElement g)
    (hp : p = g ∨ ∃ x, p = x ++ '/' :: g) :
    ∃ d, (d = [] ∨ d.getLast? = some '/') ∧ path.Clean p = d ++ g := by
  have hgne : g ≠ [] := hg.1
  have hghead : g.head? ≠ some '/' := by
    intro h
    cases g with
    | nil => simp at h
    | cons c t => simp at h; exact hg.2.1 (by simp [h])
  rcases hp with hp | ⟨x, hp⟩
  · subst hp
    refine ⟨[], Or.inl rfl, ?_⟩
    have hr : decide (p.head? = some '/') = false := by simpa using hghead
    unfold path.Clean
    simp only [if_neg hgne, hr, Bool.false_eq_true, if_false]
    rw [Clean_loop_element false p hg p.length [] 0 (le_refl _)]
    simp [hgne]
  · subst hp
    have hpne : x ++ '/' :: g ≠ [] := by simp
    by_cases hroot : (x ++ '/' :: g).head? = some '/'
    · -- rooted
      have hr : decide ((x ++ '/' :: g).head? = some '/') = true := by simpa using hroot
      have hreach : ∃ fuel2 out2 dotdot2, g.length ≤ fuel2 ∧ (IsCleanRooted out2 ∧ dotdot2 = 1)
          ∧ path.Clean.loop true (x ++ '/' :: g).length (x ++ '/' :: g).tail ['/'] 1
            = path.Clean.loop true fuel2 g out2 dotdot2 := by
        cases x with
        | nil =>
          exact ⟨(([] : GoString) ++ '/' :: g).length, ['/'], 1, by simp,
            ⟨IsCleanRooted_root, rfl⟩, rfl⟩
        | cons c x1 =>
          exact Clean_loop_reach true (fun out dotdot => IsCleanRooted out ∧ dotdot = 1)
            (fun c t out dotdot h => Clean_step_rooted c t out dotdot h) g x1.length x1
            (c :: x1 ++ '/' :: g).length ['/'] 1 (le_refl _) (by simp) ⟨IsCleanRooted_root, rfl⟩
      obtain ⟨fuel2, out2, dotdot2, hf, ⟨hc, hdd⟩, hloop⟩ := hreach
      subst hdd
      refine ⟨if out2.length ≠ 1 then out2 ++ ['/'] else out2, ?_, ?_⟩
      · right
        by_cases h1 : out2.length = 1
        · simp only [h1, ne_eq, not_true_eq_false, if_false]
          rw [IsCleanRooted_length_one out2 hc h1]; rfl
        · simp [h1]
      · unfold path.Clean
        simp only [if_neg hpne, hr, if_true]
        rw [hloop, Clean_loop_element true g hg fuel2 out2 1 hf]
        have hne : ((if (true = true ∧ out2.length ≠ 1) ∨ (true = false ∧ out2.length ≠ 0)
            then out2 ++ ['/'] else out2) ++ g).length ≠ 0 := by
          cases g with
          | nil => exact absurd rfl hgne
          | cons c t => simp
        rw [if_neg hne]
        simp
    · -- not rooted
      have hr : decide ((x ++ '/' :: g).head? = some '/') = false := by simpa using hroot
      obtain ⟨fuel2, out2, dotdot2, hf, _, hloop⟩ :=
        Clean_loop_reach false (fun _ _ => True) (fun _ _ _ _ _ => trivial) g x.length x
          (x ++ '/' :: g).length [] 0 (le_refl _) (le_refl _) trivial
      refine ⟨if out2.length ≠ 0 then out2 ++ ['/'] else out2, ?_, ?_⟩
      · by_cases h0 : out2.length = 0
        · left
          simp only [h0, ne_eq, not_true_eq_false, if_false]
          exact List.length_eq_zero.mp h0
        · right; simp [h0]
      · unfold path.Clean
        simp only [if_neg hpne, hr, Bool.false_eq_true, if_false]
        rw [hloop, Clean_loop_element false g hg fuel2 out2 dotdot2 hf]
        have hne : ((if (false = true ∧ out2.length ≠ 1) ∨ (false = false ∧ out2.length ≠ 0)
            then out2 ++ ['/'] else out2) ++ g).length ≠ 0 := by
          cases g with
          | nil => exact absurd rfl hgne
          | cons c t => simp
        rw [if_neg hne]
        simp

/-- The absolute form of a path is a clean rooted path, the working directory
being rooted. -/
theorem Abs_rooted (getwd : Option GoString) (p abs : GoString)
    (hwd : ∀ wd, getwd = some wd → wd.head? = some '/')
    (habs : filepath.Abs getwd p = some abs) : IsCleanRooted abs := by
  unfold filepath.Abs at habs
  by_cases hp : filepath.IsAbs p = true
  · rw [if_pos hp] at habs
    cases habs
    have hhead : p.head? = some '/' := by
      cases p with
      | nil => simp [filepath.IsAbs, strings.HasPrefix] at hp
      | cons c t =>
        simp [filepath.IsAbs, strings.HasPrefix] at hp
        simp [← hp]
    exact Clean_rooted p hhead
  · rw [if_neg hp] at habs
    cases hg : getwd with
    | none => rw [hg] at habs; cases habs
    | some wd =>
      rw [hg] at habs
      have hw := hwd wd hg
      cases habs
      cases wd with
      | nil => simp at hw
      | cons c w =>
        have : filepath.Join [c :: w, p] = filepath.Clean ((c :: w) ++ '/' :: p) := by
          simp [filepath.Join, strings.Join, List.intercalate, List.intersperse]
        rw [this]
        exact Clean_rooted _ (by simpa using hw)

/-- The directory of a clean rooted path is a clean rooted path. -/
theorem Dir_rooted (abs : GoString) (h : IsCleanRooted abs) : IsCleanRooted (filepath.Dir abs) := by
  obtain ⟨dir, file, hsplit, hfile, hdir⟩ := exists_dir_file abs
  have hhead := IsCleanRooted_head abs h
  have hD : filepath.Dir abs = path.Clean (path.Split abs).1 := rfl
  rw [hD, hsplit, path_Split_append dir file hfile hdir]
  apply Clean_rooted
  cases dir with
  | nil =>
    rw [hsplit] at hhead
    cases file with
    | nil => simp at hhead
    | cons c t => simp at hhead; exact absurd (by simp [hhead]) hfile
  | cons c d =>
    rw [hsplit] at hhead
    simpa using hhead

/-- C3: with `merge = true`, a rooted working directory and an extension without
a slash, if the absolute directory of the source path is not the root `/`, then
the file part of the resolved name is the last segment of that directory
followed by `.` and the extension. -/
theorem resolveGraphqlFilename_merge_file_component (getwd : Option GoString)
    (protoFileName extension abs : GoString)
    (hwd : ∀ wd, getwd = some wd → wd.head? = some '/')
    (hext : '/' ∉ extension)
    (habs : filepath.Abs getwd protoFileName = some abs)
    (hroot : filepath.Dir abs ≠ ['/']) :
    (path.Split (resolveGraphqlFilename getwd protoFileName true extension)).2
      = (strings.Split (filepath.Dir abs) ['/']).getLastD [] ++ '.' :: extension := by
  have hclean := Dir_rooted abs (Abs_rooted getwd protoFileName abs hwd habs)
  obtain ⟨hlen, hb⟩ := IsCleanRooted_last_segment _ hclean hroot
  generalize hbdef : (strings.Split (filepath.Dir abs) ['/']).getLastD [] = b at hb
  -- the merged file name is a real path element
  have hg : IsElement (b ++ '.' :: extension) := by
    obtain ⟨hb1, hb2, hb3, _⟩ := hb
    cases b with
    | nil => exact absurd rfl hb1
    | cons c b1 =>
      refine ⟨by simp, ?_, ?_, ?_⟩
      · intro h
        rcases List.mem_append.mp h with h | h
        · exact hb2 h
        · rcases List.mem_cons.mp h with h | h
          · exact absurd h (by decide)
          · exact hext h
      · intro h
        have := congrArg List.length h
        simp at this
      · intro h
        simp only [List.cons_append, List.cons.injEq] at h
        obtain ⟨hc, ht⟩ := h
        cases b1 with
        | nil => exact hb3 (by rw [hc])
        | cons c2 b2 =>
          have := congrArg List.length ht
          simp at this
  -- the resolved name is the cleaned join of the directory part and that name
  have hres : resolveGraphqlFilename getwd protoFileName true extension
      = path.Join [(path.Split protoFileName).1, b ++ '.' :: extension] := by
    have hl : ".".toList = ['.'] := rfl
    simp only [resolveGraphqlFilename, if_true, habs, if_pos hlen, hl, hbdef]
    simp
  obtain ⟨d, hd, hclean2⟩ : ∃ d, (d = [] ∨ d.getLast? = some '/')
      ∧ path.Join [(path.Split protoFileName).1, b ++ '.' :: extension]
        = d ++ (b ++ '.' :: extension) := by
    cases hdir : (path.Split protoFileName).1 with
    | nil =>
      have hj : path.Join [[], b ++ '.' :: extension] = path.Clean (b ++ '.' :: extension) := by
        have hne : (b ++ '.' :: extension).isEmpty = false := by
          cases b <;> rfl
        simp [path.Join, List.dropWhile, hne, strings.Join, List.intercalate, List.intersperse]
      rw [hj]
      exact Clean_ends_with_element _ _ hg (Or.inl rfl)
    | cons c dir =>
      have hj : path.Join [c :: dir, b ++ '.' :: extension]
          = path.Clean ((c :: dir) ++ '/' :: (b ++ '.' :: extension)) := by
        simp [path.Join, List.dropWhile, strings.Join, List.intercalate, List.intersperse]
      rw [hj]
      exact Clean_ends_with_element _ _ hg (Or.inr ⟨c :: dir, rfl⟩)
  rw [hres, hclean2, path_Split_append d _ hg.2.1 hd]

/-- C3, at the specification's example: in the working directory `/home/u` the
source path `proto/svc/foo.proto` has the absolute directory `/home/u/proto/svc`,
and with extension `graphql` the file part of the resolved name is
`svc.graphql`. -/
theorem resolveGraphqlFilename_merge_file_component_witness :
    filepath.Dir "/home/u/proto/svc/foo.proto".toList = "/home/u/proto/svc".toList
    ∧ (path.Split (resolveGraphqlFilename (some "/home/u".toList) "proto/svc/foo.proto".toList
        true "graphql".toList)).2 = "svc.graphql".toList :=
  ⟨by decide,
   (resolveGraphqlFilename_merge_file_component (some "/home/u".toList)
      "proto/svc/foo.proto".toList "graphql".toList "/home/u/proto/svc/foo.proto".toList
      (by decide) (by decide) (by decide) (by decide)).trans (by decide)⟩

/-- C2: with `merge = false` the resolved name is a pure extension swap.  Every
source name is `dir ++ file` with `dir` empty or ending in a slash and `file`
free of slashes (its final path element).  If `file` has no dot, the result is
the source name followed by `.` and the extension; if `file` is `stem.tail` with
a dot-free `tail`, the result is `dir ++ stem` followed by `.` and the extension.
For an extension without a slash, the directory part of the result is `dir`,
which is the directory part of the source name. -/
theorem resolveGraphqlFilename_no_merge (getwd : Option GoString)
    (protoFileName extension : GoString) (hext : '/' ∉ extension) :
    ∃ dir file, protoFileName = dir ++ file ∧ '/' ∉ file
      ∧ (dir = [] ∨ dir.getLast? = some '/')
      ∧ ('.' ∉ file →
          resolveGraphqlFilename getwd protoFileName false extension
            = protoFileName ++ '.' :: extension)
      ∧ (∀ stem tail, file = stem ++ '.' :: tail → '.' ∉ tail →
          resolveGraphqlFilename getwd protoFileName false extension
            = dir ++ stem ++ '.' :: extension)
      ∧ (path.Split protoFileName).1 = dir
      ∧ (path.Split (resolveGraphqlFilename getwd protoFileName false extension)).1 = dir := by
  obtain ⟨dir, file, hsplit, hfile, hdir⟩ := exists_dir_file protoFileName
  obtain ⟨h1, h2, h3, h4⟩ :=
    resolveGraphqlFilename_no_merge_parts getwd dir file extension hext hfile hdir
  subst hsplit
  exact ⟨dir, file, rfl, hfile, hdir, h1, h2, h3, h4⟩

/-- C2, at the specification's example: `a/b/c.proto` with extension `graphql`
resolves to `a/b/c.graphql`, whose directory part `a/b/` is that of the source
name. -/
theorem resolveGraphqlFilename_no_merge_witness :
    (∃ dir file, "a/b/c.proto".toList = dir ++ file ∧ '/' ∉ file
      ∧ (dir = [] ∨ dir.getLast? = some '/')
      ∧ ('.' ∉ file →
          resolveGraphqlFilename none "a/b/c.proto".toList false "graphql".toList
            = "a/b/c.proto".toList ++ '.' :: "graphql".toList)
      ∧ (∀ stem tail, file = stem ++ '.' :: tail → '.' ∉ tail →
          resolveGraphqlFilename none "a/b/c.proto".toList false "graphql".toList
            = dir ++ stem ++ '.' :: "graphql".toList)
      ∧ (path.Split "a/b/c.proto".toList).1 = dir
      ∧ (path.Split (resolveGraphqlFilename none "a/b/c.proto".toList false
          "graphql".toList)).1 = dir)
    ∧ resolveGraphqlFilename none "a/b/c.proto".toList false "graphql".toList
      = "a/b/c.graphql".toList
    ∧ (path.Split "a/b/c.proto".toList).1 = "a/b/".toList
    ∧ (path.Split "a/b/c.graphql".toList).1 = "a/b/".toList :=
  ⟨resolveGraphqlFilename_no_merge none "a/b/c.proto".toList "graphql".toList (by decide),
   by decide, by decide, by decide⟩

/-! ### The bounds on the number of rounds are never reached -/

theorem Clean_step_length (rooted : Bool) (c : Char) (t out : GoString) (dotdot : Nat) :
    (path.Clean.step rooted c t out dotdot).1.length ≤ t.length := by
  rw [Clean_step_fst]
  split_ifs with h1 h2 h3
  · exact le_refl _
  · exact le_refl _
  · cases t with
    | nil => simp
    | cons y t => simp
  · have hd : decide (c ≠ '/') = true := by simpa using h1
    simp only [List.dropWhile, hd]
    exact dropWhile_length_le _ t

/-- The loop of `path.Clean` gives the same result for every number of rounds
that is at least the length of the remaining input: with `len(path)` rounds it
always runs until the input is used up. -/
theorem Clean_loop_fuel (rooted : Bool) (fuel1 fuel2 : Nat) (rest out : GoString) (dotdot : Nat)
    (h1 : rest.length ≤ fuel1) (h2 : rest.length ≤ fuel2) :
    path.Clean.loop rooted fuel1 rest out dotdot = path.Clean.loop rooted fuel2 rest out dotdot := by
  induction fuel1 generalizing fuel2 rest out dotdot with
  | zero =>
    have : rest = [] := List.length_eq_zero.mp (Nat.le_zero.mp h1)
    subst this
    rw [Clean_loop_nil, Clean_loop_nil]
  | succ fuel1 ih =>
    cases rest with
    | nil => rw [Clean_loop_nil, Clean_loop_nil]
    | cons c t =>
      cases fuel2 with
      | zero => simp at h2
      | succ fuel2 =>
        have hlen := Clean_step_length rooted c t out dotdot
        simp only [List.length_cons] at h1 h2
        simp only [path.Clean.loop]
        exact ih fuel2 _ _ _ (by omega) (by omega)

/-! ### Further claims on `uniqueFiles` and on the output loop of the command-line tool -/

theorem keptAfter_eq_self (pre l : List FileDescriptorProto)
    (h : ((pre ++ l).map (fun d => d.Name)).Nodup) : keptAfter pre l = l := by
  induction l generalizing pre with
  | nil => rfl
  | cons d l ih =>
    have hrest : ((pre ++ [d] ++ l).map (fun d => d.Name)).Nodup := by
      simpa using h
    have hall : (pre.all (fun e => decide (e.Name ≠ d.Name))) = true := by
      simp only [List.all_eq_true, decide_eq_true_eq]
      intro e he hen
      simp only [List.map_append, List.map_cons] at h
      have hdis := (List.nodup_append.mp h).2.2
      exact hdis (List.mem_map_of_mem _ he) (by rw [hen]; simp)
    simp only [keptAfter, hall, if_true, ih (pre ++ [d]) hrest]

/-- C17: on a list of descriptors that all carry a name, `uniqueFiles` returns a
list that is at most as long as its input, and exactly as long if and only if
the names of the input are pairwise distinct, in which case the output is the
input. -/
theorem uniqueFiles_never_grows (input : List FileDescriptorProto)
    (hnamed : ∀ d ∈ input, d.Name ≠ none) :
    ∃ out, uniqueFiles input = some out
      ∧ out.length ≤ input.length
      ∧ (out.length = input.length ↔ (input.map (fun d => d.Name)).Nodup)
      ∧ ((input.map (fun d => d.Name)).Nodup → out = input) := by
  refine ⟨keptAfter [] input, ?_, ?_, ?_, ?_⟩
  · unfold uniqueFiles
    rw [uniqueFilesLoop_eq input [] [] [] hnamed (by simp [GoMap.get?])]
    simp
  · exact (keptAfter_sublist [] input).length_le
  · constructor
    · intro hlen
      have heq : keptAfter [] input = input := (keptAfter_sublist [] input).eq_of_length hlen
      have := keptAfter_nodup [] input
      rw [heq] at this
      exact this
    · intro hnd
      rw [keptAfter_eq_self [] input (by simpa using hnd)]
  · intro hnd
    exact keptAfter_eq_self [] input (by simpa using hnd)

/-- C17, at two concrete inputs: with the names `a`, `b`, `a` two of the three
descriptors are kept; with the names `a`, `b` both are. -/
theorem uniqueFiles_never_grows_witness :
    (∃ out, uniqueFiles [namedFile "a", namedFile "b", namedFile "a"] = some out
      ∧ out.length ≤ [namedFile "a", namedFile "b", namedFile "a"].length
      ∧ (out.length = [namedFile "a", namedFile "b", namedFile "a"].length
          ↔ ([namedFile "a", namedFile "b", namedFile "a"].map (fun d => d.Name)).Nodup)
      ∧ (([namedFile "a", namedFile "b", namedFile "a"].map (fun d => d.Name)).Nodup
          → out = [namedFile "a", namedFile "b", namedFile "a"]))
    ∧ uniqueFiles [namedFile "a", namedFile "b", namedFile "a"]
        = some [namedFile "a", namedFile "b"]
    ∧ uniqueFiles [namedFile "a", namedFile "b"] = some [namedFile "a", namedFile "b"] :=
  ⟨uniqueFiles_never_grows [namedFile "a", namedFile "b", namedFile "a"] (by decide),
   by decide, by decide⟩

/-- With a first source file, `generateFile` tries to create one file and, when
that succeeds, has the formatter write the schema into it. -/
theorem generateFile_nonempty {FS Schema : Type} (env : CliEnv FS Schema) (fs : FS)
    (schema : SchemaDescriptor Schema) (merge : Bool) (config : Config) (extension : GoString)
    (fd : FileDescriptorProto) (tl : List FileDescriptorProto)
    (hfd : schema.FileDescriptors = fd :: tl) :
    ∃ name, generateFile env fs schema merge config extension
      = match env.osCreate fs name with
        | .error err => ([.osCreate name], .returned (.error err))
        | .ok fs1 =>
          ([.osCreate name, .FormatSchema name schema.AsGraphql],
            .returned (.ok (env.FormatSchema fs1 name schema.AsGraphql))) := by
  cases hout : config.Output with
  | none =>
    exact ⟨_, generateFile_no_override env fs schema merge config extension fd tl hfd
      (Or.inl hout)⟩
  | some o =>
    by_cases ho : o = []
    · subst ho
      exact ⟨_, generateFile_no_override env fs schema merge config extension fd tl hfd
        (Or.inr hout)⟩
    · exact ⟨o, generateFile_override env fs schema merge config extension o ho hout⟩

/-- C16: when the output loop of the command-line tool comes to a schema without
source files, the run is ended by `log.Fatalf` with the message
`unexpected number of proto descriptors: 0 for gql schema`; `generateFile` is not
called for that schema, no name is resolved and no file is created, whatever the
output override is.  In particular, after any number of schemas with one source
file each whose files could be created, the run ends with that message, having
called `generateFile` and created a file once for each of those schemas only. -/
theorem mainLoop_rejects_zero_source_files {FS Schema : Type} (env : CliEnv FS Schema)
    (merge : Bool) (config : Config) (extension : GoString)
    (g : SchemaDescriptor Schema) (rest : List (SchemaDescriptor Schema))
    (hg : g.FileDescriptors = []) :
    (∀ fs, mainLoop env merge config extension (g :: rest) fs
      = ([], fs, .fatal "unexpected number of proto descriptors: 0 for gql schema".toList))
    ∧ (∀ (pre : List (SchemaDescriptor Schema)) (fs : FS),
        (∀ p ∈ pre, p.FileDescriptors.length = 1) →
        (∀ fs1 name, ∃ fs2, env.osCreate fs1 name = .ok fs2) →
        (mainLoop env merge config extension (pre ++ g :: rest) fs).2.2
            = .fatal "unexpected number of proto descriptors: 0 for gql schema".toList
          ∧ generateFileCalls (mainLoop env merge config extension (pre ++ g :: rest) fs).1
            = pre.length
          ∧ (createdNames (mainLoop env merge config extension (pre ++ g :: rest) fs).1).length
            = pre.length) := by
  have hmsg : countMismatch 0
      = "unexpected number of proto descriptors: 0 for gql schema".toList := by decide
  have hhead : ∀ fs, mainLoop env merge config extension (g :: rest) fs
      = ([], fs, .fatal "unexpected number of proto descriptors: 0 for gql schema".toList) := by
    intro fs
    simp only [mainLoop, hg, List.length_nil, Nat.lt_one_iff, if_true, hmsg]
  refine ⟨hhead, ?_⟩
  intro pre
  induction pre with
  | nil =>
    intro fs _ _
    simp [hhead, generateFileCalls, createdNames]
  | cons p pre ih =>
    intro fs hpre hcreate
    have hp : p.FileDescriptors.length = 1 := hpre p (by simp)
    obtain ⟨fd, hfd⟩ : ∃ fd, p.FileDescriptors = [fd] := List.length_eq_one.mp hp
    obtain ⟨name, hgen⟩ := generateFile_nonempty env fs p merge config extension fd [] hfd
    obtain ⟨fs2, hfs2⟩ := hcreate fs name
    rw [hfs2] at hgen
    obtain ⟨ih1, ih2, ih3⟩ := ih (env.FormatSchema fs2 name p.AsGraphql)
      (fun q hq => hpre q (by simp [hq])) hcreate
    simp only [List.cons_append, mainLoop, hfd, List.length_singleton, lt_self_iff_false,
      gt_iff_lt, if_false, hgen]
    refine ⟨ih1, ?_, ?_⟩
    · simp [generateFileCalls, ih2]
    · simp [createdNames, ih3]

/-- C16, on two concrete runs.  A schema without source files at the head ends
the run with the count-mismatch message although an output override is set; a
schema from `x/c.proto` followed by one without source files is written to
`x/c.graphql`, then the run is ended with the same message. -/
theorem mainLoop_rejects_zero_source_files_witness :
    mainLoop (fixedCliEnv none) true ⟨some false, some [], some "out.graphql".toList⟩
        "graphql".toList [⟨[], "S0".toList⟩, ⟨[namedFile "x/c.proto"], "S1".toList⟩] []
      = ([], [], .fatal "unexpected number of proto descriptors: 0 for gql schema".toList)
    ∧ (mainLoop (fixedCliEnv none) false ⟨some false, some [], some []⟩ "graphql".toList
        ([⟨[namedFile "x/c.proto"], "S1".toList⟩] ++ ⟨[], "S0".toList⟩ :: []) []).2
      = ([("x/c.graphql".toList, "S1".toList)],
          .fatal "unexpected number of proto descriptors: 0 for gql schema".toList) :=
  ⟨(mainLoop_rejects_zero_source_files (fixedCliEnv none) true
      ⟨some false, some [], some "out.graphql".toList⟩ "graphql".toList ⟨[], "S0".toList⟩
      [⟨[namedFile "x/c.proto"], "S1".toList⟩] rfl).1 [],
   by decide⟩

/-! ### Further claims on the parameter loop -/

theorem cutParam_key_value (t : GoString) : cutParam t = (tokenKey t, tokenValue t) :=
  cutParam_eq t

/-- C18, as amended: the bare tokens `ext`, `go_model` and `output` decode without
error, each to the empty value of its setting, while the bare tokens `svc`,
`merge` and `prefix` are rejected, `strconv.ParseBool` not accepting the empty
value. -/
theorem decodeParameter_bare_token (k : GoString) :
    (k ∈ ["ext".toList, "go_model".toList, "output".toList] →
      decodeParameter k = .ok
        (if k = "ext".toList then { Params.initial with extension := [] }
         else if k = "go_model".toList then
          { Params.initial with config := { Params.initial.config with GoModel := some [] } }
         else { Params.initial with config := { Params.initial.config with Output := some [] } }))
    ∧ (k ∈ ["svc".toList, "merge".toList, "prefix".toList] →
      decodeParameter k = .error (.numError "ParseBool".toList [])) := by
  constructor
  · intro hk
    simp only [List.mem_cons, List.mem_singleton, List.not_mem_nil, or_false] at hk
    rcases hk with h | h | h <;> subst h <;> rfl
  · intro hk
    simp only [List.mem_cons, List.mem_singleton, List.not_mem_nil, or_false] at hk
    rcases hk with h | h | h <;> subst h <;> rfl

/-- C18 as amended, at the bare token `output`: it decodes to the empty output,
which is no override. -/
theorem decodeParameter_bare_token_witness :
    decodeParameter "output".toList
      = .ok ⟨false, false, false, "graphql".toList, ⟨none, none, some []⟩⟩ :=
  (decodeParameter_bare_token "output".toList).1 (by decide)

/-- C18 as stated fails at the recognised key `svc`: the parameter string made
of the bare token `svc` does not decode, the empty value being no boolean. -/
theorem decodeParameter_bare_svc_fails :
    "svc".toList ∈ ["svc".toList, "merge".toList, "prefix".toList, "ext".toList,
      "go_model".toList, "output".toList]
    ∧ decodeParameter "svc".toList = .error (.numError "ParseBool".toList [])
    ∧ ∀ st, decodeParameter "svc".toList ≠ .ok st := by
  refine ⟨by decide, rfl, ?_⟩
  intro st h
  have h2 : decodeParameter "svc".toList = .error (.numError "ParseBool".toList []) := rfl
  rw [h2] at h
  cases h

theorem dropWhile_all (p : Char → Bool) (a rest : GoString) (ha : ∀ c ∈ a, p c = true) :
    (a ++ rest).dropWhile p = rest.dropWhile p := by
  induction a with
  | nil => rfl
  | cons x a ih =>
    have hx : p x = true := ha x (by simp)
    simp only [List.cons_append, List.dropWhile, hx]
    exact ih (fun c hc => ha c (List.mem_cons_of_mem _ hc))

theorem dropWhile_head_false (p : Char → Bool) (l : GoString)
    (h : ∀ c, l.head? = some c → p c = false) : l.dropWhile p = l := by
  cases l with
  | nil => rfl
  | cons x l =>
    have hx : p x = false := h x rfl
    simp only [List.dropWhile, hx]

/-- The function `strings.Trim` with the cut set `.` removes exactly the leading
and the trailing dots. -/
theorem Trim_dots (a core b : GoString) (ha : ∀ c ∈ a, c = '.') (hb : ∀ c ∈ b, c = '.')
    (hhead : core.head? ≠ some '.') (hlast : core.getLast? ≠ some '.') :
    strings.Trim (a ++ core ++ b) ".".toList = core := by
  have hl : ".".toList = ['.'] := rfl
  have hp : ∀ c : Char, (['.'] : GoString).contains c = true ↔ c = '.' := by
    intro c; simp
  have hpa : ∀ c ∈ a, (['.'] : GoString).contains c = true := fun c hc => (hp c).mpr (ha c hc)
  have hpb : ∀ c ∈ b.reverse, (['.'] : GoString).contains c = true :=
    fun c hc => (hp c).mpr (hb c (List.mem_reverse.mp hc))
  unfold strings.Trim
  rw [hl, List.append_assoc, dropWhile_all _ a _ hpa]
  by_cases hcore : core = []
  · subst hcore
    simp only [List.nil_append]
    have hall : ∀ c ∈ b, (['.'] : GoString).contains c = true := fun c hc => (hp c).mpr (hb c hc)
    have h1 : b.dropWhile (fun c => (['.'] : GoString).contains c) = [] :=
      List.dropWhile_eq_nil_iff.mpr hall
    rw [h1]; rfl
  · have h1 : (core ++ b).dropWhile (fun c => (['.'] : GoString).contains c) = core ++ b := by
      apply dropWhile_head_false
      intro c hc
      cases core with
      | nil => exact absurd rfl hcore
      | cons x core =>
        simp only [List.cons_append, List.head?_cons, Option.some.injEq] at hc
        subst hc
        have hx : x ≠ '.' := by simpa using hhead
        cases hc2 : (['.'] : GoString).contains x with
        | false => rfl
        | true => exact absurd ((hp x).mp hc2) hx
    rw [h1, List.reverse_append, dropWhile_all _ b.reverse _ hpb]
    have h2 : core.reverse.dropWhile (fun c => (['.'] : GoString).contains c) = core.reverse := by
      apply dropWhile_head_false
      intro c hc
      have hc3 : core.getLast? = some c := by
        rw [← List.head?_reverse]; exact hc
      have hx : c ≠ '.' := by
        intro h; rw [h] at hc3; exact hlast hc3
      cases hc2 : (['.'] : GoString).contains c with
      | false => rfl
      | true => exact absurd ((hp c).mp hc2) hx
    rw [h2, List.reverse_reverse]

theorem cutParam_ext (v : GoString) : cutParam ("ext=".toList ++ v) = ("ext".toList, v) := by
  rw [cutParam_eq]
  rfl

/-- A token `ext=v` sets the extension to `v` without its leading and trailing
dots and changes nothing else. -/
theorem decodeParam_ext (st : Params) (a core b : GoString) (ha : ∀ c ∈ a, c = '.')
    (hb : ∀ c ∈ b, c = '.') (hhead : core.head? ≠ some '.') (hlast : core.getLast? ≠ some '.') :
    decodeParam st ("ext=".toList ++ (a ++ core ++ b)) = .ok { st with extension := core } := by
  unfold decodeParam
  rw [cutParam_ext]
  simp only []
  rw [if_neg (by decide), if_neg (by decide), if_neg (by decide), if_pos trivial,
    Trim_dots a core b ha hb hhead hlast]

theorem decodeParam_svc (st : Params) (b : Bool) :
    decodeParam st ("svc=".toList ++ strconv.FormatBool b) = .ok { st with genServiceDesc := b } := by
  cases b <;> rfl

theorem decodeParam_merge (st : Params) (b : Bool) :
    decodeParam st ("merge=".toList ++ strconv.FormatBool b) = .ok { st with merge := b } := by
  cases b <;> rfl

/-- C12: for booleans `s` and `m` and an extension `e` without a comma that
neither begins nor ends with a dot, the parameter string
`svc=<s>,merge=<m>,ext=.<e>` decodes to the configuration with service nodes
`s`, merge `m`, extension `e` and every other setting at its default.  More
generally a token `ext=v` sets the extension to `v` without its leading and
trailing dots: for `v` made of dots, a text `core` that neither begins nor ends
with a dot, and dots again, the extension becomes `core`. -/
theorem decodeParameter_round_trip (s m : Bool) (e : GoString) (hcomma : ',' ∉ e)
    (hhead : e.head? ≠ some '.') (hlast : e.getLast? ≠ some '.') :
    decodeParameter ("svc=".toList ++ strconv.FormatBool s ++ ",merge=".toList
        ++ strconv.FormatBool m ++ ",ext=.".toList ++ e)
      = .ok { Params.initial with genServiceDesc := s, merge := m, extension := e }
    ∧ ∀ (st : Params) (a core b : GoString), (∀ c ∈ a, c = '.') → (∀ c ∈ b, c = '.') →
        core.head? ≠ some '.' → core.getLast? ≠ some '.' →
        decodeParam st ("ext=".toList ++ (a ++ core ++ b)) = .ok { st with extension := core } := by
  refine ⟨?_, fun st a core b ha hb h1 h2 => decodeParam_ext st a core b ha hb h1 h2⟩
  have hstr : "svc=".toList ++ strconv.FormatBool s ++ ",merge=".toList
        ++ strconv.FormatBool m ++ ",ext=.".toList ++ e
      = strings.Join ["svc=".toList ++ strconv.FormatBool s,
          "merge=".toList ++ strconv.FormatBool m,
          "ext=".toList ++ (['.'] ++ e ++ [])] ",".toList := by
    cases s <;> cases m <;> simp [strings.Join, List.intercalate, List.intersperse,
      strconv.FormatBool]
  have hfree : ∀ l ∈ ["svc=".toList ++ strconv.FormatBool s,
      "merge=".toList ++ strconv.FormatBool m, "ext=".toList ++ (['.'] ++ e ++ [])], ',' ∉ l := by
    intro l hl
    simp only [List.mem_cons, List.mem_singleton, List.not_mem_nil, or_false] at hl
    rcases hl with h | h | h
    · subst h; cases s <;> decide
    · subst h; cases m <;> decide
    · subst h
      intro hc
      simp only [List.append_nil, List.mem_append, List.mem_singleton] at hc
      rcases hc with hc | hc | hc
      · exact absurd hc (by decide)
      · exact absurd hc (by decide)
      · exact hcomma hc
  unfold decodeParameter
  rw [hstr, Split_Join_comma _ (by simp) hfree]
  simp only [decodeTokens, decodeParam_svc, decodeParam_merge]
  rw [decodeParam_ext _ ['.'] e [] (by simp) (by simp) hhead hlast]

/-- C12, at the specification's example: `svc=true,merge=false,ext=.gql` decodes
to service nodes on, merge off and the extension `gql`. -/
theorem decodeParameter_round_trip_witness :
    decodeParameter "svc=true,merge=false,ext=.gql".toList
      = .ok ⟨true, false, false, "gql".toList, ⟨none, none, none⟩⟩ :=
  (decodeParameter_round_trip true false "gql".toList (by decide) (by decide) (by decide)).1

theorem lastValue_concat (key : GoString) (l : List GoString) (a : GoString) :
    lastValue key (l ++ [a])
      = if tokenKey a = key then some (tokenValue a) else lastValue key l := by
  unfold lastValue
  by_cases h : tokenKey a = key
  · simp [List.filter_append, h]
  · simp [List.filter_append, h]

theorem lastValue_nil (key : GoString) : lastValue key [] = none := rfl

theorem decodeTokens_concat (l : List GoString) (a : GoString) (st0 st : Params)
    (h : decodeTokens (l ++ [a]) st0 = .ok st) :
    ∃ st1, decodeTokens l st0 = .ok st1 ∧ decodeParam st1 a = .ok st := by
  rw [decodeTokens_append] at h
  cases h1 : decodeTokens l st0 with
  | error e => rw [h1] at h; cases h
  | ok st1 =>
    rw [h1] at h
    refine ⟨st1, rfl, ?_⟩
    simp only [decodeTokens] at h
    cases h2 : decodeParam st1 a with
    | error e => rw [h2] at h; cases h
    | ok st2 => rw [h2] at h; exact h

/-- What one round of the parameter loop does to each setting, by the key of its
token. -/
theorem decodeParam_effect (st1 st : Params) (a : GoString) (h : decodeParam st1 a = .ok st) :
    (if tokenKey a = "svc".toList then strconv.ParseBool (tokenValue a) = some st.genServiceDesc
      else st.genServiceDesc = st1.genServiceDesc)
    ∧ (if tokenKey a = "merge".toList then strconv.ParseBool (tokenValue a) = some st.merge
      else st.merge = st1.merge)
    ∧ (if tokenKey a = "prefix".toList then
        strconv.ParseBool (tokenValue a) = some st.prefixB ∧ st.config.TypePrefix = some st.prefixB
      else st.prefixB = st1.prefixB ∧ st.config.TypePrefix = st1.config.TypePrefix)
    ∧ (if tokenKey a = "ext".toList then st.extension = strings.Trim (tokenValue a) ".".toList
      else st.extension = st1.extension)
    ∧ (if tokenKey a = "go_model".toList then st.config.GoModel = some (tokenValue a)
      else st.config.GoModel = st1.config.GoModel)
    ∧ (if tokenKey a = "output".toList then st.config.Output = some (tokenValue a)
      else st.config.Output = st1.config.Output) := by
  unfold decodeParam at h
  rw [cutParam_key_value] at h
  simp only [] at h
  by_cases k1 : tokenKey a = "svc".toList
  · rw [if_pos k1] at h
    rw [k1]
    cases hb : strconv.ParseBool (tokenValue a) with
    | none => rw [hb] at h; cases h
    | some b =>
      rw [hb] at h
      cases h
      refine ⟨by rw [if_pos rfl], ?_, ?_, ?_, ?_, ?_⟩ <;> (rw [if_neg (by decide)]; try simp)
  · rw [if_neg k1] at h
    by_cases k2 : tokenKey a = "merge".toList
    · rw [if_pos k2] at h
      rw [k2]
      cases hb : strconv.ParseBool (tokenValue a) with
      | none => rw [hb] at h; cases h
      | some b =>
        rw [hb] at h
        cases h
        refine ⟨by rw [if_neg (by decide)], by rw [if_pos rfl], ?_, ?_, ?_, ?_⟩
          <;> (rw [if_neg (by decide)]; try simp)
    · rw [if_neg k2] at h
      by_cases k3 : tokenKey a = "prefix".toList
      · rw [if_pos k3] at h
        rw [k3]
        cases hb : strconv.ParseBool (tokenValue a) with
        | none => rw [hb] at h; cases h
        | some b =>
          rw [hb] at h
          cases h
          refine ⟨by rw [if_neg (by decide)], by rw [if_neg (by decide)],
            by rw [if_pos rfl]; exact ⟨rfl, rfl⟩, ?_, ?_, ?_⟩
            <;> rw [if_neg (by decide)]
      · rw [if_neg k3] at h
        by_cases k4 : tokenKey a = "ext".toList
        · rw [if_pos k4] at h
          rw [k4]
          cases h
          refine ⟨by rw [if_neg (by decide)], by rw [if_neg (by decide)],
            by rw [if_neg (by decide)]; exact ⟨rfl, rfl⟩, by rw [if_pos rfl], ?_, ?_⟩
            <;> rw [if_neg (by decide)]
        · rw [if_neg k4] at h
          by_cases k5 : tokenKey a = "go_model".toList
          · rw [if_pos k5] at h
            rw [k5]
            cases h
            refine ⟨by rw [if_neg (by decide)], by rw [if_neg (by decide)],
              by rw [if_neg (by decide)]; exact ⟨rfl, rfl⟩, by rw [if_neg (by decide)],
              by rw [if_pos rfl], by rw [if_neg (by decide)]⟩
          · rw [if_neg k5] at h
            by_cases k6 : tokenKey a = "output".toList
            · rw [if_pos k6] at h
              rw [k6]
              cases h
              refine ⟨by rw [if_neg (by decide)], by rw [if_neg (by decide)],
                by rw [if_neg (by decide)]; exact ⟨rfl, rfl⟩, by rw [if_neg (by decide)],
                by rw [if_neg (by decide)], by rw [if_pos rfl]⟩
            · rw [if_neg k6] at h
              cases h
              rw [if_neg k1, if_neg k2, if_neg k3, if_neg k4, if_neg k5, if_neg k6]
              exact ⟨rfl, rfl, ⟨rfl, rfl⟩, rfl, rfl, rfl⟩

/-- The settings after the parameter loop over `tokens`, started in the state
`st0`: each is decided by the last token with its key and left as in `st0` when
there is no such token. -/
theorem decodeTokens_last_wins (tokens : List GoString) (st0 st : Params)
    (h : decodeTokens tokens st0 = .ok st) :
    ((∀ v, lastValue "svc".toList tokens = some v →
        strconv.ParseBool v = some st.genServiceDesc)
      ∧ (lastValue "svc".toList tokens = none → st.genServiceDesc = st0.genServiceDesc))
    ∧ ((∀ v, lastValue "merge".toList tokens = some v → strconv.ParseBool v = some st.merge)
      ∧ (lastValue "merge".toList tokens = none → st.merge = st0.merge))
    ∧ ((∀ v, lastValue "prefix".toList tokens = some v →
        strconv.ParseBool v = some st.prefixB ∧ st.config.TypePrefix = some st.prefixB)
      ∧ (lastValue "prefix".toList tokens = none →
        st.prefixB = st0.prefixB ∧ st.config.TypePrefix = st0.config.TypePrefix))
    ∧ ((∀ v, lastValue "ext".toList tokens = some v →
        st.extension = strings.Trim v ".".toList)
      ∧ (lastValue "ext".toList tokens = none → st.extension = st0.extension))
    ∧ ((∀ v, lastValue "go_model".toList tokens = some v → st.config.GoModel = some v)
      ∧ (lastValue "go_model".toList tokens = none → st.config.GoModel = st0.config.GoModel))
    ∧ ((∀ v, lastValue "output".toList tokens = some v → st.config.Output = some v)
      ∧ (lastValue "output".toList tokens = none → st.config.Output = st0.config.Output)) := by
  induction tokens using List.reverseRecOn generalizing st with
  | nil =>
    simp only [decodeTokens] at h
    cases h
    simp [lastValue_nil]
  | append_singleton l a ih =>
    obtain ⟨st1, hl, ha⟩ := decodeTokens_concat l a st0 st h
    obtain ⟨i1, i2, i3, i4, i5, i6⟩ := ih st1 hl
    obtain ⟨e1, e2, e3, e4, e5, e6⟩ := decodeParam_effect st1 st a ha
    simp only [lastValue_concat]
    refine ⟨?_, ?_, ?_, ?_, ?_, ?_⟩
    · by_cases k : tokenKey a = "svc".toList
      · rw [if_pos k] at e1 ⊢
        exact ⟨fun v hv => by cases hv; exact e1, fun hn => by cases hn⟩
      · rw [if_neg k] at e1 ⊢
        rw [e1]; exact i1
    · by_cases k : tokenKey a = "merge".toList
      · rw [if_pos k] at e2 ⊢
        exact ⟨fun v hv => by cases hv; exact e2, fun hn => by cases hn⟩
      · rw [if_neg k] at e2 ⊢
        rw [e2]; exact i2
    · by_cases k : tokenKey a = "prefix".toList
      · rw [if_pos k] at e3 ⊢
        exact ⟨fun v hv => by cases hv; exact e3, fun hn => by cases hn⟩
      · rw [if_neg k] at e3 ⊢
        rw [e3.1, e3.2]; exact i3
    · by_cases k : tokenKey a = "ext".toList
      · rw [if_pos k] at e4 ⊢
        exact ⟨fun v hv => by cases hv; exact e4, fun hn => by cases hn⟩
      · rw [if_neg k] at e4 ⊢
        rw [e4]; exact i4
    · by_cases k : tokenKey a = "go_model".toList
      · rw [if_pos k] at e5 ⊢
        exact ⟨fun v hv => by cases hv; exact e5, fun hn => by cases hn⟩
      · rw [if_neg k] at e5 ⊢
        rw [e5]; exact i5
    · by_cases k : tokenKey a = "output".toList
      · rw [if_pos k] at e6 ⊢
        exact ⟨fun v hv => by cases hv; exact e6, fun hn => by cases hn⟩
      · rw [if_neg k] at e6 ⊢
        rw [e6]; exact i6

/-- C19: last token wins.  Every token is cut at its first `=`, so that a value
may contain `=`.  When a parameter string decodes, each setting is what the last
token with its key carries: a boolean that `strconv.ParseBool` reads from the
value for `svc`, `merge` and `prefix`, the value without leading and trailing
dots for `ext`, the value itself for `go_model` and `output`; and it is the
default (false, `graphql`, unset) when no token has the key.  The empty
parameter string decodes to the all-default configuration. -/
theorem decodeParameter_last_token_wins (p : GoString) (st : Params)
    (hdec : decodeParameter p = .ok st) :
    ((∀ k v : GoString, '=' ∉ k → cutParam (k ++ '=' :: v) = (k, v))
      ∧ (∀ t : GoString, '=' ∉ t → cutParam t = (t, []))
      ∧ (∀ t : GoString, cutParam t = (tokenKey t, tokenValue t)))
    ∧ ((∀ v, lastValue "svc".toList (strings.Split p ",".toList) = some v →
          strconv.ParseBool v = some st.genServiceDesc)
      ∧ (lastValue "svc".toList (strings.Split p ",".toList) = none →
          st.genServiceDesc = false))
    ∧ ((∀ v, lastValue "merge".toList (strings.Split p ",".toList) = some v →
          strconv.ParseBool v = some st.merge)
      ∧ (lastValue "merge".toList (strings.Split p ",".toList) = none → st.merge = false))
    ∧ ((∀ v, lastValue "prefix".toList (strings.Split p ",".toList) = some v →
          strconv.ParseBool v = some st.prefixB ∧ st.config.TypePrefix = some st.prefixB)
      ∧ (lastValue "prefix".toList (strings.Split p ",".toList) = none →
          st.prefixB = false ∧ st.config.TypePrefix = none))
    ∧ ((∀ v, lastValue "ext".toList (strings.Split p ",".toList) = some v →
          st.extension = strings.Trim v ".".toList)
      ∧ (lastValue "ext".toList (strings.Split p ",".toList) = none →
          st.extension = "graphql".toList))
    ∧ st.config.GoModel = lastValue "go_model".toList (strings.Split p ",".toList)
    ∧ st.config.Output = lastValue "output".toList (strings.Split p ",".toList)
    ∧ decodeParameter [] = .ok Params.initial := by
  obtain ⟨h1, h2, h3, h4, h5, h6⟩ := decodeTokens_last_wins _ _ _ hdec
  refine ⟨⟨?_, ?_, cutParam_key_value⟩, h1, h2, h3, h4, ?_, ?_, rfl⟩
  · intro k v hk
    have hall : ∀ x ∈ k, (fun x => decide (x ≠ '=')) x = true := by
      intro x hx
      have : x ≠ '=' := fun h => hk (h ▸ hx)
      simpa using this
    rw [cutParam_eq]
    have ht : (k ++ '=' :: v).takeWhile (fun x => x ≠ '=') = k := by
      rw [List.takeWhile_append_of_pos hall]
      simp [List.takeWhile]
    have hd : (k ++ '=' :: v).dropWhile (fun x => x ≠ '=') = '=' :: v := by
      rw [dropWhile_all _ k _ hall]
      simp [List.dropWhile]
    rw [ht, hd]
    rfl
  · intro t ht
    have hall : ∀ x ∈ t, (fun x => decide (x ≠ '=')) x = true := by
      intro x hx
      have : x ≠ '=' := fun h => ht (h ▸ hx)
      simpa using this
    rw [cutParam_eq, List.takeWhile_eq_self_iff.mpr hall, List.dropWhile_eq_nil_iff.mpr hall]
    rfl
  · cases hv : lastValue "go_model".toList (strings.Split p ",".toList) with
    | none => exact h5.2 hv
    | some v => exact h5.1 v hv
  · cases hv : lastValue "output".toList (strings.Split p ",".toList) with
    | none => exact h6.2 hv
    | some v => exact h6.1 v hv

/-- C19, on a parameter string with repeated keys and a value that contains `=`:
the later `svc` and `ext` tokens win and the output is `a=b`. -/
theorem decodeParameter_last_token_wins_witness :
    decodeParameter "svc=true,ext=x,output=a=b,svc=false,ext=.gql.".toList
      = .ok ⟨false, false, false, "gql".toList, ⟨none, none, some "a=b".toList⟩⟩
    ∧ lastValue "svc".toList
        (strings.Split "svc=true,ext=x,output=a=b,svc=false,ext=.gql.".toList ",".toList)
      = some "false".toList
    ∧ (⟨none, none, some "a=b".toList⟩ : Config).Output
      = lastValue "output".toList
        (strings.Split "svc=true,ext=x,output=a=b,svc=false,ext=.gql.".toList ",".toList) :=
  ⟨rfl, by decide,
   (decodeParameter_last_token_wins "svc=true,ext=x,output=a=b,svc=false,ext=.gql.".toList
      ⟨false, false, false, "gql".toList, ⟨none, none, some "a=b".toList⟩⟩ rfl).2.2.2.2.2.2.1⟩

/-! ### `main` of the plugin -/

/-- Whatever `generate` returns goes into the response: the files, the message
of the error if there is one, and the `PROTO3_OPTIONAL` feature bit. -/
theorem main_response_of_generate {Plugin Descs Schema : Type} (rt : PluginRuntime)
    (env : PluginEnv Plugin Descs Schema) (inp out : List Nat) (req : CodeGeneratorRequest)
    (files : List ResponseFile) (err : Option GoError)
    (hread : rt.ReadAll = .ok inp) (hreq : rt.Unmarshal inp = .ok req)
    (hgen : (generate env req).2 = .returned (files, err))
    (hmar : rt.Marshal ⟨err.map (GoError.Error rt.Quote), some FEATURE_PROTO3_OPTIONAL, files⟩
      = .ok out)
    (hwrite : rt.Write out = .ok ()) :
    protocGenGql.main rt env
      = .returned (⟨err.map (GoError.Error rt.Quote), some FEATURE_PROTO3_OPTIONAL, files⟩, out) := by
  unfold protocGenGql.main
  simp only [hread, hreq, hgen, hmar, hwrite]

/-- C11: a failure of the plugin-context construction does not reach the
response.  When `protogen.Options.New` fails, `generate` ends the process
through `log.Fatal` and `main` writes nothing, whereas a failure of the next
stage, the descriptor creation, is returned and written as the `Error` field of
a response with the `PROTO3_OPTIONAL` feature bit. -/
theorem main_fatal_on_context_failure :
    protocGenGql.main (fixedRuntime (requestWith "svc=true"))
        ({ fixedPluginEnv [] none with
            protogenNew := fun _ => .error "no descriptor for generated file".toList } :
          PluginEnv Unit Unit GoString)
      = .fatal "no descriptor for generated file".toList
    ∧ protocGenGql.main (fixedRuntime (requestWith "svc=true"))
        ({ fixedPluginEnv [] none with
            CreateDescriptorsFromProto := fun _ => .error "bad descriptor".toList } :
          PluginEnv Unit Unit GoString)
      = .returned (⟨some "bad descriptor".toList, some 1, []⟩, []) := by
  decide

/-! ### One output per schema -/

theorem generate_emit_single {Plugin Descs Schema : Type} (env : PluginEnv Plugin Descs Schema)
    (st : Params) (hout : st.config.Output = none ∨ st.config.Output = some [])
    (gs : List (SchemaDescriptor Schema)) (hone : ∀ g ∈ gs, g.FileDescriptors.length = 1)
    (outFiles : List ResponseFile) :
    generate.emit env st gs outFiles
      = .returned (outFiles ++ gs.map (fun g =>
          { Name := resolveGraphqlFilename env.getwd
              ((g.FileDescriptors.head?.map (fun fd => fd.GetName)).getD []) st.merge st.extension
            Content := env.FormatSchema g.AsGraphql }), none) := by
  induction gs generalizing outFiles with
  | nil => simp [generate.emit]
  | cons g gs ih =>
    obtain ⟨fd, hfd⟩ : ∃ fd, g.FileDescriptors = [fd] :=
      List.length_eq_one.mp (hone g (by simp))
    have ih2 := ih (fun q hq => hone q (by simp [hq]))
    unfold generate.emit
    rcases hout with h | h <;> simp [h, hfd, ih2]

theorem mainLoop_single {FS Schema : Type} (env : CliEnv FS Schema) (merge : Bool)
    (config : Config) (extension : GoString)
    (hout : config.Output = none ∨ config.Output = some [])
    (hcreate : ∀ fs1 name, ∃ fs2, env.osCreate fs1 name = .ok fs2)
    (gs : List (SchemaDescriptor Schema)) (hone : ∀ g ∈ gs, g.FileDescriptors.length = 1)
    (fs : FS) :
    writtenSchemas (mainLoop env merge config extension gs fs).1
        = gs.map (fun g => (resolveGraphqlFilename env.getwd
            ((g.FileDescriptors.head?.map (fun fd => fd.GetName)).getD []) merge extension,
            g.AsGraphql))
      ∧ generateFileCalls (mainLoop env merge config extension gs fs).1 = gs.length
      ∧ (mainLoop env merge config extension gs fs).2.2 = .returned () := by
  induction gs generalizing fs with
  | nil => simp [mainLoop, writtenSchemas, generateFileCalls]
  | cons g gs ih =>
    obtain ⟨fd, hfd⟩ : ∃ fd, g.FileDescriptors = [fd] :=
      List.length_eq_one.mp (hone g (by simp))
    have hgen := generateFile_no_override env fs g merge config extension fd [] hfd hout
    obtain ⟨fs2, hfs2⟩ := hcreate fs (resolveGraphqlFilename env.getwd fd.GetName merge extension)
    rw [hfs2] at hgen
    obtain ⟨ih1, ih2, ih3⟩ := ih (fun q hq => hone q (by simp [hq]))
      (env.FormatSchema fs2 (resolveGraphqlFilename env.getwd fd.GetName merge extension)
        g.AsGraphql)
    simp only [mainLoop, hfd, List.length_singleton, lt_self_iff_false, gt_iff_lt, if_false, hgen]
    refine ⟨?_, ?_, ih3⟩
    · simp [writtenSchemas, ih1, hfd]
    · simp [generateFileCalls, ih2]

/-- C13: one output per schema on the success path.  Let the parameter string
decode with merge off and without an output override, and let the Translator
return schemas with exactly one source file each.  Then `generate` returns no
error and exactly one entry per schema, in order, named by the source file name
with its extension (`path.Ext`) cut off and `.` and the configured extension
appended, and holding what the formatter makes of the schema.  The command-line
tool run with merge off, the same extension and no override, every file creation
succeeding, calls `generateFile` once per schema, has the formatter write the
same schemas under the same names in the same order, and ends normally. -/
theorem one_output_per_schema {Plugin Descs Schema FS : Type}
    (env : PluginEnv Plugin Descs Schema) (cli : CliEnv FS Schema)
    (req : CodeGeneratorRequest) (st : Params) (p : Plugin) (descs : Descs)
    (gs : List (SchemaDescriptor Schema)) (config : Config) (fs : FS)
    (hdec : decodeParameter req.GetParameter = .ok st) (hmerge : st.merge = false)
    (hout : st.config.Output = none ∨ st.config.Output = some [])
    (hp : env.protogenNew req = .ok p) (hd : env.CreateDescriptorsFromProto req = .ok descs)
    (hs : env.NewSchemas descs st.merge st.genServiceDesc p st.config = .ok gs)
    (hone : ∀ g ∈ gs, g.FileDescriptors.length = 1)
    (hcfg : config.Output = none ∨ config.Output = some [])
    (hcreate : ∀ fs1 name, ∃ fs2, cli.osCreate fs1 name = .ok fs2) :
    (generate env req).2
      = .returned (gs.map (fun g =>
          { Name := strings.TrimSuffix
                ((g.FileDescriptors.head?.map (fun fd => fd.GetName)).getD [])
                (path.Ext ((g.FileDescriptors.head?.map (fun fd => fd.GetName)).getD []))
              ++ '.' :: st.extension
            Content := env.FormatSchema g.AsGraphql }), none)
    ∧ writtenSchemas (mainLoop cli false config st.extension gs fs).1
      = gs.map (fun g =>
          (strings.TrimSuffix
              ((g.FileDescriptors.head?.map (fun fd => fd.GetName)).getD [])
              (path.Ext ((g.FileDescriptors.head?.map (fun fd => fd.GetName)).getD []))
            ++ '.' :: st.extension, g.AsGraphql))
    ∧ generateFileCalls (mainLoop cli false config st.extension gs fs).1 = gs.length
    ∧ (mainLoop cli false config st.extension gs fs).2.2 = .returned () := by
  have hname : ∀ (getwd : Option GoString) (n e : GoString),
      resolveGraphqlFilename getwd n false e
        = strings.TrimSuffix n (path.Ext n) ++ '.' :: e := by
    intro getwd n e
    simp [resolveGraphqlFilename]
  obtain ⟨c1, c2, c3⟩ := mainLoop_single cli false config st.extension hcfg hcreate gs hone fs
  refine ⟨?_, ?_, c2, c3⟩
  · unfold generate
    simp only [hdec, hp, hd, hs]
    rw [generate_emit_single env st hout gs hone [], hmerge]
    simp only [List.nil_append, hname]
  · rw [c1]
    simp only [hname]

/-- C13, at the specification's example: a single schema from `pkg/a.proto` with
the default extension yields exactly one output, named `pkg/a.graphql`, in the
plugin and in the command-line tool. -/
theorem one_output_per_schema_witness :
    (generate (fixedPluginEnv [⟨[namedFile "pkg/a.proto"], "SDL".toList⟩] none)
        (requestWith "merge=false")).2
      = .returned ([⟨"pkg/a.graphql".toList, "SDL".toList⟩], none)
    ∧ writtenSchemas (mainLoop (fixedCliEnv none) false ⟨some false, some [], some []⟩
        "graphql".toList [⟨[namedFile "pkg/a.proto"], "SDL".toList⟩] []).1
      = [("pkg/a.graphql".toList, "SDL".toList)] :=
  ⟨((one_output_per_schema (fixedPluginEnv [⟨[namedFile "pkg/a.proto"], "SDL".toList⟩] none)
      (fixedCliEnv none) (requestWith "merge=false")
      ⟨false, false, false, "graphql".toList, ⟨none, none, none⟩⟩ () ()
      [⟨[namedFile "pkg/a.proto"], "SDL".toList⟩] ⟨some false, some [], some []⟩ []
      rfl rfl (Or.inl rfl) rfl rfl rfl (by decide) (Or.inr rfl)
      (fun fs1 _ => ⟨fs1, rfl⟩)).1).trans (by decide),
   ((one_output_per_schema (fixedPluginEnv [⟨[namedFile "pkg/a.proto"], "SDL".toList⟩] none)
      (fixedCliEnv none) (requestWith "merge=false")
      ⟨false, false, false, "graphql".toList, ⟨none, none, none⟩⟩ () ()
      [⟨[namedFile "pkg/a.proto"], "SDL".toList⟩] ⟨some false, some [], some []⟩ []
      rfl rfl (Or.inl rfl) rfl rfl rfl (by decide) (Or.inr rfl)
      (fun fs1 _ => ⟨fs1, rfl⟩)).2.1).trans (by decide)⟩

/-! ### `path.Clean` on paths made of real elements -/

theorem takeWhile_all_append (p : Char → Bool) (a rest : GoString) (ha : ∀ c ∈ a, p c = true) :
    (a ++ rest).takeWhile p = a ++ rest.takeWhile p := by
  induction a with
  | nil => rfl
  | cons x a ih =>
    have hx : p x = true := ha x (by simp)
    have ih2 := ih (fun c hc => ha c (List.mem_cons_of_mem _ hc))
    simp only [List.cons_append, List.takeWhile, hx]
    exact congrArg (List.cons x) ih2

theorem takeWhile_head_false (p : Char → Bool) (l : GoString)
    (h : ∀ c, l.head? = some c → p c = false) : l.takeWhile p = [] := by
  cases l with
  | nil => rfl
  | cons x l =>
    have hx : p x = false := h x rfl
    simp only [List.takeWhile, hx]

/-- The round of the loop for a real path element `e` that is followed by a slash
or by the end of the path. -/
theorem Clean_step_element_ahead (rooted : Bool) (c : Char) (t e rest out : GoString)
    (dotdot : Nat) (he : IsElement e) (hrest : rest = [] ∨ rest.head? = some '/')
    (hct : c :: t = e ++ rest) :
    path.Clean.step rooted c t out dotdot = (rest, withSlash rooted out ++ e, dotdot) := by
  obtain ⟨he1, he2, he3, he4⟩ := he
  have hslash : ∀ x ∈ e, (fun x => decide (x ≠ '/')) x = true := by
    intro x hx
    have : x ≠ '/' := fun h => he2 (h ▸ hx)
    simpa using this
  have hstop : ∀ x, rest.head? = some x → (fun x => decide (x ≠ '/')) x = false := by
    intro x hx
    rcases hrest with h | h
    · rw [h] at hx; cases hx
    · rw [h] at hx; cases hx; decide
  have htake : (c :: t).takeWhile (fun x => x ≠ '/') = e := by
    rw [hct, takeWhile_all_append _ e rest hslash, takeWhile_head_false _ rest hstop]
    simp
  have hdrop : (c :: t).dropWhile (fun x => x ≠ '/') = rest := by
    rw [hct, dropWhile_all _ e rest hslash, dropWhile_head_false _ rest hstop]
  cases e with
  | nil => exact absurd rfl he1
  | cons c1 e1 =>
    simp only [List.cons_append, List.cons.injEq] at hct
    obtain ⟨hc, ht⟩ := hct
    subst hc
    have h1 : c ≠ '/' := fun h => he2 (by simp [h])
    have hrest_dot : rest.head? ≠ some '.' := by
      rcases hrest with h | h
      · rw [h]; simp
      · rw [h]; simp
    have h2 : ¬ (c = '.' ∧ (t = [] ∨ t.head? = some '/')) := by
      rintro ⟨hc, ht2⟩
      cases e1 with
      | nil => exact he3 (by rw [hc])
      | cons y e2 =>
        rw [ht] at ht2
        rcases ht2 with h | h
        · simp at h
        · simp at h; exact he2 (by simp [h])
    have h3 : ¬ (c = '.' ∧ t.head? = some '.' ∧ (t.tail = [] ∨ t.tail.head? = some '/')) := by
      rintro ⟨hc, hh, ht2⟩
      cases e1 with
      | nil =>
        rw [ht] at hh
        exact hrest_dot (by simpa using hh)
      | cons y e2 =>
        rw [ht] at hh ht2
        simp only [List.cons_append, List.head?_cons, Option.some.injEq] at hh
        simp only [List.cons_append, List.tail_cons] at ht2
        cases e2 with
        | nil => exact he4 (by rw [hc, hh])
        | cons z e3 =>
          rcases ht2 with h | h
          · simp at h
          · simp at h; exact he2 (by simp [h])
    rw [Clean_step_element rooted c t out dotdot h1 h2 h3, htake, hdrop]
    rfl

theorem slashBefore_append (a b : List GoString) :
    slashBefore (a ++ b) = slashBefore a ++ slashBefore b := by
  simp [slashBefore]

theorem slashAfter_append (a b : List GoString) :
    slashAfter (a ++ b) = slashAfter a ++ slashAfter b := by
  simp [slashAfter]

theorem slashBefore_concat (segs : List GoString) (g : GoString) :
    slashBefore (segs ++ [g]) = '/' :: (slashAfter segs ++ g) := by
  induction segs with
  | nil => simp [slashBefore, slashAfter]
  | cons s segs ih =>
    have h1 : slashBefore (s :: segs ++ [g]) = '/' :: (s ++ slashBefore (segs ++ [g])) := by
      simp [slashBefore]
    have h2 : slashAfter (s :: segs) = s ++ '/' :: slashAfter segs := by
      simp [slashAfter]
    rw [h1, ih, h2]
    simp

theorem slashBefore_head (s : GoString) (segs : List GoString) :
    slashBefore (s :: segs) = '/' :: (s ++ slashBefore segs) := by
  simp [slashBefore]

/-- Copying a real path element into the buffer that holds a clean path gives the
clean path with that element added. -/
theorem cleanForm_concat (rooted : Bool) (segs : List GoString) (e : GoString)
    (hsegs : ∀ s ∈ segs, IsElement s) :
    withSlash rooted (cleanForm rooted segs) ++ e = cleanForm rooted (segs ++ [e]) := by
  cases rooted with
  | true =>
    cases segs with
    | nil => simp [withSlash, cleanForm, slashBefore]
    | cons s segs =>
      have hs : s ≠ [] := (hsegs s (by simp)).1
      have hlen : (slashBefore (s :: segs)).length ≠ 1 := by
        rw [slashBefore_head]
        cases s with
        | nil => exact absurd rfl hs
        | cons c s => simp
      have hne : s :: segs ++ [e] ≠ [] := by simp
      simp only [withSlash, cleanForm, if_true, hlen, ne_eq, not_false_eq_true, and_self,
        true_or, if_neg (List.cons_ne_nil s segs), if_neg hne]
      rw [slashBefore_append]
      simp [slashBefore]
  | false =>
    cases segs with
    | nil => simp [withSlash, cleanForm, slashBefore]
    | cons s segs =>
      have hs : s ≠ [] := (hsegs s (by simp)).1
      have htail : (slashBefore (s :: segs)).tail = s ++ slashBefore segs := by
        rw [slashBefore_head]; rfl
      have htail2 : (slashBefore (s :: segs ++ [e])).tail = s ++ slashBefore (segs ++ [e]) := by
        have : s :: segs ++ [e] = s :: (segs ++ [e]) := rfl
        rw [this, slashBefore_head]; rfl
      have hlen : (s ++ slashBefore segs).length ≠ 0 := by
        cases s with
        | nil => exact absurd rfl hs
        | cons c s => simp
      simp only [withSlash, cleanForm, Bool.false_eq_true, if_false, htail, htail2, hlen, ne_eq,
        not_false_eq_true, and_self, or_true, if_true, false_and, false_or]
      rw [slashBefore_append]
      simp [slashBefore]

/-- Run on real path elements that are each followed by a slash, the loop adds
them to the clean path in the buffer and goes on with what comes after them. -/
theorem Clean_loop_segments (rooted : Bool) (segs : List GoString)
    (hsegs : ∀ s ∈ segs, IsElement s) :
    ∀ (segs0 : List GoString), (∀ s ∈ segs0, IsElement s) →
      ∀ (rest : GoString) (fuel dotdot : Nat), (slashAfter segs ++ rest).length ≤ fuel →
      path.Clean.loop rooted fuel (slashAfter segs ++ rest) (cleanForm rooted segs0) dotdot
        = path.Clean.loop rooted rest.length rest (cleanForm rooted (segs0 ++ segs)) dotdot := by
  induction segs with
  | nil =>
    intro segs0 _ rest fuel dotdot hfuel
    have h0 : slashAfter [] = ([] : GoString) := rfl
    rw [h0] at hfuel ⊢
    simp only [List.nil_append, List.append_nil] at hfuel ⊢
    exact Clean_loop_fuel rooted fuel rest.length rest _ dotdot hfuel (le_refl _)
  | cons s segs ih =>
    intro segs0 hsegs0 rest fuel dotdot hfuel
    have hs : IsElement s := hsegs s (by simp)
    have hss : ∀ x ∈ segs, IsElement x := fun x hx => hsegs x (List.mem_cons_of_mem _ hx)
    have hform : slashAfter (s :: segs) ++ rest = s ++ ('/' :: (slashAfter segs ++ rest)) := by
      simp [slashAfter]
    rw [hform] at hfuel ⊢
    cases s with
    | nil => exact absurd rfl hs.1
    | cons c s1 =>
      cases fuel with
      | zero => simp at hfuel
      | succ fuel =>
        cases fuel with
        | zero => simp at hfuel
        | succ fuel =>
          have hstep := Clean_step_element_ahead rooted c
            (s1 ++ ('/' :: (slashAfter segs ++ rest))) (c :: s1)
            ('/' :: (slashAfter segs ++ rest)) (cleanForm rooted segs0) dotdot hs
            (Or.inr rfl) rfl
          have hlen : (slashAfter segs ++ rest).length ≤ fuel := by
            simp only [List.cons_append, List.length_cons, List.length_append] at hfuel ⊢
            omega
          have hsegs1 : ∀ x ∈ segs0 ++ [c :: s1], IsElement x := by
            intro x hx
            rcases List.mem_append.mp hx with h | h
            · exact hsegs0 x h
            · simp at h; subst h; exact hs
          have hcons : (c :: s1) ++ ('/' :: (slashAfter segs ++ rest))
              = c :: (s1 ++ ('/' :: (slashAfter segs ++ rest))) := rfl
          rw [hcons]
          simp only [path.Clean.loop]
          rw [hstep]
          simp only []
          rw [cleanForm_concat rooted segs0 (c :: s1) hsegs0]
          have hslash : path.Clean.step rooted '/' (slashAfter segs ++ rest)
              (cleanForm rooted (segs0 ++ [c :: s1])) dotdot
              = (slashAfter segs ++ rest, cleanForm rooted (segs0 ++ [c :: s1]), dotdot) := by
            simp [path.Clean.step]
          simp only [path.Clean.loop]
          rw [hslash]
          have := ih hss (segs0 ++ [c :: s1]) hsegs1 rest fuel dotdot hlen
          simpa using this

/-- Cleaning a directory part in clean form followed by a slash and a real path
element changes nothing but the doubled slash: the result is the directory part
followed by the element. -/
theorem Clean_cleanDir_element (rooted : Bool) (segs : List GoString) (g : GoString)
    (hsegs : ∀ s ∈ segs, IsElement s) (hg : IsElement g)
    (hne : (if rooted then ['/'] else []) ++ slashAfter segs ≠ ([] : GoString)) :
    path.Clean (((if rooted then ['/'] else []) ++ slashAfter segs) ++ '/' :: g)
      = ((if rooted then ['/'] else []) ++ slashAfter segs) ++ g := by
  have hgne : g ≠ [] := hg.1
  have hfinal : ∀ dotdot : Nat,
      path.Clean.loop rooted ((slashAfter segs ++ '/' :: g).length) (slashAfter segs ++ '/' :: g)
        (cleanForm rooted []) dotdot = cleanForm rooted (segs ++ [g]) := by
    intro dotdot
    rw [Clean_loop_segments rooted segs hsegs [] (by simp) ('/' :: g) _ dotdot (le_refl _)]
    have hstep : path.Clean.step rooted '/' g (cleanForm rooted ([] ++ segs)) dotdot
        = (g, cleanForm rooted ([] ++ segs), dotdot) := by
      simp [path.Clean.step]
    simp only [List.length_cons, path.Clean.loop, hstep]
    rw [Clean_loop_element rooted g hg g.length _ dotdot (le_refl _)]
    have := cleanForm_concat rooted ([] ++ segs) g (by simpa using hsegs)
    simpa [withSlash] using this
  cases rooted with
  | true =>
    have hp : (['/'] ++ slashAfter segs) ++ '/' :: g ≠ [] := by simp
    have hform : cleanForm true (segs ++ [g]) = '/' :: (slashAfter segs ++ g) := by
      have hne2 : segs ++ [g] ≠ [] := by simp
      simp only [cleanForm, if_true, if_neg hne2]
      exact slashBefore_concat segs g
    have hloop := hfinal 1
    rw [hform] at hloop
    have hfuel := Clean_loop_fuel true
      ((['/'] ++ slashAfter segs) ++ '/' :: g).length (slashAfter segs ++ '/' :: g).length
      (slashAfter segs ++ '/' :: g) (cleanForm true []) 1 (by simp) (le_refl _)
    unfold path.Clean
    simp only [if_true, if_neg hp]
    have hroot : decide (((['/'] ++ slashAfter segs) ++ '/' :: g).head? = some '/') = true := by
      simp
    have htail : ((['/'] ++ slashAfter segs) ++ '/' :: g).tail = slashAfter segs ++ '/' :: g := by
      simp
    rw [hroot]
    simp only [if_true, htail]
    have hc0 : cleanForm true [] = ['/'] := rfl
    rw [hc0] at hfuel hloop
    rw [hfuel, hloop]
    simp
  | false =>
    simp only [Bool.false_eq_true, if_false, List.nil_append] at hne ⊢
    cases segs with
    | nil => exact absurd rfl hne
    | cons s segs =>
      have hs : IsElement s := hsegs s (by simp)
      have hp : slashAfter (s :: segs) ++ '/' :: g ≠ [] := by simp
      have hform : cleanForm false (s :: segs ++ [g]) = slashAfter (s :: segs) ++ g := by
        simp only [cleanForm, Bool.false_eq_true, if_false]
        rw [slashBefore_concat]; rfl
      have hloop := hfinal 0
      rw [hform] at hloop
      have hc0 : cleanForm false [] = [] := rfl
      rw [hc0] at hloop
      have hhead : (slashAfter (s :: segs) ++ '/' :: g).head? ≠ some '/' := by
        cases s with
        | nil => exact absurd rfl hs.1
        | cons c s1 =>
          have hc : c ≠ '/' := fun h => hs.2.1 (by simp [h])
          simp [slashAfter, hc]
      have hroot : decide ((slashAfter (s :: segs) ++ '/' :: g).head? = some '/') = false := by
        simpa using hhead
      unfold path.Clean
      simp only [if_neg hp, hroot, Bool.false_eq_true, if_false]
      rw [hloop]
      have hlen : (slashAfter (s :: segs) ++ g).length ≠ 0 := by
        cases g with
        | nil => exact absurd rfl hgne
        | cons c g1 => simp
      rw [if_neg hlen]

/-! ### Merged naming and the directory part -/

theorem resolveGraphqlFilename_merge_eq (getwd : Option GoString)
    (protoFileName extension : GoString) :
    resolveGraphqlFilename getwd protoFileName true extension
      = path.Join [(path.Split protoFileName).1, gqlFileName getwd protoFileName extension] :=
  rfl

theorem Split_fst_form (p : GoString) :
    (path.Split p).1 = [] ∨ (path.Split p).1.getLast? = some '/' := by
  obtain ⟨dir, file, hsplit, hfile, hdir⟩ := exists_dir_file p
  rw [hsplit, path_Split_append dir file hfile hdir]
  exact hdir

theorem Clean_element (g : GoString) (hg : IsElement g) : path.Clean g = g := by
  have hgne : g ≠ [] := hg.1
  have hhead : g.head? ≠ some '/' := by
    intro h
    cases g with
    | nil => simp at h
    | cons c t => simp at h; exact hg.2.1 (by simp [h])
  have hr : decide (g.head? = some '/') = false := by simpa using hhead
  unfold path.Clean
  simp only [if_neg hgne, hr, Bool.false_eq_true, if_false]
  rw [Clean_loop_element false g hg g.length [] 0 (le_refl _)]
  simp [hgne]

/-- Joining a directory part in clean form and a real path element puts the two
together unchanged. -/
theorem Join_cleanDir (dir g : GoString) (hdir : IsCleanDir dir) (hg : IsElement g) :
    path.Join [dir, g] = dir ++ g := by
  have hgne : g.isEmpty = false := by
    cases g with
    | nil => exact absurd rfl hg.1
    | cons c t => rfl
  by_cases hd : dir = []
  · subst hd
    have : path.Join [[], g] = path.Clean g := by
      simp [path.Join, List.dropWhile, hgne, strings.Join, List.intercalate, List.intersperse]
    rw [this, Clean_element g hg]
    rfl
  · obtain ⟨rooted, segs, hsegs, hform⟩ := hdir
    have hdne : dir.isEmpty = false := by
      cases dir with
      | nil => exact absurd rfl hd
      | cons c t => rfl
    have : path.Join [dir, g] = path.Clean (dir ++ '/' :: g) := by
      simp [path.Join, List.dropWhile, hdne, strings.Join, List.intercalate, List.intersperse]
    rw [this, hform]
    exact Clean_cleanDir_element rooted segs g hsegs hg (by rw [← hform]; exact hd)

/-- The file name of merged naming is a real path element: always when
`filepath.Abs` fails, and when it succeeds if the absolute directory is not the
root, the working directory being rooted. -/
theorem gqlFileName_IsElement (getwd : Option GoString) (protoFileName extension : GoString)
    (hwd : ∀ wd, getwd = some wd → wd.head? = some '/')
    (hext : '/' ∉ extension)
    (hroot : ∀ abs, filepath.Abs getwd protoFileName = some abs → filepath.Dir abs ≠ ['/']) :
    IsElement (gqlFileName getwd protoFileName extension) := by
  have hl : ".".toList = ['.'] := rfl
  unfold gqlFileName
  cases habs : filepath.Abs getwd protoFileName with
  | none =>
    simp only []
    refine ⟨by simp, ?_, ?_, ?_⟩
    · intro h
      rcases List.mem_append.mp h with h | h
      · exact absurd h (by decide)
      · exact hext h
    · intro h
      have := congrArg List.length h
      simp at this
    · intro h
      have := congrArg List.length h
      simp at this
  | some abs =>
    have hclean := Dir_rooted abs (Abs_rooted getwd protoFileName abs hwd habs)
    obtain ⟨hlen, hb⟩ := IsCleanRooted_last_segment _ hclean (hroot abs habs)
    simp only [if_pos hlen, hl]
    generalize (strings.Split (filepath.Dir abs) ['/']).getLastD [] = b at hb
    obtain ⟨hb1, hb2, hb3, _⟩ := hb
    cases b with
    | nil => exact absurd rfl hb1
    | cons c b1 =>
      refine ⟨by simp, ?_, ?_, ?_⟩
      · intro h
        simp only [List.append_assoc, List.mem_append, List.mem_singleton] at h
        rcases h with h | h | h
        · exact hb2 h
        · exact absurd h (by decide)
        · exact hext h
      · intro h
        have := congrArg List.length h
        simp at this
      · intro h
        simp only [List.append_assoc, List.cons_append, List.cons.injEq] at h
        obtain ⟨hc, ht⟩ := h
        cases b1 with
        | nil => exact hb3 (by rw [hc])
        | cons c2 b2 =>
          have := congrArg List.length ht
          simp at this

/-- C15 as stated fails.  In the working directory `/work` the source name
`./foo.proto` has the directory part `./`, but its merged name `work.gql` has
an empty one, and `a//foo.proto` with the directory part `a//` gets the merged
name `a/a.gql`.  With the empty extension the source name `/a/`, whose absolute
directory is the root, has the directory part `/a/`, but its merged name is
`/a`, with the directory part `/`. -/
theorem resolveGraphqlFilename_merge_changes_directory :
    '/' ∉ "gql".toList
    ∧ (path.Split "./foo.proto".toList).1 = "./".toList
    ∧ resolveGraphqlFilename (some "/work".toList) "./foo.proto".toList true "gql".toList
      = "work.gql".toList
    ∧ (path.Split (resolveGraphqlFilename (some "/work".toList) "./foo.proto".toList true
        "gql".toList)).1 = []
    ∧ (path.Split "a//foo.proto".toList).1 = "a//".toList
    ∧ (path.Split (resolveGraphqlFilename (some "/work".toList) "a//foo.proto".toList true
        "gql".toList)).1 = "a/".toList
    ∧ (path.Split "/a/".toList).1 = "/a/".toList
    ∧ (path.Split (resolveGraphqlFilename (some "/work".toList) "/a/".toList true [])).1
      = "/".toList := by
  decide

/-! ### The merge scenario of the plugin -/

theorem cleanForm_rooted_of_IsCleanRooted (out : GoString) (h : IsCleanRooted out) :
    ∃ segs, (∀ s ∈ segs, IsElement s) ∧ out = cleanForm true segs := by
  obtain ⟨segs, hsegs, hout⟩ := h
  exact ⟨segs, hsegs, by rw [hout]; rfl⟩

/-- Cleaning a rooted directory part in clean form removes its final slash. -/
theorem Clean_rooted_slashAfter (segs : List GoString) (hsegs : ∀ s ∈ segs, IsElement s) :
    path.Clean ('/' :: slashAfter segs) = cleanForm true segs := by
  have hloop := Clean_loop_segments true segs hsegs [] (by simp) [] ('/' :: slashAfter segs).length
    1 (by simp)
  simp only [List.append_nil, List.nil_append, List.length_nil, Clean_loop_nil] at hloop
  have hc0 : cleanForm true [] = ['/'] := rfl
  rw [hc0] at hloop
  have hne : (cleanForm true segs).length ≠ 0 := by
    cases segs with
    | nil => simp [cleanForm]
    | cons s segs => simp [cleanForm, slashBefore]
  unfold path.Clean
  simp only [List.cons_ne_nil, if_false, List.head?_cons, decide_True, if_true, List.tail_cons,
    hloop, if_neg hne]

/-- In a rooted working directory, the absolute directory of a source path
`d/f` made of two real path elements is a clean rooted path that ends in `d`. -/
theorem Dir_Abs_two (wd d f : GoString) (hwd : wd.head? = some '/') (hd : IsElement d)
    (hf : IsElement f) :
    ∃ segs abs, (∀ s ∈ segs, IsElement s)
      ∧ filepath.Abs (some wd) (d ++ '/' :: f) = some abs
      ∧ filepath.Dir abs = slashBefore (segs ++ [d]) := by
  have hdhead : (d ++ '/' :: f).head? ≠ some '/' := by
    cases d with
    | nil => exact absurd rfl hd.1
    | cons c d1 =>
      have hc : c ≠ '/' := fun h => hd.2.1 (by simp [h])
      simpa using hc
  have hnotabs : filepath.IsAbs (d ++ '/' :: f) = false := by
    cases d with
    | nil => exact absurd rfl hd.1
    | cons c d1 =>
      have hc : c ≠ '/' := fun h => hd.2.1 (by simp [h])
      have hc2 : ('/' == c) = false := by
        simpa using fun h : '/' = c => hc h.symm
      simp [filepath.IsAbs, strings.HasPrefix, List.isPrefixOf, hc2]
  cases wd with
  | nil => simp at hwd
  | cons c w =>
    simp only [List.head?_cons, Option.some.injEq] at hwd
    subst hwd
    have hjoin : filepath.Join ['/' :: w, d ++ '/' :: f]
        = path.Clean (('/' :: w) ++ '/' :: (d ++ '/' :: f)) := by
      simp [filepath.Join, filepath.Clean, strings.Join, List.intercalate, List.intersperse]
    -- the loop arrives at `d/f` with a clean rooted path in the buffer
    obtain ⟨fuel2, out2, dotdot2, hfuel2, ⟨hclean, hdd⟩, hreach⟩ :=
      Clean_loop_reach true (fun out dotdot => IsCleanRooted out ∧ dotdot = 1)
        (fun c t out dotdot h => Clean_step_rooted c t out dotdot h) (d ++ '/' :: f) w.length w
        (('/' :: w) ++ '/' :: (d ++ '/' :: f)).length ['/'] 1 (le_refl _) (by simp)
        ⟨IsCleanRooted_root, rfl⟩
    subst hdd
    obtain ⟨segs, hsegs, hout2⟩ := cleanForm_rooted_of_IsCleanRooted out2 hclean
    subst hout2
    have hsd : ∀ s ∈ [d], IsElement s := by
      intro s hs; simp at hs; subst hs; exact hd
    have hsegsd : ∀ s ∈ segs ++ [d], IsElement s := by
      intro s hs
      rcases List.mem_append.mp hs with h | h
      · exact hsegs s h
      · exact hsd s h
    have hdf : d ++ '/' :: f = slashAfter [d] ++ f := by simp [slashAfter]
    have hloop2 : path.Clean.loop true fuel2 (d ++ '/' :: f) (cleanForm true segs) 1
        = cleanForm true (segs ++ [d] ++ [f]) := by
      rw [hdf] at hfuel2 ⊢
      rw [Clean_loop_segments true [d] hsd segs hsegs f fuel2 1 hfuel2,
        Clean_loop_element true f hf f.length _ 1 (le_refl _)]
      have := cleanForm_concat true (segs ++ [d]) f hsegsd
      simpa [withSlash] using this
    have hform : cleanForm true (segs ++ [d] ++ [f]) = '/' :: (slashAfter (segs ++ [d]) ++ f) := by
      have hne : segs ++ [d] ++ [f] ≠ [] := by simp
      simp only [cleanForm, if_true, if_neg hne]
      exact slashBefore_concat (segs ++ [d]) f
    have habs : path.Clean (('/' :: w) ++ '/' :: (d ++ '/' :: f))
        = '/' :: (slashAfter (segs ++ [d]) ++ f) := by
      unfold path.Clean
      simp only [List.cons_append, List.cons_ne_nil, if_false, List.head?_cons, decide_True,
        if_true, List.tail_cons]
      simp only [List.cons_append] at hreach
      rw [hreach, hloop2, hform]
      simp
    refine ⟨segs, '/' :: (slashAfter (segs ++ [d]) ++ f), hsegs, ?_, ?_⟩
    · unfold filepath.Abs
      rw [hnotabs]
      simp only [Bool.false_eq_true, if_false, hjoin, habs]
    · have hends : ('/' :: slashAfter (segs ++ [d])).getLast? = some '/' := by
        have hx : '/' :: slashAfter (segs ++ [d]) = ('/' :: (slashAfter segs ++ d)) ++ ['/'] := by
          rw [slashAfter_append]
          simp [slashAfter]
        rw [hx, List.getLast?_concat]
      have hsplit : path.Split ('/' :: (slashAfter (segs ++ [d]) ++ f))
          = ('/' :: slashAfter (segs ++ [d]), f) := by
        have := path_Split_append ('/' :: slashAfter (segs ++ [d])) f hf.2.1 (Or.inr hends)
        simpa using this
      have hD : filepath.Dir ('/' :: (slashAfter (segs ++ [d]) ++ f))
          = path.Clean (path.Split ('/' :: (slashAfter (segs ++ [d]) ++ f))).1 := rfl
      rw [hD, hsplit, Clean_rooted_slashAfter _ hsegsd]
      have hne : segs ++ [d] ≠ [] := by simp
      simp only [cleanForm, if_true, if_neg hne]

/-- Merged naming of a source path `d/f` made of two real path elements, in a
rooted working directory: the file `d.<extension>` in the directory `d/`. -/
theorem resolveGraphqlFilename_merge_two (wd d f extension : GoString)
    (hwd : wd.head? = some '/') (hd : IsElement d) (hf : IsElement f) (hext : '/' ∉ extension) :
    resolveGraphqlFilename (some wd) (d ++ '/' :: f) true extension
      = d ++ '/' :: (d ++ '.' :: extension) := by
  obtain ⟨segs, abs, hsegs, habs, hdir⟩ := Dir_Abs_two wd d f hwd hd hf
  have hsplitOn : strings.Split (filepath.Dir abs) ['/'] = [] :: (segs ++ [d]) := by
    rw [hdir, Split_single]
    apply splitOn_slash_flatten
    intro s hs
    rcases List.mem_append.mp hs with h | h
    · exact (hsegs s h).2.1
    · simp at h; subst h; exact hd.2.1
  have hl : ".".toList = ['.'] := rfl
  have hgql : gqlFileName (some wd) (d ++ '/' :: f) extension = d ++ '.' :: extension := by
    unfold gqlFileName
    have hlast : ([] :: (segs ++ [d])).getLastD [] = d := by
      have hx : ([] : GoString) :: (segs ++ [d]) = ([] :: segs) ++ [d] := rfl
      rw [hx, List.getLastD_concat]
    simp only [habs, hsplitOn, hl, hlast]
    simp
  have hg : IsElement (d ++ '.' :: extension) := by
    obtain ⟨hd1, hd2, hd3, _⟩ := hd
    cases d with
    | nil => exact absurd rfl hd1
    | cons c d1 =>
      refine ⟨by simp, ?_, ?_, ?_⟩
      · intro h
        rcases List.mem_append.mp h with h | h
        · exact hd2 h
        · rcases List.mem_cons.mp h with h | h
          · exact absurd h (by decide)
          · exact hext h
      · intro h
        have := congrArg List.length h
        simp at this
      · intro h
        simp only [List.cons_append, List.cons.injEq] at h
        obtain ⟨hc, ht⟩ := h
        cases d1 with
        | nil => exact hd3 (by rw [hc])
        | cons c2 d2 =>
          have := congrArg List.length ht
          simp at this
  have hsplit : path.Split (d ++ '/' :: f) = (d ++ ['/'], f) := by
    have := path_Split_append (d ++ ['/']) f hf.2.1 (Or.inr (by simp))
    simpa using this
  have hcd : IsCleanDir (d ++ ['/']) :=
    ⟨false, [d], by intro s hs; simp at hs; subst hs; exact hd, by simp [slashAfter]⟩
  rw [resolveGraphqlFilename_merge_eq, hsplit, hgql, Join_cleanDir _ _ hcd hg]
  simp

/-- C14, as amended: the merge scenario of the plugin.  For a request with the
parameter string `merge=true`, a rooted working directory, and a Translator
that returns one schema built from `svc/a.proto` and `svc/b.proto`, the response
that `main` writes holds exactly one file entry, named `svc/svc.graphql` (the
merged name `svc.graphql` in the directory `svc/` of the first source file)
with the formatted schema as its content; the `Error` field is unset and
`SupportedFeatures` is the `PROTO3_OPTIONAL` bit. -/
theorem main_merge_scenario {Plugin Descs Schema : Type} (rt : PluginRuntime)
    (env : PluginEnv Plugin Descs Schema) (inp out : List Nat) (req : CodeGeneratorRequest)
    (p : Plugin) (descs : Descs) (g : SchemaDescriptor Schema) (wd : GoString)
    (hread : rt.ReadAll = .ok inp) (hreq : rt.Unmarshal inp = .ok req)
    (hparam : req.GetParameter = "merge=true".toList)
    (hp : env.protogenNew req = .ok p) (hd : env.CreateDescriptorsFromProto req = .ok descs)
    (hs : env.NewSchemas descs true false p ⟨none, none, none⟩ = .ok [g])
    (hfiles : g.FileDescriptors.map (fun fd => fd.GetName)
      = ["svc/a.proto".toList, "svc/b.proto".toList])
    (hgetwd : env.getwd = some wd) (hwd : wd.head? = some '/')
    (hmar : rt.Marshal ⟨none, some FEATURE_PROTO3_OPTIONAL,
      [⟨"svc/svc.graphql".toList, env.FormatSchema g.AsGraphql⟩]⟩ = .ok out)
    (hwrite : rt.Write out = .ok ()) :
    protocGenGql.main rt env
      = .returned (⟨none, some FEATURE_PROTO3_OPTIONAL,
          [⟨"svc/svc.graphql".toList, env.FormatSchema g.AsGraphql⟩]⟩, out) := by
  have hdec : decodeParameter req.GetParameter
      = .ok ⟨false, true, false, "graphql".toList, ⟨none, none, none⟩⟩ := by
    rw [hparam]; rfl
  obtain ⟨fd, fd2, hfds, hname⟩ : ∃ fd fd2, g.FileDescriptors = [fd, fd2]
      ∧ fd.GetName = "svc/a.proto".toList := by
    cases hg : g.FileDescriptors with
    | nil => rw [hg] at hfiles; simp at hfiles
    | cons a l =>
      cases l with
      | nil => rw [hg] at hfiles; simp at hfiles
      | cons b l2 =>
        cases l2 with
        | nil =>
          rw [hg] at hfiles
          simp only [List.map_cons, List.map_nil, List.cons.injEq, and_true] at hfiles
          exact ⟨a, b, rfl, hfiles.1⟩
        | cons c l3 => rw [hg] at hfiles; simp at hfiles
  have hres : resolveGraphqlFilename (some wd) "svc/a.proto".toList true "graphql".toList
      = "svc/svc.graphql".toList :=
    resolveGraphqlFilename_merge_two wd "svc".toList "a.proto".toList "graphql".toList hwd
      (by decide) (by decide) (by decide)
  have hgen : (generate env req).2
      = .returned ([⟨"svc/svc.graphql".toList, env.FormatSchema g.AsGraphql⟩], none) := by
    unfold generate
    simp only [hdec, hp, hd, hs]
    simp only [generate.emit, hfds, List.head?_cons, Option.map_some', hname, hgetwd, hres,
      List.nil_append]
  have := main_response_of_generate rt env inp out req
    [⟨"svc/svc.graphql".toList, env.FormatSchema g.AsGraphql⟩] none hread hreq hgen hmar hwrite
  simpa using this

/-- C14 as amended, in the working directory `/work`: the response has the one
entry `svc/svc.graphql`, no error and the feature bit 1. -/
theorem main_merge_scenario_witness :
    protocGenGql.main (fixedRuntime (requestWith "merge=true"))
        (fixedPluginEnv [⟨[namedFile "svc/a.proto", namedFile "svc/b.proto"], "SDL".toList⟩]
          (some "/work".toList))
      = .returned (⟨none, some 1, [⟨"svc/svc.graphql".toList, "SDL".toList⟩]⟩, []) :=
  main_merge_scenario (fixedRuntime (requestWith "merge=true"))
    (fixedPluginEnv [⟨[namedFile "svc/a.proto", namedFile "svc/b.proto"], "SDL".toList⟩]
      (some "/work".toList)) [] [] (requestWith "merge=true") () ()
    ⟨[namedFile "svc/a.proto", namedFile "svc/b.proto"], "SDL".toList⟩ "/work".toList
    rfl rfl rfl rfl rfl rfl rfl rfl rfl rfl rfl

/-- C14 as stated fails: in the scenario, run in the working directory `/work`,
the one file entry of the response is named `svc/svc.graphql`, which is not
`svc.graphql`. -/
theorem main_merge_scenario_name :
    protocGenGql.main (fixedRuntime (requestWith "merge=true"))
        (fixedPluginEnv [⟨[namedFile "svc/a.proto", namedFile "svc/b.proto"], "SDL".toList⟩]
          (some "/work".toList))
      = .returned (⟨none, some 1, [⟨"svc/svc.graphql".toList, "SDL".toList⟩]⟩, [])
    ∧ "svc/svc.graphql".toList ≠ "svc.graphql".toList := by
  decide

/-! ### What the output loop writes, schema by schema -/

/-- The round of the output loop for a schema with more than one source file:
`generateFile` is called with `merge = true`, and the loop is left. -/
theorem mainLoop_head_multi {FS Schema : Type} (env : CliEnv FS Schema) (merge : Bool)
    (config : Config) (extension : GoString)
    (hout : config.Output = none ∨ config.Output = some [])
    (g : SchemaDescriptor Schema) (rest : List (SchemaDescriptor Schema)) (fs : FS)
    (fd fd2 : FileDescriptorProto) (tl : List FileDescriptorProto)
    (hfd : g.FileDescriptors = fd :: fd2 :: tl) :
    mainLoop env merge config extension (g :: rest) fs
      = match env.osCreate fs (resolveGraphqlFilename env.getwd fd.GetName true extension) with
        | .error err =>
          ([.generateFile g true,
            .osCreate (resolveGraphqlFilename env.getwd fd.GetName true extension)],
            fs, .fatal err)
        | .ok fs1 =>
          ([.generateFile g true,
            .osCreate (resolveGraphqlFilename env.getwd fd.GetName true extension),
            .FormatSchema (resolveGraphqlFilename env.getwd fd.GetName true extension)
              g.AsGraphql],
            env.FormatSchema fs1 (resolveGraphqlFilename env.getwd fd.GetName true extension)
              g.AsGraphql,
            .returned ()) := by
  have hgen := generateFile_no_override env fs g true config extension fd (fd2 :: tl) hfd hout
  cases hc : env.osCreate fs (resolveGraphqlFilename env.getwd fd.GetName true extension) with
  | error err =>
    rw [hc] at hgen
    simp [mainLoop, hfd, hgen]
  | ok fs1 =>
    rw [hc] at hgen
    simp [mainLoop, hfd, hgen]

/-- The round of the output loop for a schema with exactly one source file:
`generateFile` is called with the configured flag, and the loop goes on with the
next schema when the file could be created. -/
theorem mainLoop_head_single {FS Schema : Type} (env : CliEnv FS Schema) (merge : Bool)
    (config : Config) (extension : GoString)
    (hout : config.Output = none ∨ config.Output = some [])
    (g : SchemaDescriptor Schema) (rest : List (SchemaDescriptor Schema)) (fs : FS)
    (fd : FileDescriptorProto) (hfd : g.FileDescriptors = [fd]) :
    mainLoop env merge config extension (g :: rest) fs
      = match env.osCreate fs (resolveGraphqlFilename env.getwd fd.GetName merge extension) with
        | .error err =>
          ([.generateFile g merge,
            .osCreate (resolveGraphqlFilename env.getwd fd.GetName merge extension)],
            fs, .fatal err)
        | .ok fs1 =>
          (.generateFile g merge
            :: .osCreate (resolveGraphqlFilename env.getwd fd.GetName merge extension)
            :: .FormatSchema (resolveGraphqlFilename env.getwd fd.GetName merge extension)
              g.AsGraphql
            :: (mainLoop env merge config extension rest
                (env.FormatSchema fs1
                  (resolveGraphqlFilename env.getwd fd.GetName merge extension) g.AsGraphql)).1,
            (mainLoop env merge config extension rest
                (env.FormatSchema fs1
                  (resolveGraphqlFilename env.getwd fd.GetName merge extension) g.AsGraphql)).2)
  := by
  have hgen := generateFile_no_override env fs g merge config extension fd [] hfd hout
  cases hc : env.osCreate fs (resolveGraphqlFilename env.getwd fd.GetName merge extension) with
  | error err =>
    rw [hc] at hgen
    simp [mainLoop, hfd, hgen]
  | ok fs1 =>
    rw [hc] at hgen
    simp [mainLoop, hfd, hgen]

/-- When the output loop gets through schemas with one source file each, it goes
on with the schemas after them, on the file system it has reached. -/
theorem mainLoop_through_singles {FS Schema : Type} (env : CliEnv FS Schema) (merge : Bool)
    (config : Config) (extension : GoString)
    (hout : config.Output = none ∨ config.Output = some [])
    (pre tail : List (SchemaDescriptor Schema)) (fs : FS)
    (hpre : ∀ p ∈ pre, p.FileDescriptors.length = 1)
    (hthrough : (mainLoop env merge config extension pre fs).2.2 = .returned ()) :
    mainLoop env merge config extension (pre ++ tail) fs
      = ((mainLoop env merge config extension pre fs).1
          ++ (mainLoop env merge config extension tail
              (mainLoop env merge config extension pre fs).2.1).1,
         (mainLoop env merge config extension tail
              (mainLoop env merge config extension pre fs).2.1).2) := by
  induction pre generalizing fs with
  | nil => simp [mainLoop]
  | cons p pre ih =>
    obtain ⟨fd, hfd⟩ : ∃ fd, p.FileDescriptors = [fd] :=
      List.length_eq_one.mp (hpre p (by simp))
    have hpre2 : ∀ q ∈ pre, q.FileDescriptors.length = 1 := fun q hq => hpre q (by simp [hq])
    have h1 := mainLoop_head_single env merge config extension hout p pre fs fd hfd
    have h2 := mainLoop_head_single env merge config extension hout p (pre ++ tail) fs fd hfd
    cases hc : env.osCreate fs (resolveGraphqlFilename env.getwd fd.GetName merge extension) with
    | error err =>
      rw [hc] at h1
      rw [h1] at hthrough
      cases hthrough
    | ok fs1 =>
      rw [hc] at h1 h2
      dsimp only at h1 h2
      rw [h1] at hthrough
      have ih2 := ih (env.FormatSchema fs1
        (resolveGraphqlFilename env.getwd fd.GetName merge extension) p.AsGraphql) hpre2 hthrough
      rw [List.cons_append, h2, h1, ih2]
      simp

theorem createdNames_append {Schema : Type} (a b : List (CliEvent Schema)) :
    createdNames (a ++ b) = createdNames a ++ createdNames b := by
  induction a with
  | nil => rfl
  | cons e a ih => cases e <;> simp [createdNames, ih]

theorem writtenSchemas_append {Schema : Type} (a b : List (CliEvent Schema)) :
    writtenSchemas (a ++ b) = writtenSchemas a ++ writtenSchemas b := by
  induction a with
  | nil => rfl
  | cons e a ih => cases e <;> simp [writtenSchemas, ih]

theorem generateFileCalls_append {Schema : Type} (a b : List (CliEvent Schema)) :
    generateFileCalls (a ++ b) = generateFileCalls a + generateFileCalls b := by
  induction a with
  | nil => simp [generateFileCalls]
  | cons e a ih =>
    have hcons : (e :: a) ++ b = e :: (a ++ b) := rfl
    rw [hcons]
    cases e
    · simp only [generateFileCalls, ih]; omega
    · simp only [generateFileCalls, ih]
    · simp only [generateFileCalls, ih]

theorem mainLoop_single_created {FS Schema : Type} (env : CliEnv FS Schema) (merge : Bool)
    (config : Config) (extension : GoString)
    (hout : config.Output = none ∨ config.Output = some [])
    (hcreate : ∀ fs1 name, ∃ fs2, env.osCreate fs1 name = .ok fs2)
    (gs : List (SchemaDescriptor Schema)) (hone : ∀ g ∈ gs, g.FileDescriptors.length = 1)
    (fs : FS) :
    createdNames (mainLoop env merge config extension gs fs).1
      = gs.map (fun g => resolveGraphqlFilename env.getwd
          ((g.FileDescriptors.head?.map (fun fd => fd.GetName)).getD []) merge extension) := by
  induction gs generalizing fs with
  | nil => simp [mainLoop, createdNames]
  | cons g gs ih =>
    obtain ⟨fd, hfd⟩ : ∃ fd, g.FileDescriptors = [fd] :=
      List.length_eq_one.mp (hone g (by simp))
    have h1 := mainLoop_head_single env merge config extension hout g gs fs fd hfd
    obtain ⟨fs2, hfs2⟩ := hcreate fs (resolveGraphqlFilename env.getwd fd.GetName merge extension)
    rw [hfs2] at h1
    rw [h1]
    simp [createdNames, hfd, ih (fun q hq => hone q (by simp [hq]))]

/-- After schemas with one source file each whose files could all be created,
the loop has created one file per schema with the configured flag, written each
schema into its file, and goes on. -/
theorem mainLoop_after_singles {FS Schema : Type} (env : CliEnv FS Schema) (merge : Bool)
    (config : Config) (extension : GoString)
    (hout : config.Output = none ∨ config.Output = some [])
    (hcreate : ∀ fs1 name, ∃ fs2, env.osCreate fs1 name = .ok fs2)
    (pre tail : List (SchemaDescriptor Schema)) (hpre : ∀ p ∈ pre, p.FileDescriptors.length = 1)
    (fs : FS) :
    ∃ fs1, mainLoop env merge config extension (pre ++ tail) fs
        = ((mainLoop env merge config extension pre fs).1
            ++ (mainLoop env merge config extension tail fs1).1,
           (mainLoop env merge config extension tail fs1).2)
      ∧ createdNames (mainLoop env merge config extension pre fs).1
        = pre.map (fun p => resolveGraphqlFilename env.getwd
            ((p.FileDescriptors.head?.map (fun fd => fd.GetName)).getD []) merge extension)
      ∧ writtenSchemas (mainLoop env merge config extension pre fs).1
        = pre.map (fun p => (resolveGraphqlFilename env.getwd
            ((p.FileDescriptors.head?.map (fun fd => fd.GetName)).getD []) merge extension,
            p.AsGraphql))
      ∧ generateFileCalls (mainLoop env merge config extension pre fs).1 = pre.length :=
  have hs := mainLoop_single env merge config extension hout hcreate pre hpre fs
  ⟨(mainLoop env merge config extension pre fs).2.1,
    mainLoop_through_singles env merge config extension hout pre tail fs hpre hs.2.2,
    mainLoop_single_created env merge config extension hout hcreate pre hpre fs,
    hs.1, hs.2.1⟩

/-- C5: merge forcing in the command-line front end.  Let the run be without an
output override.  (1) The round of the output loop for a schema with more than
one source file calls `generateFile` with `merge = true`, creates the file
`resolveGraphqlFilename(first source file name, true, extension)`, whatever the
`-merge` flag is, and writes the schema into that file; the loop is then left,
and a failed creation ends the run.  (2) The round for a schema with exactly one
source file calls `generateFile` with the configured flag, creates
`resolveGraphqlFilename(its source file name, merge, extension)`, writes the
schema into that file and goes on with the next schema on the file system so
reached; a failed creation ends the run.  (3) The loop comes to a schema exactly
as it comes to the head of the list, once the schemas before it, of one source
file each, have gone through.  (4) When every file can be created, a run over
schemas of one source file each followed by a schema with more than one creates,
in this order, the files of the former under the configured flag and the file of
the latter under `merge = true`, writes each schema into its file, calls
`generateFile` once for each, and returns; a run over schemas of one source file
each only does so for all of them.  (5) In every run the files created and the
schemas written are, in order, those of a leading part of the schemas. -/
theorem mainLoop_names_without_override {FS Schema : Type} (env : CliEnv FS Schema)
    (merge : Bool) (config : Config) (extension : GoString)
    (hout : config.Output = none ∨ config.Output = some []) :
    (∀ (g : SchemaDescriptor Schema) (rest : List (SchemaDescriptor Schema)) (fs : FS)
        (fd fd2 : FileDescriptorProto) (tl : List FileDescriptorProto),
        g.FileDescriptors = fd :: fd2 :: tl →
        mainLoop env merge config extension (g :: rest) fs
          = match env.osCreate fs
              (resolveGraphqlFilename env.getwd fd.GetName true extension) with
            | .error err =>
              ([.generateFile g true,
                .osCreate (resolveGraphqlFilename env.getwd fd.GetName true extension)],
                fs, .fatal err)
            | .ok fs1 =>
              ([.generateFile g true,
                .osCreate (resolveGraphqlFilename env.getwd fd.GetName true extension),
                .FormatSchema (resolveGraphqlFilename env.getwd fd.GetName true extension)
                  g.AsGraphql],
                env.FormatSchema fs1
                  (resolveGraphqlFilename env.getwd fd.GetName true extension) g.AsGraphql,
                .returned ()))
    ∧ (∀ (g : SchemaDescriptor Schema) (rest : List (SchemaDescriptor Schema)) (fs : FS)
        (fd : FileDescriptorProto),
        g.FileDescriptors = [fd] →
        mainLoop env merge config extension (g :: rest) fs
          = match env.osCreate fs
              (resolveGraphqlFilename env.getwd fd.GetName merge extension) with
            | .error err =>
              ([.generateFile g merge,
                .osCreate (resolveGraphqlFilename env.getwd fd.GetName merge extension)],
                fs, .fatal err)
            | .ok fs1 =>
              (.generateFile g merge
                :: .osCreate (resolveGraphqlFilename env.getwd fd.GetName merge extension)
                :: .FormatSchema (resolveGraphqlFilename env.getwd fd.GetName merge extension)
                  g.AsGraphql
                :: (mainLoop env merge config extension rest
                    (env.FormatSchema fs1
                      (resolveGraphqlFilename env.getwd fd.GetName merge extension)
                      g.AsGraphql)).1,
                (mainLoop env merge config extension rest
                    (env.FormatSchema fs1
                      (resolveGraphqlFilename env.getwd fd.GetName merge extension)
                      g.AsGraphql)).2))
    ∧ (∀ (pre tail : List (SchemaDescriptor Schema)) (fs : FS),
        (∀ p ∈ pre, p.FileDescriptors.length = 1) →
        (mainLoop env merge config extension pre fs).2.2 = .returned () →
        mainLoop env merge config extension (pre ++ tail) fs
          = ((mainLoop env merge config extension pre fs).1
              ++ (mainLoop env merge config extension tail
                  (mainLoop env merge config extension pre fs).2.1).1,
             (mainLoop env merge config extension tail
                  (mainLoop env merge config extension pre fs).2.1).2))
    ∧ (∀ (pre : List (SchemaDescriptor Schema)) (g : SchemaDescriptor Schema)
        (rest : List (SchemaDescriptor Schema)) (fs : FS)
        (fd fd2 : FileDescriptorProto) (tl : List FileDescriptorProto),
        (∀ p ∈ pre, p.FileDescriptors.length = 1) →
        (∀ fs1 name, ∃ fs2, env.osCreate fs1 name = .ok fs2) →
        g.FileDescriptors = fd :: fd2 :: tl →
        createdNames (mainLoop env merge config extension (pre ++ g :: rest) fs).1
            = pre.map (fun p => resolveGraphqlFilename env.getwd
                ((p.FileDescriptors.head?.map (fun fd => fd.GetName)).getD []) merge extension)
              ++ [resolveGraphqlFilename env.getwd fd.GetName true extension]
          ∧ writtenSchemas (mainLoop env merge config extension (pre ++ g :: rest) fs).1
            = pre.map (fun p => (resolveGraphqlFilename env.getwd
                ((p.FileDescriptors.head?.map (fun fd => fd.GetName)).getD []) merge extension,
                p.AsGraphql))
              ++ [(resolveGraphqlFilename env.getwd fd.GetName true extension, g.AsGraphql)]
          ∧ generateFileCalls (mainLoop env merge config extension (pre ++ g :: rest) fs).1
            = pre.length + 1
          ∧ (mainLoop env merge config extension (pre ++ g :: rest) fs).2.2 = .returned ())
    ∧ (∀ (gs : List (SchemaDescriptor Schema)) (fs : FS),
        (∀ p ∈ gs, p.FileDescriptors.length = 1) →
        (∀ fs1 name, ∃ fs2, env.osCreate fs1 name = .ok fs2) →
        createdNames (mainLoop env merge config extension gs fs).1
            = gs.map (fun p => resolveGraphqlFilename env.getwd
                ((p.FileDescriptors.head?.map (fun fd => fd.GetName)).getD []) merge extension)
          ∧ writtenSchemas (mainLoop env merge config extension gs fs).1
            = gs.map (fun p => (resolveGraphqlFilename env.getwd
                ((p.FileDescriptors.head?.map (fun fd => fd.GetName)).getD []) merge extension,
                p.AsGraphql))
          ∧ generateFileCalls (mainLoop env merge config extension gs fs).1 = gs.length
          ∧ (mainLoop env merge config extension gs fs).2.2 = .returned ())
    ∧ (∀ (groups : List (SchemaDescriptor Schema)) (fs : FS),
        createdNames (mainLoop env merge config extension groups fs).1
          <+: groups.map (fun g =>
            resolveGraphqlFilename env.getwd
              ((g.FileDescriptors.head?.map (fun fd => fd.GetName)).getD [])
              (if g.FileDescriptors.length > 1 then true else merge) extension)
        ∧ writtenSchemas (mainLoop env merge config extension groups fs).1
          <+: groups.map (fun g =>
            (resolveGraphqlFilename env.getwd
              ((g.FileDescriptors.head?.map (fun fd => fd.GetName)).getD [])
              (if g.FileDescriptors.length > 1 then true else merge) extension, g.AsGraphql))
        ∧ (∀ g rest, groups = g :: rest → 1 ≤ g.FileDescriptors.length →
            (createdNames (mainLoop env merge config extension groups fs).1).head?
              = some (resolveGraphqlFilename env.getwd
                  ((g.FileDescriptors.head?.map (fun fd => fd.GetName)).getD [])
                  (if g.FileDescriptors.length > 1 then true else merge) extension))) := by
  refine ⟨?_, ?_, ?_, ?_, ?_, ?_⟩
  · intro g rest fs fd fd2 tl hfd
    exact mainLoop_head_multi env merge config extension hout g rest fs fd fd2 tl hfd
  · intro g rest fs fd hfd
    exact mainLoop_head_single env merge config extension hout g rest fs fd hfd
  · intro pre tail fs hpre hthrough
    exact mainLoop_through_singles env merge config extension hout pre tail fs hpre hthrough
  · intro pre g rest fs fd fd2 tl hpre hcreate hfd
    obtain ⟨fs1, hrun, hc, hw, hn⟩ :=
      mainLoop_after_singles env merge config extension hout hcreate pre (g :: rest) hpre fs
    have hhead := mainLoop_head_multi env merge config extension hout g rest fs1 fd fd2 tl hfd
    obtain ⟨fs2, hfs2⟩ :=
      hcreate fs1 (resolveGraphqlFilename env.getwd fd.GetName true extension)
    rw [hfs2] at hhead
    dsimp only at hhead
    rw [hrun, hhead]
    refine ⟨?_, ?_, ?_, rfl⟩
    · rw [createdNames_append, hc]; rfl
    · rw [writtenSchemas_append, hw]; rfl
    · rw [generateFileCalls_append, hn]; rfl
  · intro gs fs hone hcreate
    have hs := mainLoop_single env merge config extension hout hcreate gs hone fs
    exact ⟨mainLoop_single_created env merge config extension hout hcreate gs hone fs,
      hs.1, hs.2.1, hs.2.2⟩
  · intro groups fs
    exact mainLoop_names_leading_part env merge config extension groups fs hout

/-- C5, on a concrete run in the working directory `/work` with `-merge=false`
and an empty `-output`: the schema from `x/c.proto` comes first and is written
to `x/c.graphql`; the schema from `svc/a.proto` and `svc/b.proto` after it is
written to `svc/svc.graphql`; `generateFile` is called twice and the run
returns. -/
theorem mainLoop_names_without_override_witness :
    ((⟨some false, some [], some []⟩ : Config).Output = none
        ∨ (⟨some false, some [], some []⟩ : Config).Output = some [])
    ∧ createdNames (mainLoop (fixedCliEnv (some "/work".toList)) false
        ⟨some false, some [], some []⟩ "graphql".toList
        ([⟨[namedFile "x/c.proto"], "S1".toList⟩]
          ++ ⟨[namedFile "svc/a.proto", namedFile "svc/b.proto"], "S2".toList⟩
            :: [⟨[namedFile "y/d.proto"], "S3".toList⟩]) []).1
      = ["x/c.graphql".toList, "svc/svc.graphql".toList]
    ∧ writtenSchemas (mainLoop (fixedCliEnv (some "/work".toList)) false
        ⟨some false, some [], some []⟩ "graphql".toList
        ([⟨[namedFile "x/c.proto"], "S1".toList⟩]
          ++ ⟨[namedFile "svc/a.proto", namedFile "svc/b.proto"], "S2".toList⟩
            :: [⟨[namedFile "y/d.proto"], "S3".toList⟩]) []).1
      = [("x/c.graphql".toList, "S1".toList), ("svc/svc.graphql".toList, "S2".toList)]
    ∧ generateFileCalls (mainLoop (fixedCliEnv (some "/work".toList)) false
        ⟨some false, some [], some []⟩ "graphql".toList
        ([⟨[namedFile "x/c.proto"], "S1".toList⟩]
          ++ ⟨[namedFile "svc/a.proto", namedFile "svc/b.proto"], "S2".toList⟩
            :: [⟨[namedFile "y/d.proto"], "S3".toList⟩]) []).1 = 2
    ∧ (mainLoop (fixedCliEnv (some "/work".toList)) false
        ⟨some false, some [], some []⟩ "graphql".toList
        ([⟨[namedFile "x/c.proto"], "S1".toList⟩]
          ++ ⟨[namedFile "svc/a.proto", namedFile "svc/b.proto"], "S2".toList⟩
            :: [⟨[namedFile "y/d.proto"], "S3".toList⟩]) []).2.2 = .returned () := by
  have h := (mainLoop_names_without_override (fixedCliEnv (some "/work".toList)) false
    ⟨some false, some [], some []⟩ "graphql".toList (Or.inr rfl)).2.2.2.1
    [⟨[namedFile "x/c.proto"], "S1".toList⟩]
    ⟨[namedFile "svc/a.proto", namedFile "svc/b.proto"], "S2".toList⟩
    [⟨[namedFile "y/d.proto"], "S3".toList⟩] []
    (namedFile "svc/a.proto") (namedFile "svc/b.proto") []
    (by decide) (fun fs1 _ => ⟨fs1, rfl⟩) rfl
  have e1 : resolveGraphqlFilename (some "/work".toList) "x/c.proto".toList false
      "graphql".toList = "x/c.graphql".toList := by decide
  have e2 : resolveGraphqlFilename (some "/work".toList) "svc/a.proto".toList true
      "graphql".toList = "svc/svc.graphql".toList := by decide
  refine ⟨Or.inr rfl, ?_, ?_, h.2.2.1, h.2.2.2⟩
  · rw [h.1]
    simp only [List.map, List.head?, Option.map, Option.getD, namedFile,
      FileDescriptorProto.GetName, fixedCliEnv]
    simp only [List.cons_append, List.nil_append]
    rw [← e1, ← e2]
  · rw [h.2.1]
    simp only [List.map, List.head?, Option.map, Option.getD, namedFile,
      FileDescriptorProto.GetName, fixedCliEnv]
    simp only [List.cons_append, List.nil_append]
    rw [← e1, ← e2]

/-! ### Merged naming cleans the directory part -/

theorem slashBefore_slash (comps : List GoString) :
    slashBefore comps ++ ['/'] = '/' :: slashAfter comps := by
  induction comps with
  | nil => rfl
  | cons s comps ih =>
    have h1 : slashBefore (s :: comps) = '/' :: (s ++ slashBefore comps) := slashBefore_head s comps
    have h2 : slashAfter (s :: comps) = s ++ '/' :: slashAfter comps := by simp [slashAfter]
    rw [h1, h2, List.cons_append, List.append_assoc, ih]

theorem slashBefore_length (s : GoString) (comps : List GoString) (hs : s ≠ []) :
    2 ≤ (slashBefore (s :: comps)).length := by
  rw [slashBefore_head]
  cases s with
  | nil => exact absurd rfl hs
  | cons c s => simp only [List.length_cons, List.cons_append]; omega

/-- The buffer that holds a clean path, with the slash put before the next
element: the elements of the path, each followed by a slash, behind the root if
the path is rooted. -/
theorem withSlash_cleanForm (rooted : Bool) (comps : List GoString)
    (h : ∀ s ∈ comps, s ≠ []) :
    withSlash rooted (cleanForm rooted comps)
      = (if rooted then ['/'] else []) ++ slashAfter comps := by
  cases comps with
  | nil => cases rooted <;> rfl
  | cons s comps =>
    have hs : s ≠ [] := h s (by simp)
    have hlen := slashBefore_length s comps hs
    cases rooted with
    | true =>
      have hl1 : (slashBefore (s :: comps)).length ≠ 1 := by omega
      simp only [withSlash, cleanForm, if_true, if_neg (List.cons_ne_nil s comps), hl1, ne_eq,
        not_false_eq_true, and_self, true_or]
      rw [slashBefore_slash]
      rfl
    | false =>
      have hl0 : (slashBefore (s :: comps)).tail.length ≠ 0 := by
        rw [List.length_tail]; omega
      have htail : (slashBefore (s :: comps)).tail ++ ['/'] = slashAfter (s :: comps) := by
        have := slashBefore_slash (s :: comps)
        rw [slashBefore_head] at this ⊢
        simpa using this
      simp only [withSlash, cleanForm, Bool.false_eq_true, if_false, hl0, ne_eq,
        not_false_eq_true, and_self, or_true, if_true, htail, List.nil_append]

theorem cleanForm_concat_comps (rooted : Bool) (comps : List GoString) (e : GoString)
    (h : ∀ s ∈ comps, s ≠ []) :
    withSlash rooted (cleanForm rooted comps) ++ e = cleanForm rooted (comps ++ [e]) := by
  rw [withSlash_cleanForm rooted comps h]
  have hne : comps ++ [e] ≠ [] := by simp
  cases rooted with
  | true =>
    simp only [cleanForm, if_true, if_neg hne]
    rw [slashBefore_concat]
    rfl
  | false =>
    simp only [cleanForm, Bool.false_eq_true, if_false, List.nil_append]
    rw [slashBefore_concat]
    rfl

theorem cleanForm_length (comps : List GoString) :
    (cleanForm false comps).length = (slashBefore comps).length - 1 := by
  simp [cleanForm]

theorem dots_ne_nil (k : Nat) (segs : List GoString) (hsegs : ∀ s ∈ segs, IsElement s) :
    ∀ s ∈ List.replicate k ['.', '.'] ++ segs, s ≠ [] := by
  intro s hs
  rcases List.mem_append.mp hs with h | h
  · rw [List.eq_of_mem_replicate h]; simp
  · exact (hsegs s h).1

theorem slashAfter_dots (k : Nat) : slashAfter (List.replicate k ['.', '.']) = dotsDir k := by
  induction k with
  | zero => rfl
  | succ k ih =>
    have h1 : slashAfter (List.replicate (k + 1) ['.', '.'])
        = ['.', '.', '/'] ++ slashAfter (List.replicate k ['.', '.']) := by
      simp [slashAfter, List.replicate_succ]
    have h2 : dotsDir (k + 1) = ['.', '.', '/'] ++ dotsDir k := by
      simp [dotsDir, List.replicate_succ]
    rw [h1, h2, ih]

theorem backtrack_zero (b : GoString) (hb : '/' ∉ b) (w : Nat) :
    path.Clean.backtrack 0 b w = 0 := by
  induction w with
  | zero => rfl
  | succ w ih =>
    have hget : b.get? (w + 1) ≠ some '/' := fun h => hb (List.get?_mem h)
    rw [path.Clean.backtrack, if_pos ⟨by omega, hget⟩]
    exact ih

/-- Backtracking over the last element of the clean path in the buffer leaves
the clean path of the elements before it. -/
theorem cleanForm_backtrack (rooted : Bool) (comps : List GoString) (last : GoString)
    (dotdot : Nat) (h : ∀ s ∈ comps, s ≠ []) (hlast : last ≠ []) (hslash : '/' ∉ last)
    (hdd : dotdot ≤ (cleanForm rooted comps).length) (hr : rooted = true → dotdot = 1) :
    (cleanForm rooted (comps ++ [last])).take
        (path.Clean.backtrack dotdot (cleanForm rooted (comps ++ [last]))
          ((cleanForm rooted (comps ++ [last])).length - 1))
      = cleanForm rooted comps := by
  obtain ⟨n, hn⟩ : ∃ n, last.length = n + 1 := by
    cases last with
    | nil => exact absurd rfl hlast
    | cons c l => exact ⟨l.length, rfl⟩
  rw [← cleanForm_concat_comps rooted comps last h]
  cases comps with
  | nil =>
    cases rooted with
    | true =>
      have hd : dotdot = 1 := hr rfl
      subst hd
      have hout : withSlash true (cleanForm true []) ++ last = '/' :: last := rfl
      rw [hout]
      have hw : ('/' :: last).length - 1 = n + 1 := by simp [hn]
      rw [hw, backtrack_root last hslash n]
      rfl
    | false =>
      have hd : dotdot = 0 := by
        have : (cleanForm false []).length = 0 := rfl
        omega
      subst hd
      have hout : withSlash false (cleanForm false []) ++ last = last := rfl
      rw [hout, backtrack_zero last hslash]
      rfl
  | cons s comps =>
    have hs : s ≠ [] := h s (by simp)
    have hlen := slashBefore_length s comps hs
    have hout : withSlash rooted (cleanForm rooted (s :: comps)) ++ last
        = cleanForm rooted (s :: comps) ++ '/' :: last := by
      cases rooted with
      | true =>
        have hl1 : (slashBefore (s :: comps)).length ≠ 1 := by omega
        simp [withSlash, cleanForm, hl1]
      | false =>
        have hl0 : (slashBefore (s :: comps)).tail.length ≠ 0 := by
          rw [List.length_tail]; omega
        simp only [withSlash, cleanForm, Bool.false_eq_true, if_false, hl0, ne_eq,
          not_false_eq_true, and_self, or_true, if_true, List.append_assoc]
        rfl
    rw [hout]
    have hw : (cleanForm rooted (s :: comps) ++ '/' :: last).length - 1
        = (cleanForm rooted (s :: comps)).length + last.length := by
      simp only [List.length_append, List.length_cons]; omega
    rw [hw, backtrack_to_slash dotdot _ last hslash hdd last.length (le_refl _), List.take_left]

theorem cleanForm_true_length (comps : List GoString) : 1 ≤ (cleanForm true comps).length := by
  cases comps with
  | nil => simp [cleanForm]
  | cons s comps => simp [cleanForm, slashBefore]

theorem cleanForm_false_append_length (a b : List GoString) :
    (cleanForm false a).length ≤ (cleanForm false (a ++ b)).length := by
  rw [cleanForm_length, cleanForm_length, slashBefore_append, List.length_append]
  omega

theorem cleanForm_false_concat_length (a : List GoString) (last : GoString) (hlast : last ≠ []) :
    (cleanForm false a).length < (cleanForm false (a ++ [last])).length := by
  rw [cleanForm_length, cleanForm_length, slashBefore_append, List.length_append]
  have := slashBefore_length last [] hlast
  omega

theorem withSlash_false (out : GoString) :
    (if out.length > 0 then out ++ ['/'] else out) = withSlash false out := by
  cases out <;> simp [withSlash]

theorem replicate_concat (k : Nat) (a : GoString) :
    List.replicate k a ++ [a] = List.replicate (k + 1) a := by
  rw [List.replicate_succ']

/-- The round of the loop for an element `..` that can be backtracked over: the
last real path element is removed from the clean path in the buffer. -/
theorem Clean_step_dotdot_back (rooted : Bool) (c : Char) (t : GoString) (k : Nat)
    (init : List GoString) (last : GoString) (dotdot : Nat)
    (hk : rooted = true → k = 0) (hinit : ∀ s ∈ init, IsElement s) (hlast : IsElement last)
    (hdd : dotdot = if rooted then 1 else (cleanForm false (List.replicate k ['.', '.'])).length)
    (h1 : c ≠ '/') (h2 : ¬ (c = '.' ∧ (t = [] ∨ t.head? = some '/')))
    (h3 : c = '.' ∧ t.head? = some '.' ∧ (t.tail = [] ∨ t.tail.head? = some '/')) :
    path.Clean.step rooted c t
        (cleanForm rooted (List.replicate k ['.', '.'] ++ (init ++ [last]))) dotdot
      = (t.tail, cleanForm rooted (List.replicate k ['.', '.'] ++ init), dotdot) := by
  have hcomps := dots_ne_nil k init hinit
  have hassoc : List.replicate k ['.', '.'] ++ (init ++ [last])
      = (List.replicate k ['.', '.'] ++ init) ++ [last] := by simp
  rw [hassoc]
  have hle : dotdot ≤ (cleanForm rooted (List.replicate k ['.', '.'] ++ init)).length := by
    cases rooted with
    | true => simp only [if_true] at hdd; rw [hdd]; exact cleanForm_true_length _
    | false =>
      simp only [Bool.false_eq_true, if_false] at hdd
      rw [hdd]; exact cleanForm_false_append_length _ _
  have hgt : (cleanForm rooted ((List.replicate k ['.', '.'] ++ init) ++ [last])).length
      > dotdot := by
    cases rooted with
    | true =>
      simp only [if_true] at hdd
      rw [hdd]
      have hne : (List.replicate k ['.', '.'] ++ init) ++ [last] ≠ [] := by simp
      simp only [cleanForm, if_true, if_neg hne]
      rw [slashBefore_append, List.length_append]
      have := slashBefore_length last [] hlast.1
      omega
    | false =>
      have := cleanForm_false_concat_length (List.replicate k ['.', '.'] ++ init) last hlast.1
      omega
  have hr : rooted = true → dotdot = 1 := by
    intro h; rw [hdd, h]; rfl
  have hb := cleanForm_backtrack rooted (List.replicate k ['.', '.'] ++ init) last dotdot hcomps
    hlast.1 hlast.2.1 hle hr
  simp only [path.Clean.step, if_neg h1, if_neg h2, if_pos h3, if_pos hgt, hb]

/-- Every round of the loop keeps the buffer a clean path and `dotdot` behind
its elements `..`. -/
theorem Clean_step_state (rooted : Bool) (c : Char) (t out : GoString) (dotdot : Nat)
    (h : IsCleanState rooted out dotdot) :
    IsCleanState rooted (path.Clean.step rooted c t out dotdot).2.1
      (path.Clean.step rooted c t out dotdot).2.2 := by
  obtain ⟨k, segs, hk, hsegs, hout, hdd⟩ := h
  by_cases h1 : c = '/'
  · simp only [path.Clean.step, h1, if_true]
    exact ⟨k, segs, hk, hsegs, hout, hdd⟩
  by_cases h2 : c = '.' ∧ (t = [] ∨ t.head? = some '/')
  · simp only [path.Clean.step, if_neg h1, if_pos h2]
    exact ⟨k, segs, hk, hsegs, hout, hdd⟩
  by_cases h3 : c = '.' ∧ t.head? = some '.' ∧ (t.tail = [] ∨ t.tail.head? = some '/')
  · rcases List.eq_nil_or_concat segs with h0 | ⟨init, last, hc⟩
    · subst h0
      rw [List.append_nil] at hout
      cases rooted with
      | true =>
        have hk0 : k = 0 := hk rfl
        subst hk0
        simp only [if_true] at hdd
        have ho : out = ['/'] := by rw [hout]; rfl
        subst ho; subst hdd
        have h5 : ¬ (true = false) := by decide
        have h4 : ¬ (['/'].length > 1) := by simp
        simp only [path.Clean.step, if_neg h1, if_neg h2, if_pos h3, if_neg h4, if_neg h5]
        exact ⟨0, [], fun _ => rfl, by simp, rfl, rfl⟩
      | false =>
        simp only [Bool.false_eq_true, if_false] at hdd
        have h4 : ¬ (out.length > dotdot) := by rw [hdd, hout]; omega
        simp only [path.Clean.step, if_neg h1, if_neg h2, if_pos h3, if_neg h4, if_true]
        have hdots : ∀ s ∈ List.replicate k ['.', '.'], s ≠ [] := by
          intro s hs
          rw [List.eq_of_mem_replicate hs]; simp
        rw [withSlash_false, hout,
          cleanForm_concat_comps false (List.replicate k ['.', '.']) ['.', '.'] hdots,
          replicate_concat]
        exact ⟨k + 1, [], fun h => absurd h (by decide), by simp, by simp, by simp⟩
    · rw [List.concat_eq_append] at hc
      subst hc
      have hlast : IsElement last := hsegs last (by simp)
      have hinit : ∀ s ∈ init, IsElement s := fun s hs => hsegs s (by simp [hs])
      rw [hout, Clean_step_dotdot_back rooted c t k init last dotdot hk hinit hlast hdd h1 h2 h3]
      exact ⟨k, init, hk, hinit, rfl, hdd⟩
  · rw [Clean_step_element rooted c t out dotdot h1 h2 h3]
    have he := takeWhile_IsElement c t h1 h2 h3
    refine ⟨k, segs ++ [(c :: t).takeWhile (fun x => x ≠ '/')], hk, ?_, ?_, hdd⟩
    · intro s hs
      rcases List.mem_append.mp hs with h | h
      · exact hsegs s h
      · simp only [List.mem_singleton] at h; rw [h]; exact he
    · have := cleanForm_concat_comps rooted (List.replicate k ['.', '.'] ++ segs)
        ((c :: t).takeWhile (fun x => x ≠ '/')) (dots_ne_nil k segs hsegs)
      rw [List.append_assoc] at this
      rw [← this, hout]
      rfl

theorem takeWhile_append_slash (x g : GoString) :
    (x ++ '/' :: g).takeWhile (fun c => c ≠ '/') = x.takeWhile (fun c => c ≠ '/') := by
  induction x with
  | nil => simp
  | cons c x ih =>
    by_cases hc : c = '/'
    · subst hc; simp
    · have hd : decide (c ≠ '/') = true := by simpa using hc
      have hcons : (c :: x) ++ '/' :: g = c :: (x ++ '/' :: g) := rfl
      rw [hcons]
      simp only [List.takeWhile, hd]
      rw [ih]

/-- A round of the loop entered inside a stretch of input that ends before a
slash does not look beyond that slash: what it leaves in the buffer and of the
stretch is the same whatever follows the slash. -/
theorem Clean_step_through (rooted : Bool) (c : Char) (x1 out : GoString) (dotdot : Nat) :
    ∃ x2 : GoString, x2.length ≤ x1.length
      ∧ ∀ R : GoString, path.Clean.step rooted c (x1 ++ '/' :: R) out dotdot
          = (x2 ++ '/' :: R, (path.Clean.step rooted c (x1 ++ ['/']) out dotdot).2) := by
  by_cases h1 : c = '/'
  · refine ⟨x1, le_refl _, fun R => ?_⟩
    simp [path.Clean.step, h1]
  have hd : decide (c ≠ '/') = true := by simpa using h1
  cases x1 with
  | nil =>
    by_cases hc : c = '.'
    · refine ⟨[], le_refl _, fun R => ?_⟩
      simp [path.Clean.step, hc]
    · refine ⟨[], le_refl _, fun R => ?_⟩
      have h2 : ∀ t : GoString, ¬ (c = '.' ∧ (t = [] ∨ t.head? = some '/')) := fun t h => hc h.1
      have h3 : ∀ t : GoString,
          ¬ (c = '.' ∧ t.head? = some '.' ∧ (t.tail = [] ∨ t.tail.head? = some '/')) :=
        fun t h => hc h.1
      rw [Clean_step_element rooted c _ out dotdot h1 (h2 _) (h3 _),
        Clean_step_element rooted c _ out dotdot h1 (h2 _) (h3 _)]
      simp [List.takeWhile, List.dropWhile, hd]
  | cons c2 x3 =>
    by_cases h2 : c = '.' ∧ c2 = '/'
    · refine ⟨c2 :: x3, le_refl _, fun R => ?_⟩
      simp [path.Clean.step, h2.1, h2.2]
    by_cases h3 : c = '.' ∧ c2 = '.' ∧ (x3 = [] ∨ x3.head? = some '/')
    · refine ⟨x3, by simp, fun R => ?_⟩
      obtain ⟨hc, hc2, hx3⟩ := h3
      subst hc; subst hc2
      have ht : ∀ R : GoString, ((x3 ++ '/' :: R) = [] ∨ (x3 ++ '/' :: R).head? = some '/') := by
        intro R
        right
        rcases hx3 with h | h
        · subst h; rfl
        · cases x3 with
          | nil => rfl
          | cons y x4 => simpa using h
      have hstep : ∀ R : GoString, path.Clean.step rooted '.' ('.' :: x3 ++ '/' :: R) out dotdot
          = (x3 ++ '/' :: R,
              (if out.length > dotdot then
                (out.take (path.Clean.backtrack dotdot out (out.length - 1)), dotdot)
              else if rooted = false then
                ((if out.length > 0 then out ++ ['/'] else out) ++ ['.', '.'],
                  ((if out.length > 0 then out ++ ['/'] else out) ++ ['.', '.']).length)
              else (out, dotdot))) := by
        intro R
        have hne : ¬ ('.' = '/') := by decide
        have h2n : ¬ ('.' = '.' ∧ (('.' :: x3 ++ '/' :: R) = []
            ∨ ('.' :: x3 ++ '/' :: R).head? = some '/')) := by simp
        have h3p : '.' = '.' ∧ ('.' :: x3 ++ '/' :: R).head? = some '.'
            ∧ (('.' :: x3 ++ '/' :: R).tail = [] ∨ ('.' :: x3 ++ '/' :: R).tail.head? = some '/') :=
          ⟨rfl, rfl, ht R⟩
        unfold path.Clean.step
        rw [if_neg hne, if_neg h2n, if_pos h3p]
        split_ifs <;> rfl
      rw [hstep R]
      have h0 := hstep []
      have hnil : '.' :: x3 ++ '/' :: [] = '.' :: x3 ++ ['/'] := rfl
      rw [hnil] at h0
      rw [h0]
    · refine ⟨(c2 :: x3).dropWhile (fun y => y ≠ '/'), dropWhile_length_le _ _, fun R => ?_⟩
      have h2n : ∀ R : GoString, ¬ (c = '.' ∧ ((c2 :: x3 ++ '/' :: R) = []
          ∨ (c2 :: x3 ++ '/' :: R).head? = some '/')) := by
        intro R h
        rcases h with ⟨hc, h | h⟩
        · simp at h
        · simp at h; exact h2 ⟨hc, h⟩
      have h3n : ∀ R : GoString, ¬ (c = '.' ∧ (c2 :: x3 ++ '/' :: R).head? = some '.'
          ∧ ((c2 :: x3 ++ '/' :: R).tail = []
            ∨ (c2 :: x3 ++ '/' :: R).tail.head? = some '/')) := by
        intro R h
        obtain ⟨hc, hh, ht⟩ := h
        simp only [List.cons_append, List.head?_cons, Option.some.injEq, List.tail_cons] at hh ht
        refine h3 ⟨hc, hh, ?_⟩
        rcases ht with h | h
        · simp at h
        · cases x3 with
          | nil => left; rfl
          | cons y x4 => right; simpa using h
      rw [Clean_step_element rooted c _ out dotdot h1 (h2n R) (h3n R)]
      have h0 := Clean_step_element rooted c _ out dotdot h1 (h2n []) (h3n [])
      have hnil : c2 :: x3 ++ '/' :: [] = c2 :: x3 ++ ['/'] := rfl
      rw [hnil] at h0
      rw [h0]
      have hcons : ∀ R : GoString, c :: (c2 :: x3 ++ '/' :: R) = (c :: c2 :: x3) ++ '/' :: R :=
        fun R => rfl
      have hcons0 : c :: (c2 :: x3 ++ ['/']) = (c :: c2 :: x3) ++ '/' :: [] := rfl
      rw [hcons R, hcons0, takeWhile_append_slash, takeWhile_append_slash, dropWhile_append_slash]
      simp only [List.dropWhile, hd]

/-- Run on a stretch of input that ends with a slash, the loop arrives at what
follows the slash in a state that does not depend on what follows, and that
satisfies every invariant `P` of the rounds which held at the start. -/
theorem Clean_loop_through (rooted : Bool) (P : GoString → Nat → Prop)
    (hP : ∀ c t out dotdot, P out dotdot →
      P (path.Clean.step rooted c t out dotdot).2.1 (path.Clean.step rooted c t out dotdot).2.2)
    (n : Nat) :
    ∀ (x out : GoString) (dotdot : Nat), x.length ≤ n → P out dotdot →
      ∃ out2 dotdot2, P out2 dotdot2
        ∧ ∀ (R : GoString) (fuel : Nat), (x ++ '/' :: R).length ≤ fuel →
          path.Clean.loop rooted fuel (x ++ '/' :: R) out dotdot
            = path.Clean.loop rooted R.length R out2 dotdot2 := by
  induction n with
  | zero =>
    intro x out dotdot hx hPo
    have hx0 : x = [] := List.length_eq_zero.mp (Nat.le_zero.mp hx)
    subst hx0
    refine ⟨out, dotdot, hPo, fun R fuel hfuel => ?_⟩
    cases fuel with
    | zero => simp at hfuel
    | succ fuel =>
      have hstep : path.Clean.step rooted '/' R out dotdot = (R, out, dotdot) := by
        simp [path.Clean.step]
      simp only [List.nil_append, path.Clean.loop, hstep]
      exact Clean_loop_fuel rooted fuel R.length R out dotdot
        (by simp at hfuel; omega) (le_refl _)
  | succ n ih =>
    intro x out dotdot hx hPo
    cases x with
    | nil => exact ih [] out dotdot (by simp) hPo
    | cons c x1 =>
      obtain ⟨x2, hlen, hstep⟩ := Clean_step_through rooted c x1 out dotdot
      obtain ⟨out2, dotdot2, hP2, hrun⟩ := ih x2
        (path.Clean.step rooted c (x1 ++ ['/']) out dotdot).2.1
        (path.Clean.step rooted c (x1 ++ ['/']) out dotdot).2.2
        (by simp only [List.length_cons] at hx; omega) (hP c _ out dotdot hPo)
      refine ⟨out2, dotdot2, hP2, fun R fuel hfuel => ?_⟩
      cases fuel with
      | zero => simp at hfuel
      | succ fuel =>
        have hcons : (c :: x1) ++ '/' :: R = c :: (x1 ++ '/' :: R) := rfl
        rw [hcons]
        simp only [path.Clean.loop]
        rw [hstep R]
        exact hrun R fuel (by
          simp only [List.length_append, List.length_cons] at hfuel ⊢
          omega)

theorem IsCleanState_start (rooted : Bool) :
    IsCleanState rooted (if rooted then ['/'] else []) (if rooted then 1 else 0) := by
  refine ⟨0, [], fun _ => rfl, by simp, ?_, ?_⟩
  · cases rooted <;> rfl
  · cases rooted <;> rfl

/-- What `path.Clean` does with a path that begins with a directory part `dir`:
having read `dir`, the loop holds a clean path in the buffer, and the result is
what the loop makes of the rest of the path from there. -/
theorem Clean_after_dir (dir : GoString) (hne : dir ≠ []) (hlast : dir.getLast? = some '/') :
    ∃ (out : GoString) (dotdot : Nat),
      IsCleanState (decide (dir.head? = some '/')) out dotdot
      ∧ ∀ R : GoString, path.Clean (dir ++ R)
          = if (path.Clean.loop (decide (dir.head? = some '/')) R.length R out dotdot).length = 0
            then ['.']
            else path.Clean.loop (decide (dir.head? = some '/')) R.length R out dotdot := by
  obtain ⟨x, hx⟩ : ∃ x, dir = x ++ ['/'] := by
    rcases List.eq_nil_or_concat dir with h | ⟨x, c, h⟩
    · exact absurd h hne
    · rw [List.concat_eq_append] at h
      rw [h] at hlast
      simp at hlast
      exact ⟨x, by rw [h, hlast]⟩
  subst hx
  by_cases hr : (x ++ ['/']).head? = some '/'
  · have hroot : decide ((x ++ ['/']).head? = some '/') = true := by simpa using hr
    rw [hroot]
    cases x with
    | nil =>
      refine ⟨['/'], 1, IsCleanState_start true, fun R => ?_⟩
      unfold path.Clean
      have hp : ([] ++ ['/']) ++ R ≠ ([] : GoString) := by simp
      have hh : decide ((([] ++ ['/']) ++ R).head? = some '/') = true := by simp
      have ht : (([] ++ ['/']) ++ R).tail = R := by simp
      simp only [if_neg hp, hh, if_true, ht]
      have hfuel := Clean_loop_fuel true ((([] : GoString) ++ ['/']) ++ R).length R.length R
        ['/'] 1 (by simp) (le_refl _)
      rw [hfuel]
    | cons c x1 =>
      have hc : c = '/' := by simpa using hr
      subst hc
      obtain ⟨out, dotdot, hst, hrun⟩ := Clean_loop_through true (IsCleanState true)
        (fun c t out dotdot h => Clean_step_state true c t out dotdot h) x1.length x1 ['/'] 1
        (le_refl _) (IsCleanState_start true)
      refine ⟨out, dotdot, hst, fun R => ?_⟩
      unfold path.Clean
      have hp : ('/' :: x1 ++ ['/']) ++ R ≠ ([] : GoString) := by simp
      have hh : decide ((('/' :: x1 ++ ['/']) ++ R).head? = some '/') = true := by simp
      have ht : (('/' :: x1 ++ ['/']) ++ R).tail = x1 ++ '/' :: R := by simp
      simp only [if_neg hp, hh, if_true, ht]
      rw [hrun R _ (by simp)]
  · have hroot : decide ((x ++ ['/']).head? = some '/') = false := by simpa using hr
    rw [hroot]
    obtain ⟨out, dotdot, hst, hrun⟩ := Clean_loop_through false (IsCleanState false)
      (fun c t out dotdot h => Clean_step_state false c t out dotdot h) x.length x [] 0
      (le_refl _) (IsCleanState_start false)
    refine ⟨out, dotdot, hst, fun R => ?_⟩
    unfold path.Clean
    have hp : (x ++ ['/']) ++ R ≠ ([] : GoString) := by simp
    have hh : decide (((x ++ ['/']) ++ R).head? = some '/') = false := by
      cases x with
      | nil => simp at hr
      | cons c x1 => simpa using hr
    have ht : (x ++ ['/']) ++ R = x ++ '/' :: R := by simp
    simp only [if_neg hp, hh, Bool.false_eq_true, if_false]
    rw [ht, hrun R _ (le_refl _)]

theorem CleanReads_of_dir (dir : GoString) (hne : dir ≠ []) (hlast : dir.getLast? = some '/') :
    ∃ (k : Nat) (segs : List GoString), (decide (dir.head? = some '/') = true → k = 0)
      ∧ (∀ s ∈ segs, IsElement s)
      ∧ CleanReads dir (decide (dir.head? = some '/')) k segs := by
  obtain ⟨out, dotdot, ⟨k, segs, hk, hsegs, hout, hdd⟩, hrun⟩ := Clean_after_dir dir hne hlast
  subst hout; subst hdd
  exact ⟨k, segs, hk, hsegs, hrun⟩

theorem cleanedDirForm_eq (rooted : Bool) (k : Nat) (segs : List GoString)
    (hsegs : ∀ s ∈ segs, IsElement s) :
    withSlash rooted (cleanForm rooted (List.replicate k ['.', '.'] ++ segs))
      = cleanedDirForm rooted k segs := by
  rw [withSlash_cleanForm rooted _ (dots_ne_nil k segs hsegs), slashAfter_append, slashAfter_dots,
    cleanedDirForm, List.append_assoc]

theorem cleanedDirForm_last (rooted : Bool) (k : Nat) (segs : List GoString) :
    cleanedDirForm rooted k segs = []
      ∨ (cleanedDirForm rooted k segs).getLast? = some '/' := by
  unfold cleanedDirForm
  rcases List.eq_nil_or_concat segs with h | ⟨init, last, h⟩
  · subst h
    cases k with
    | zero => cases rooted <;> simp [dotsDir, slashAfter]
    | succ k =>
      right
      have : dotsDir (k + 1) = dotsDir k ++ ['.', '.', '/'] := by
        simp [dotsDir, List.replicate_succ']
      rw [this]
      simp [slashAfter, List.getLast?_append]
  · right
    rw [List.concat_eq_append] at h
    subst h
    have : slashAfter (init ++ [last]) = slashAfter init ++ last ++ ['/'] := by
      simp [slashAfter]
    rw [this]
    simp [List.getLast?_append]

/-- After a directory part, a real path element is copied to the result behind
the cleaned directory part. -/
theorem CleanReads_element (dir : GoString) (rooted : Bool) (k : Nat) (segs : List GoString)
    (hsegs : ∀ s ∈ segs, IsElement s) (h : CleanReads dir rooted k segs)
    (g : GoString) (hg : IsElement g) :
    path.Clean (dir ++ g) = cleanedDirForm rooted k segs ++ g := by
  rw [h g, Clean_loop_element rooted g hg g.length _ _ (le_refl _)]
  have hw := cleanedDirForm_eq rooted k segs hsegs
  unfold withSlash at hw
  rw [hw]
  have hne : (cleanedDirForm rooted k segs ++ g).length ≠ 0 := by
    cases g with
    | nil => exact absurd rfl hg.1
    | cons c t => simp
  rw [if_neg hne]

/-- After a directory part, a further slash changes nothing. -/
theorem CleanReads_slash (dir : GoString) (rooted : Bool) (k : Nat) (segs : List GoString)
    (h : CleanReads dir rooted k segs) (R : GoString) :
    path.Clean (dir ++ '/' :: R) = path.Clean (dir ++ R) := by
  rw [h ('/' :: R), h R]
  have hstep : ∀ out dotdot, path.Clean.step rooted '/' R out dotdot = (R, out, dotdot) := by
    intro out dotdot
    simp [path.Clean.step]
  simp only [List.length_cons, path.Clean.loop, hstep]

theorem CleanReads_cleanDir (dir : GoString) (rooted : Bool) (k : Nat) (segs : List GoString)
    (hsegs : ∀ s ∈ segs, IsElement s) (h : CleanReads dir rooted k segs) :
    cleanDir dir = cleanedDirForm rooted k segs := by
  unfold cleanDir
  rw [CleanReads_element dir rooted k segs hsegs h ['x'] (by decide),
    path_Split_append _ _ (by decide) (cleanedDirForm_last rooted k segs)]

theorem dots_ne_nil_only (k : Nat) : ∀ s ∈ List.replicate k ['.', '.'], s ≠ ([] : GoString) := by
  intro s hs
  rw [List.eq_of_mem_replicate hs]; simp

/-- The round of the loop for an element `..` that cannot be backtracked over in
a path that is not rooted: the element is added to the elements `..` at the
head of the buffer. -/
theorem Clean_step_dotdot_append (t : GoString) (k : Nat)
    (h3 : t.head? = some '.' ∧ (t.tail = [] ∨ t.tail.head? = some '/')) :
    path.Clean.step false '.' t (cleanForm false (List.replicate k ['.', '.']))
        (cleanForm false (List.replicate k ['.', '.'])).length
      = (t.tail, cleanForm false (List.replicate (k + 1) ['.', '.']),
          (cleanForm false (List.replicate (k + 1) ['.', '.'])).length) := by
  have h1 : ¬ ('.' = '/') := by decide
  have h2 : ¬ ('.' = '.' ∧ (t = [] ∨ t.head? = some '/')) := by
    rintro ⟨_, h | h⟩
    · rw [h] at h3; simp at h3
    · rw [h3.1] at h; simp at h
  have h3p : '.' = '.' ∧ t.head? = some '.' ∧ (t.tail = [] ∨ t.tail.head? = some '/') :=
    ⟨rfl, h3⟩
  have h4 : ¬ ((cleanForm false (List.replicate k ['.', '.'])).length
      > (cleanForm false (List.replicate k ['.', '.'])).length) := by omega
  have hform : (if (cleanForm false (List.replicate k ['.', '.'])).length > 0
        then cleanForm false (List.replicate k ['.', '.']) ++ ['/']
        else cleanForm false (List.replicate k ['.', '.'])) ++ ['.', '.']
      = cleanForm false (List.replicate (k + 1) ['.', '.']) := by
    rw [withSlash_false, cleanForm_concat_comps false _ ['.', '.'] (dots_ne_nil_only k),
      replicate_concat]
  unfold path.Clean.step
  rw [if_neg h1, if_neg h2, if_pos h3p, if_neg h4, if_pos rfl]
  simp only [hform]

/-- Run on `../` repeated, the loop of a path that is not rooted adds the
elements `..` to those at the head of the buffer. -/
theorem Clean_loop_dots (k : Nat) :
    ∀ (k0 : Nat) (rest : GoString) (fuel : Nat), (dotsDir k ++ rest).length ≤ fuel →
      path.Clean.loop false fuel (dotsDir k ++ rest) (cleanForm false (List.replicate k0 ['.', '.']))
          (cleanForm false (List.replicate k0 ['.', '.'])).length
        = path.Clean.loop false rest.length rest
            (cleanForm false (List.replicate (k0 + k) ['.', '.']))
            (cleanForm false (List.replicate (k0 + k) ['.', '.'])).length := by
  induction k with
  | zero =>
    intro k0 rest fuel hfuel
    have h0 : dotsDir 0 = [] := rfl
    rw [h0] at hfuel ⊢
    simp only [List.nil_append, Nat.add_zero] at hfuel ⊢
    exact Clean_loop_fuel false fuel rest.length rest _ _ hfuel (le_refl _)
  | succ k ih =>
    intro k0 rest fuel hfuel
    have hd : dotsDir (k + 1) ++ rest = '.' :: '.' :: '/' :: (dotsDir k ++ rest) := by
      simp [dotsDir, List.replicate_succ]
    rw [hd] at hfuel ⊢
    cases fuel with
    | zero => simp at hfuel
    | succ fuel =>
      cases fuel with
      | zero => simp at hfuel
      | succ fuel =>
        have hstep := Clean_step_dotdot_append ('.' :: '/' :: (dotsDir k ++ rest)) k0
          ⟨rfl, Or.inr rfl⟩
        have hslash : ∀ out dotdot, path.Clean.step false '/' (dotsDir k ++ rest) out dotdot
            = (dotsDir k ++ rest, out, dotdot) := by
          intro out dotdot
          simp [path.Clean.step]
        simp only [path.Clean.loop, hstep, List.tail_cons, hslash]
        have := ih (k0 + 1) rest fuel (by
          simp only [List.length_cons] at hfuel
          omega)
        rw [this]
        have hk : k0 + 1 + k = k0 + (k + 1) := by omega
        rw [hk]

/-- Run on real path elements that are each followed by a slash, the loop adds
them to the clean path in the buffer, whatever elements that path begins with. -/
theorem Clean_loop_segments_comps (rooted : Bool) (segs : List GoString)
    (hsegs : ∀ s ∈ segs, IsElement s) :
    ∀ (comps0 : List GoString), (∀ s ∈ comps0, s ≠ []) →
      ∀ (rest : GoString) (fuel dotdot : Nat), (slashAfter segs ++ rest).length ≤ fuel →
      path.Clean.loop rooted fuel (slashAfter segs ++ rest) (cleanForm rooted comps0) dotdot
        = path.Clean.loop rooted rest.length rest (cleanForm rooted (comps0 ++ segs)) dotdot := by
  induction segs with
  | nil =>
    intro comps0 _ rest fuel dotdot hfuel
    have h0 : slashAfter [] = ([] : GoString) := rfl
    rw [h0] at hfuel ⊢
    simp only [List.nil_append, List.append_nil] at hfuel ⊢
    exact Clean_loop_fuel rooted fuel rest.length rest _ dotdot hfuel (le_refl _)
  | cons s segs ih =>
    intro comps0 hcomps0 rest fuel dotdot hfuel
    have hs : IsElement s := hsegs s (by simp)
    have hss : ∀ x ∈ segs, IsElement x := fun x hx => hsegs x (List.mem_cons_of_mem _ hx)
    have hform : slashAfter (s :: segs) ++ rest = s ++ ('/' :: (slashAfter segs ++ rest)) := by
      simp [slashAfter]
    rw [hform] at hfuel ⊢
    cases s with
    | nil => exact absurd rfl hs.1
    | cons c s1 =>
      cases fuel with
      | zero => simp at hfuel
      | succ fuel =>
        cases fuel with
        | zero => simp at hfuel
        | succ fuel =>
          have hstep := Clean_step_element_ahead rooted c
            (s1 ++ ('/' :: (slashAfter segs ++ rest))) (c :: s1)
            ('/' :: (slashAfter segs ++ rest)) (cleanForm rooted comps0) dotdot hs
            (Or.inr rfl) rfl
          have hlen : (slashAfter segs ++ rest).length ≤ fuel := by
            simp only [List.cons_append, List.length_cons, List.length_append] at hfuel ⊢
            omega
          have hcomps1 : ∀ x ∈ comps0 ++ [c :: s1], x ≠ [] := by
            intro x hx
            rcases List.mem_append.mp hx with h | h
            · exact hcomps0 x h
            · simp at h; subst h; simp
          have hcons : (c :: s1) ++ ('/' :: (slashAfter segs ++ rest))
              = c :: (s1 ++ ('/' :: (slashAfter segs ++ rest))) := rfl
          rw [hcons]
          simp only [path.Clean.loop]
          rw [hstep]
          simp only []
          rw [cleanForm_concat_comps rooted comps0 (c :: s1) hcomps0]
          have hslash : path.Clean.step rooted '/' (slashAfter segs ++ rest)
              (cleanForm rooted (comps0 ++ [c :: s1])) dotdot
              = (slashAfter segs ++ rest, cleanForm rooted (comps0 ++ [c :: s1]), dotdot) := by
            simp [path.Clean.step]
          simp only [path.Clean.loop]
          rw [hslash]
          have := ih hss (comps0 ++ [c :: s1]) hcomps1 rest fuel dotdot hlen
          simpa using this

theorem cleanedDirForm_head (k : Nat) (segs : List GoString) (hsegs : ∀ s ∈ segs, IsElement s)
    (R : GoString) (hne : cleanedDirForm false k segs ≠ []) :
    (cleanedDirForm false k segs ++ R).head? ≠ some '/' := by
  unfold cleanedDirForm at hne ⊢
  cases k with
  | zero =>
    cases segs with
    | nil => exact absurd rfl hne
    | cons s segs =>
      have hs : IsElement s := hsegs s (by simp)
      cases s with
      | nil => exact absurd rfl hs.1
      | cons c s1 =>
        have hc : c ≠ '/' := fun h => hs.2.1 (by simp [h])
        simp [dotsDir, slashAfter, hc]
  | succ k => simp [dotsDir, List.replicate_succ]

/-- A directory part in cleaned form is read by `path.Clean` as it stands. -/
theorem CleanReads_cleanedDirForm (rooted : Bool) (k : Nat) (segs : List GoString)
    (hk : rooted = true → k = 0) (hsegs : ∀ s ∈ segs, IsElement s)
    (hne : cleanedDirForm rooted k segs ≠ []) :
    CleanReads (cleanedDirForm rooted k segs) rooted k segs := by
  intro R
  cases rooted with
  | true =>
    have hk0 : k = 0 := hk rfl
    subst hk0
    have hform : cleanedDirForm true 0 segs ++ R = '/' :: (slashAfter segs ++ R) := by
      simp [cleanedDirForm, dotsDir]
    have hloop := Clean_loop_segments_comps true segs hsegs [] (by simp) R
      ('/' :: (slashAfter segs ++ R)).length 1 (by simp)
    have hc0 : cleanForm true [] = ['/'] := rfl
    rw [hc0] at hloop
    rw [hform]
    unfold path.Clean
    simp only [List.cons_ne_nil, if_false, List.head?_cons, decide_True, if_true, List.tail_cons,
      hloop, List.replicate_zero, List.nil_append]
  | false =>
    have hhead := cleanedDirForm_head k segs hsegs R hne
    have hroot : decide ((cleanedDirForm false k segs ++ R).head? = some '/') = false := by
      simpa using hhead
    have hp : cleanedDirForm false k segs ++ R ≠ [] := by
      intro h
      exact hne (List.append_eq_nil.mp h).1
    have hform : cleanedDirForm false k segs ++ R = dotsDir k ++ (slashAfter segs ++ R) := by
      simp [cleanedDirForm]
    have hdots := Clean_loop_dots k 0 (slashAfter segs ++ R)
      (cleanedDirForm false k segs ++ R).length (by rw [hform])
    have hc0 : cleanForm false (List.replicate 0 ['.', '.']) = [] := rfl
    rw [hc0] at hdots
    simp only [List.length_nil, Nat.zero_add] at hdots
    have hsegl := Clean_loop_segments_comps false segs hsegs (List.replicate k ['.', '.'])
      (dots_ne_nil_only k) R (slashAfter segs ++ R).length
      (cleanForm false (List.replicate k ['.', '.'])).length (le_refl _)
    unfold path.Clean
    simp only [if_neg hp, hroot, Bool.false_eq_true, if_false]
    rw [hform] at hdots ⊢
    rw [hdots, hsegl]

theorem IsCleanedDir_nil : IsCleanedDir [] :=
  ⟨false, 0, [], fun h => absurd h (by decide), by simp, rfl⟩

theorem cleanDir_nil : cleanDir [] = [] := by decide

/-- A directory part in cleaned form is its own cleaned form. -/
theorem cleanDir_of_IsCleanedDir (dir : GoString) (h : IsCleanedDir dir) : cleanDir dir = dir := by
  obtain ⟨rooted, k, segs, hk, hsegs, hform⟩ := h
  by_cases hne : dir = []
  · rw [hne]; exact cleanDir_nil
  · subst hform
    exact CleanReads_cleanDir _ rooted k segs hsegs
      (CleanReads_cleanedDirForm rooted k segs hk hsegs hne)

/-- The cleaned form of a directory part is a directory part in cleaned form. -/
theorem IsCleanedDir_cleanDir (dir : GoString) (hdir : dir = [] ∨ dir.getLast? = some '/') :
    IsCleanedDir (cleanDir dir) := by
  by_cases hne : dir = []
  · rw [hne, cleanDir_nil]; exact IsCleanedDir_nil
  · have hlast : dir.getLast? = some '/' := hdir.resolve_left hne
    obtain ⟨k, segs, hk, hsegs, hreads⟩ := CleanReads_of_dir dir hne hlast
    rw [CleanReads_cleanDir dir _ k segs hsegs hreads]
    exact ⟨_, k, segs, hk, hsegs, rfl⟩

theorem cleanDir_eq_iff (dir : GoString) (hdir : dir = [] ∨ dir.getLast? = some '/') :
    cleanDir dir = dir ↔ IsCleanedDir dir := by
  constructor
  · intro h
    rw [← h]
    exact IsCleanedDir_cleanDir dir hdir
  · exact cleanDir_of_IsCleanedDir dir

/-- Behind a directory part, `path.Clean` leaves a real path element as it is
and puts the directory part in cleaned form before it. -/
theorem Clean_dir_element (dir g : GoString) (hdir : dir = [] ∨ dir.getLast? = some '/')
    (hg : IsElement g) : path.Clean (dir ++ g) = cleanDir dir ++ g := by
  by_cases hne : dir = []
  · rw [hne, cleanDir_nil]
    exact Clean_element g hg
  · have hlast : dir.getLast? = some '/' := hdir.resolve_left hne
    obtain ⟨k, segs, hk, hsegs, hreads⟩ := CleanReads_of_dir dir hne hlast
    rw [CleanReads_cleanDir dir _ k segs hsegs hreads]
    exact CleanReads_element dir _ k segs hsegs hreads g hg

theorem cleanDir_last (dir : GoString) (hdir : dir = [] ∨ dir.getLast? = some '/') :
    cleanDir dir = [] ∨ (cleanDir dir).getLast? = some '/' := by
  obtain ⟨rooted, k, segs, _, _, hform⟩ := IsCleanedDir_cleanDir dir hdir
  rw [hform]
  exact cleanedDirForm_last rooted k segs

/-- Behind a directory part that is not empty, a further slash changes nothing
in what `path.Clean` returns. -/
theorem Clean_dir_slash (dir R : GoString) (hne : dir ≠ []) (hlast : dir.getLast? = some '/') :
    path.Clean (dir ++ '/' :: R) = path.Clean (dir ++ R) := by
  obtain ⟨k, segs, _, _, hreads⟩ := CleanReads_of_dir dir hne hlast
  exact CleanReads_slash dir _ k segs hreads R

theorem dots_init (k : Nat) (segs init : List GoString) (last : GoString)
    (hsegs : ∀ s ∈ segs, IsElement s)
    (h : List.replicate k ['.', '.'] ++ segs = init ++ [last]) :
    ∃ (k2 : Nat) (segs2 : List GoString), init = List.replicate k2 ['.', '.'] ++ segs2
      ∧ (∀ s ∈ segs2, IsElement s) ∧ k2 ≤ k ∧ last ≠ [] ∧ '/' ∉ last := by
  rcases List.eq_nil_or_concat segs with h0 | ⟨si, sl, hc⟩
  · subst h0
    rw [List.append_nil] at h
    cases k with
    | zero => simp at h
    | succ k =>
      rw [List.replicate_succ'] at h
      obtain ⟨h1, h2⟩ := List.append_inj' h rfl
      simp only [List.cons.injEq, and_true] at h2
      refine ⟨k, [], by rw [← h1]; simp, by simp, by omega, ?_, ?_⟩
      · rw [← h2]; simp
      · rw [← h2]; decide
  · rw [List.concat_eq_append] at hc
    subst hc
    rw [← List.append_assoc] at h
    obtain ⟨h1, h2⟩ := List.append_inj' h rfl
    simp only [List.cons.injEq, and_true] at h2
    have hsl : IsElement sl := hsegs sl (by simp)
    refine ⟨k, si, h1.symm, fun s hs => hsegs s (by simp [hs]), le_refl _, ?_, ?_⟩
    · rw [← h2]; exact hsl.1
    · rw [← h2]; exact hsl.2.1

/-- The directory part of a clean path is a directory part in cleaned form, and
it is shorter than the path with a slash put behind it unless the path has no
element. -/
theorem Split_cleanForm (rooted : Bool) (k : Nat) (segs : List GoString)
    (hk : rooted = true → k = 0) (hsegs : ∀ s ∈ segs, IsElement s) (X : GoString)
    (hX : X = if (cleanForm rooted (List.replicate k ['.', '.'] ++ segs)).length = 0 then ['.']
      else cleanForm rooted (List.replicate k ['.', '.'] ++ segs)) :
    IsCleanedDir (path.Split X).1
      ∧ (path.Split X).1.length ≤ (cleanedDirForm rooted k segs).length
      ∧ (List.replicate k ['.', '.'] ++ segs ≠ [] →
          (path.Split X).1.length < (cleanedDirForm rooted k segs).length)
      ∧ (List.replicate k ['.', '.'] ++ segs = [] →
          (path.Split X).1 = if rooted then ['/'] else []) := by
  rcases List.eq_nil_or_concat (List.replicate k ['.', '.'] ++ segs) with h0 | ⟨init, last, hc⟩
  · rw [h0] at hX
    have hX2 : (path.Split X).1 = if rooted then ['/'] else [] := by
      cases rooted
      · rw [hX]; decide
      · rw [hX]; decide
    refine ⟨?_, ?_, fun h => absurd h0 h, fun _ => hX2⟩
    · rw [hX2]
      cases rooted
      · exact IsCleanedDir_nil
      · exact ⟨true, 0, [], fun _ => rfl, by simp, rfl⟩
    · rw [hX2]
      cases rooted <;> simp [cleanedDirForm]
  · rw [List.concat_eq_append] at hc
    obtain ⟨k2, segs2, hinit, hsegs2, hk2, hlast, hslash⟩ := dots_init k segs init last hsegs hc
    have hform : cleanForm rooted (List.replicate k ['.', '.'] ++ segs)
        = cleanedDirForm rooted k2 segs2 ++ last := by
      rw [hc, ← cleanForm_concat_comps rooted init last
        (by rw [hinit]; exact dots_ne_nil k2 segs2 hsegs2), hinit,
        cleanedDirForm_eq rooted k2 segs2 hsegs2]
    have hlen : (cleanForm rooted (List.replicate k ['.', '.'] ++ segs)).length ≠ 0 := by
      rw [hform]
      cases last with
      | nil => exact absurd rfl hlast
      | cons c l => simp
    rw [if_neg hlen, hform] at hX
    have hdir : (path.Split X).1 = cleanedDirForm rooted k2 segs2 := by
      rw [hX, path_Split_append _ _ hslash (cleanedDirForm_last rooted k2 segs2)]
    have hbig : cleanedDirForm rooted k segs = cleanedDirForm rooted k2 segs2 ++ last ++ ['/'] := by
      rw [← cleanedDirForm_eq rooted k segs hsegs, ← cleanedDirForm_eq rooted k2 segs2 hsegs2,
        withSlash_cleanForm rooted _ (dots_ne_nil k segs hsegs),
        withSlash_cleanForm rooted _ (dots_ne_nil k2 segs2 hsegs2), hc, hinit, slashAfter_append]
      simp [slashAfter]
    have hlt : (path.Split X).1.length < (cleanedDirForm rooted k segs).length := by
      rw [hdir, hbig]
      simp only [List.length_append, List.length_singleton]
      omega
    refine ⟨?_, le_of_lt hlt, fun _ => hlt, fun h => ?_⟩
    · rw [hdir]
      exact ⟨rooted, k2, segs2, fun h => by have := hk h; omega, hsegs2, rfl⟩
    · rw [hc] at h; simp at h

/-- After a directory part, the element `.` adds nothing to the clean path in
the buffer. -/
theorem CleanReads_dot (dir : GoString) (rooted : Bool) (k : Nat) (segs : List GoString)
    (h : CleanReads dir rooted k segs) :
    path.Clean (dir ++ ['.'])
      = if (cleanForm rooted (List.replicate k ['.', '.'] ++ segs)).length = 0 then ['.']
        else cleanForm rooted (List.replicate k ['.', '.'] ++ segs) := by
  rw [h ['.']]
  have hstep : ∀ out dotdot, path.Clean.step rooted '.' [] out dotdot = ([], out, dotdot) := by
    intro out dotdot
    simp [path.Clean.step]
  simp only [List.length_singleton, path.Clean.loop, hstep]

/-- Merged naming with the file name `.`: the directory part is kept only when
it is empty or the root. -/
theorem Split_Clean_dot (dir : GoString) (hdir : dir = [] ∨ dir.getLast? = some '/') :
    (path.Split (path.Clean (dir ++ ['.']))).1 = dir ↔ dir = [] ∨ dir = ['/'] := by
  constructor
  · intro hkeep
    by_cases hne : dir = []
    · exact Or.inl hne
    · have hlast : dir.getLast? = some '/' := hdir.resolve_left hne
      obtain ⟨k, segs, hk, hsegs, hreads⟩ := CleanReads_of_dir dir hne hlast
      obtain ⟨h1, _, h3, h4⟩ := Split_cleanForm _ k segs hk hsegs _
        (CleanReads_dot dir _ k segs hreads)
      rw [hkeep] at h1 h3 h4
      have hcd := cleanDir_of_IsCleanedDir dir h1
      rw [CleanReads_cleanDir dir _ k segs hsegs hreads] at hcd
      by_cases hcomps : List.replicate k ['.', '.'] ++ segs = []
      · have := h4 hcomps
        split_ifs at this
        · exact Or.inr this
        · exact Or.inl this
      · have := h3 hcomps
        rw [hcd] at this
        omega
  · rintro (h | h)
    · rw [h]; decide
    · rw [h]; decide

theorem cleanedDirForm_mono (rooted : Bool) (k : Nat) (init : List GoString) (last : GoString) :
    (cleanedDirForm rooted k init).length < (cleanedDirForm rooted k (init ++ [last])).length := by
  simp [cleanedDirForm, slashAfter]

theorem cleanForm_dots_concat (k : Nat) :
    cleanForm false (List.replicate (k + 1) ['.', '.']) = dotsDir k ++ ['.', '.'] := by
  rw [← replicate_concat, ← cleanForm_concat_comps false _ ['.', '.'] (dots_ne_nil_only k),
    withSlash_cleanForm false _ (dots_ne_nil_only k), slashAfter_dots]
  rfl

theorem dotsDir_last (k : Nat) : dotsDir k = [] ∨ (dotsDir k).getLast? = some '/' := by
  have := cleanedDirForm_last false k []
  simpa [cleanedDirForm, slashAfter] using this

/-- After a directory part, the element `..` removes the last real path element
of the clean path in the buffer; where there is none, it is added to the
elements `..` of a path that is not rooted, and dropped at the root. -/
theorem CleanReads_dotdot (dir : GoString) (rooted : Bool) (k : Nat) (segs : List GoString)
    (hk : rooted = true → k = 0) (hsegs : ∀ s ∈ segs, IsElement s)
    (h : CleanReads dir rooted k segs) :
    (∀ init last, segs = init ++ [last] →
      path.Clean (dir ++ ['.', '.'])
        = if (cleanForm rooted (List.replicate k ['.', '.'] ++ init)).length = 0 then ['.']
          else cleanForm rooted (List.replicate k ['.', '.'] ++ init))
    ∧ (segs = [] → rooted = false → path.Clean (dir ++ ['.', '.']) = dotsDir k ++ ['.', '.'])
    ∧ (segs = [] → rooted = true → path.Clean (dir ++ ['.', '.']) = ['/']) := by
  have h1 : ¬ ('.' = '/') := by decide
  have h2 : ¬ ('.' = '.' ∧ (['.'] = ([] : GoString) ∨ (['.'] : GoString).head? = some '/')) := by
    simp
  have h3 : '.' = '.' ∧ (['.'] : GoString).head? = some '.'
      ∧ ((['.'] : GoString).tail = [] ∨ (['.'] : GoString).tail.head? = some '/') :=
    ⟨rfl, rfl, Or.inl rfl⟩
  refine ⟨?_, ?_, ?_⟩
  · intro init last hsplit
    subst hsplit
    have hlast : IsElement last := hsegs last (by simp)
    have hinit : ∀ s ∈ init, IsElement s := fun s hs => hsegs s (by simp [hs])
    have hstep := Clean_step_dotdot_back rooted '.' ['.'] k init last _ hk hinit hlast rfl h1 h2 h3
    rw [h ['.', '.']]
    simp only [List.length_cons, List.length_nil, path.Clean.loop, hstep, List.tail_cons]
  · intro hs hr
    subst hs; subst hr
    have hstep := Clean_step_dotdot_append ['.'] k ⟨rfl, Or.inl rfl⟩
    rw [h ['.', '.']]
    simp only [List.length_cons, List.length_nil, path.Clean.loop, List.append_nil,
      Bool.false_eq_true, if_false, hstep, List.tail_cons]
    rw [cleanForm_dots_concat]
    simp
  · intro hs hr
    subst hs; subst hr
    have hk0 : k = 0 := hk rfl
    subst hk0
    rw [h ['.', '.']]
    decide

/-- Merged naming with the file name `..`: the directory part is kept only when
it is the root or consists of elements `..`. -/
theorem Split_Clean_dotdot (dir : GoString) (hdir : dir = [] ∨ dir.getLast? = some '/') :
    (path.Split (path.Clean (dir ++ ['.', '.']))).1 = dir
      ↔ dir = ['/'] ∨ ∃ k, dir = dotsDir k := by
  constructor
  · intro hkeep
    by_cases hne : dir = []
    · exact Or.inr ⟨0, hne⟩
    · have hlast : dir.getLast? = some '/' := hdir.resolve_left hne
      obtain ⟨k, segs, hk, hsegs, hreads⟩ := CleanReads_of_dir dir hne hlast
      obtain ⟨hback, hadd, hroot⟩ := CleanReads_dotdot dir _ k segs hk hsegs hreads
      rcases List.eq_nil_or_concat segs with h0 | ⟨init, last, hc⟩
      · cases hr : decide (dir.head? = some '/') with
        | true =>
          rw [hr] at hroot
          rw [hroot h0 rfl] at hkeep
          left
          rw [← hkeep]
          decide
        | false =>
          rw [hr] at hadd
          rw [hadd h0 rfl, path_Split_append _ _ (by decide) (dotsDir_last k)] at hkeep
          exact Or.inr ⟨k, hkeep.symm⟩
      · rw [List.concat_eq_append] at hc
        have hinit : ∀ s ∈ init, IsElement s := fun s hs => hsegs s (by rw [hc]; simp [hs])
        obtain ⟨h1, h2, _, _⟩ := Split_cleanForm _ k init hk hinit _ (hback init last hc)
        rw [hkeep] at h1 h2
        have hcd := cleanDir_of_IsCleanedDir dir h1
        rw [CleanReads_cleanDir dir _ k segs hsegs hreads, hc] at hcd
        have := cleanedDirForm_mono (decide (dir.head? = some '/')) k init last
        rw [hcd] at this
        omega
  · rintro (h | ⟨k, h⟩)
    · rw [h]; decide
    · by_cases hne : dir = []
      · rw [hne]; decide
      · have hform : dir = cleanedDirForm false k [] := by
          rw [h]; simp [cleanedDirForm, slashAfter]
        have hreads := CleanReads_cleanedDirForm false k [] (fun h => absurd h (by decide))
          (by simp) (by rw [← hform]; exact hne)
        rw [← hform] at hreads
        obtain ⟨_, hadd, _⟩ := CleanReads_dotdot dir false k []
          (fun h => absurd h (by decide)) (by simp) hreads
        rw [hadd rfl rfl, path_Split_append _ _ (by decide) (dotsDir_last k)]
        exact h.symm

/-- The merged file name is a text without a slash followed by `.` and the
extension. -/
theorem gqlFileName_form (getwd : Option GoString) (protoFileName extension : GoString) :
    ∃ b : GoString, '/' ∉ b ∧ gqlFileName getwd protoFileName extension = b ++ '.' :: extension := by
  unfold gqlFileName
  cases habs : filepath.Abs getwd protoFileName with
  | none => exact ⟨"schema".toList, by decide, rfl⟩
  | some abs =>
    simp only []
    by_cases hlen : (strings.Split (filepath.Dir abs) ['/']).length > 0
    · rw [if_pos hlen]
      have hmem : ∀ ls : List GoString, ls.length > 0 → ls.getLastD [] ∈ ls := by
        intro ls hls
        cases ls with
        | nil => simp at hls
        | cons a l =>
          rw [List.getLastD_cons, ← List.getLast_eq_getLastD a l (List.cons_ne_nil a l)]
          exact List.getLast_mem (List.cons_ne_nil a l)
      have hm := hmem _ hlen
      have hfree : '/' ∉ (strings.Split (filepath.Dir abs) ['/']).getLastD [] := by
        generalize (strings.Split (filepath.Dir abs) ['/']).getLastD [] = b at hm
        rw [Split_single] at hm
        exact splitOn_no_sep '/' _ _ (le_refl _) b hm
      exact ⟨(strings.Split (filepath.Dir abs) ['/']).getLastD [], hfree, by simp⟩
    · rw [if_neg hlen]
      exact ⟨"schema".toList, by decide, rfl⟩

/-- The merged file name is a real path element, or `.`, or `..`. -/
theorem gqlFileName_cases (getwd : Option GoString) (protoFileName extension : GoString)
    (hext : '/' ∉ extension) :
    gqlFileName getwd protoFileName extension ≠ []
      ∧ '/' ∉ gqlFileName getwd protoFileName extension
      ∧ (IsElement (gqlFileName getwd protoFileName extension)
        ↔ gqlFileName getwd protoFileName extension ≠ ['.']
          ∧ gqlFileName getwd protoFileName extension ≠ ['.', '.']) := by
  obtain ⟨b, hb, hform⟩ := gqlFileName_form getwd protoFileName extension
  have hne : gqlFileName getwd protoFileName extension ≠ [] := by rw [hform]; simp
  have hslash : '/' ∉ gqlFileName getwd protoFileName extension := by
    rw [hform]
    intro h
    rcases List.mem_append.mp h with h | h
    · exact hb h
    · rcases List.mem_cons.mp h with h | h
      · exact absurd h (by decide)
      · exact hext h
  exact ⟨hne, hslash, ⟨fun h => ⟨h.2.2.1, h.2.2.2⟩, fun h => ⟨hne, hslash, h.1, h.2⟩⟩⟩

/-- The merged file name is `.` or `..` only for a source whose absolute
directory is the root, with the empty extension and the extension `.`. -/
theorem gqlFileName_dots (getwd : Option GoString) (protoFileName extension : GoString)
    (hwd : ∀ wd, getwd = some wd → wd.head? = some '/') (hext : '/' ∉ extension) :
    (gqlFileName getwd protoFileName extension = ['.']
      ↔ (∃ abs, filepath.Abs getwd protoFileName = some abs ∧ filepath.Dir abs = ['/'])
        ∧ extension = [])
    ∧ (gqlFileName getwd protoFileName extension = ['.', '.']
      ↔ (∃ abs, filepath.Abs getwd protoFileName = some abs ∧ filepath.Dir abs = ['/'])
        ∧ extension = ['.']) := by
  by_cases hroot : ∃ abs, filepath.Abs getwd protoFileName = some abs ∧ filepath.Dir abs = ['/']
  · obtain ⟨abs, habs, hdir⟩ := hroot
    have hg : gqlFileName getwd protoFileName extension = '.' :: extension := by
      unfold gqlFileName
      rw [habs]
      simp only [hdir]
      have hs : strings.Split ['/'] ['/'] = [[], []] := by decide
      rw [hs]
      rfl
    rw [hg]
    constructor
    · constructor
      · intro h
        exact ⟨⟨abs, habs, hdir⟩, by simpa using h⟩
      · rintro ⟨_, h⟩
        rw [h]
    · constructor
      · intro h
        exact ⟨⟨abs, habs, hdir⟩, by simpa using h⟩
      · rintro ⟨_, h⟩
        rw [h]
  · have hel := gqlFileName_IsElement getwd protoFileName extension hwd hext
      (fun abs habs hdir => hroot ⟨abs, habs, hdir⟩)
    constructor
    · constructor
      · intro h; exact absurd h hel.2.2.1
      · rintro ⟨h, _⟩; exact absurd h hroot
    · constructor
      · intro h; exact absurd h hel.2.2.2
      · rintro ⟨h, _⟩; exact absurd h hroot

/-- Merged naming cleans the directory part of the source name followed by the
merged file name. -/
theorem resolveGraphqlFilename_merge_Clean (getwd : Option GoString)
    (protoFileName extension : GoString) :
    resolveGraphqlFilename getwd protoFileName true extension
      = path.Clean ((path.Split protoFileName).1 ++ gqlFileName getwd protoFileName extension) := by
  obtain ⟨b, _, hform⟩ := gqlFileName_form getwd protoFileName extension
  have hgne : (gqlFileName getwd protoFileName extension).isEmpty = false := by
    rw [hform]
    cases b <;> rfl
  rw [resolveGraphqlFilename_merge_eq]
  by_cases hd : (path.Split protoFileName).1 = []
  · rw [hd]
    simp [path.Join, List.dropWhile, hgne, strings.Join, List.intercalate, List.intersperse]
  · have hdne : (path.Split protoFileName).1.isEmpty = false := by
      cases hsp : (path.Split protoFileName).1 with
      | nil => exact absurd hsp hd
      | cons c t => rfl
    have hjoin : path.Join [(path.Split protoFileName).1,
          gqlFileName getwd protoFileName extension]
        = path.Clean ((path.Split protoFileName).1
            ++ '/' :: gqlFileName getwd protoFileName extension) := by
      simp [path.Join, List.dropWhile, hdne, strings.Join, List.intercalate, List.intersperse]
    rw [hjoin]
    exact Clean_dir_slash _ _ hd ((Split_fst_form protoFileName).resolve_left hd)

/-- C15, as amended: merged naming cleans the directory component of the source
name instead of keeping it in every case.  For every source name, working
directory and extension without a slash, with `dir` the directory component of
the source name (everything up to and including its last slash) and `g` the
merged file name: (1) the result is `path.Clean(dir ++ g)`, and `g` is not empty
and has no slash.  (2) If `g` is neither `.` nor `..`, the result is
`cleanDir dir ++ g`: its file component is `g`, its directory component is the
directory component of the source name in cleaned form, and that is the
directory component of the source name exactly when the latter is in cleaned
form already, that is an optional leading slash or else any number of `../`,
then real path elements, each followed by one slash.  (3) If `g` is `.`, the
directory component is kept exactly when it is empty or the root.  (4) If `g` is
`..`, it is kept exactly when it is the root or consists of `../` repeated.
(5) The cleaned form of `dir` is in cleaned form, and it is `dir` exactly when
`dir` is in cleaned form.  (6) In a rooted working directory `g` is `.` or `..`
only for a source whose absolute directory is the root, with the empty extension
and with the extension `.`. -/
theorem resolveGraphqlFilename_merge_cleans_directory (getwd : Option GoString)
    (protoFileName extension : GoString) (hext : '/' ∉ extension) :
    (resolveGraphqlFilename getwd protoFileName true extension
        = path.Clean ((path.Split protoFileName).1 ++ gqlFileName getwd protoFileName extension)
      ∧ gqlFileName getwd protoFileName extension ≠ []
      ∧ '/' ∉ gqlFileName getwd protoFileName extension)
    ∧ (gqlFileName getwd protoFileName extension ≠ ['.'] →
        gqlFileName getwd protoFileName extension ≠ ['.', '.'] →
        resolveGraphqlFilename getwd protoFileName true extension
            = cleanDir (path.Split protoFileName).1 ++ gqlFileName getwd protoFileName extension
          ∧ (path.Split (resolveGraphqlFilename getwd protoFileName true extension)).1
            = cleanDir (path.Split protoFileName).1
          ∧ (path.Split (resolveGraphqlFilename getwd protoFileName true extension)).2
            = gqlFileName getwd protoFileName extension
          ∧ ((path.Split (resolveGraphqlFilename getwd protoFileName true extension)).1
              = (path.Split protoFileName).1
            ↔ IsCleanedDir (path.Split protoFileName).1))
    ∧ (gqlFileName getwd protoFileName extension = ['.'] →
        ((path.Split (resolveGraphqlFilename getwd protoFileName true extension)).1
            = (path.Split protoFileName).1
          ↔ (path.Split protoFileName).1 = [] ∨ (path.Split protoFileName).1 = ['/']))
    ∧ (gqlFileName getwd protoFileName extension = ['.', '.'] →
        ((path.Split (resolveGraphqlFilename getwd protoFileName true extension)).1
            = (path.Split protoFileName).1
          ↔ (path.Split protoFileName).1 = ['/']
            ∨ ∃ k, (path.Split protoFileName).1 = dotsDir k))
    ∧ (IsCleanedDir (cleanDir (path.Split protoFileName).1)
      ∧ (cleanDir (path.Split protoFileName).1 = (path.Split protoFileName).1
        ↔ IsCleanedDir (path.Split protoFileName).1))
    ∧ ((∀ wd, getwd = some wd → wd.head? = some '/') →
        (gqlFileName getwd protoFileName extension = ['.']
          ↔ (∃ abs, filepath.Abs getwd protoFileName = some abs ∧ filepath.Dir abs = ['/'])
            ∧ extension = [])
        ∧ (gqlFileName getwd protoFileName extension = ['.', '.']
          ↔ (∃ abs, filepath.Abs getwd protoFileName = some abs ∧ filepath.Dir abs = ['/'])
            ∧ extension = ['.'])) := by
  have hdir := Split_fst_form protoFileName
  have hres := resolveGraphqlFilename_merge_Clean getwd protoFileName extension
  obtain ⟨hgne, hgslash, hgel⟩ := gqlFileName_cases getwd protoFileName extension hext
  refine ⟨⟨hres, hgne, hgslash⟩, ?_, ?_, ?_, ?_, ?_⟩
  · intro h1 h2
    have hg : IsElement (gqlFileName getwd protoFileName extension) := hgel.mpr ⟨h1, h2⟩
    have hform : resolveGraphqlFilename getwd protoFileName true extension
        = cleanDir (path.Split protoFileName).1 ++ gqlFileName getwd protoFileName extension := by
      rw [hres]
      exact Clean_dir_element _ _ hdir hg
    have hsplit := path_Split_append (cleanDir (path.Split protoFileName).1)
      (gqlFileName getwd protoFileName extension) hgslash (cleanDir_last _ hdir)
    refine ⟨hform, ?_, ?_, ?_⟩
    · rw [hform, hsplit]
    · rw [hform, hsplit]
    · rw [hform, hsplit]
      exact cleanDir_eq_iff _ hdir
  · intro hg
    rw [hres, hg]
    exact Split_Clean_dot _ hdir
  · intro hg
    rw [hres, hg]
    exact Split_Clean_dotdot _ hdir
  · exact ⟨IsCleanedDir_cleanDir _ hdir, cleanDir_eq_iff _ hdir⟩
  · intro hwd
    exact gqlFileName_dots getwd protoFileName extension hwd hext

/-- C15 as amended, on two sources with the extension `gql`.  In the working
directory `/home/u` the source `../foo.proto` has the directory component `../`,
which is in cleaned form, and its merged name `../home.gql` keeps it.  The
source `/foo.proto`, whose absolute directory is the root, has the merged name
`/.gql`, with the directory component `/` of the source. -/
theorem resolveGraphqlFilename_merge_cleans_directory_witness :
    '/' ∉ "gql".toList
    ∧ (path.Split (resolveGraphqlFilename (some "/home/u".toList) "../foo.proto".toList true
        "gql".toList)).1 = (path.Split "../foo.proto".toList).1
    ∧ (path.Split "../foo.proto".toList).1 = "../".toList
    ∧ resolveGraphqlFilename (some "/home/u".toList) "../foo.proto".toList true "gql".toList
      = "../home.gql".toList
    ∧ (path.Split (resolveGraphqlFilename (some "/work".toList) "/foo.proto".toList true
        "gql".toList)).1 = (path.Split "/foo.proto".toList).1
    ∧ (path.Split "/foo.proto".toList).1 = "/".toList
    ∧ resolveGraphqlFilename (some "/work".toList) "/foo.proto".toList true "gql".toList
      = "/.gql".toList :=
  ⟨by decide,
   ((resolveGraphqlFilename_merge_cleans_directory (some "/home/u".toList) "../foo.proto".toList
      "gql".toList (by decide)).2.1 (by decide) (by decide)).2.2.2.mpr
      ⟨false, 1, [], fun h => absurd h (by decide), by simp, by decide⟩,
   by decide, by decide,
   ((resolveGraphqlFilename_merge_cleans_directory (some "/work".toList) "/foo.proto".toList
      "gql".toList (by decide)).2.1 (by decide) (by decide)).2.2.2.mpr
      ⟨true, 0, [], fun _ => rfl, by simp, by decide⟩,
   by decide, by decide⟩

/-- Merged naming with the file names `.` and `..`, which arise for a source
whose absolute directory is the root.  With the empty extension the source
`/foo` gets the name `/`, which keeps the directory component `/`.  With the
extension `.` the source `/a/` gets the name `/`, which does not keep the
directory component `/a/`, while in the working directory `/home` the source
`../foo` gets the name `../..`, which keeps the directory component `../`. -/
theorem resolveGraphqlFilename_merge_dot_file_names :
    gqlFileName (some "/work".toList) "/foo".toList [] = ['.']
    ∧ resolveGraphqlFilename (some "/work".toList) "/foo".toList true [] = "/".toList
    ∧ (path.Split "/foo".toList).1 = "/".toList
    ∧ gqlFileName (some "/work".toList) "/a/".toList ['.'] = ['.', '.']
    ∧ resolveGraphqlFilename (some "/work".toList) "/a/".toList true ['.'] = "/".toList
    ∧ (path.Split "/a/".toList).1 = "/a/".toList
    ∧ gqlFileName (some "/home".toList) "../foo".toList ['.'] = ['.', '.']
    ∧ resolveGraphqlFilename (some "/home".toList) "../foo".toList true ['.'] = "../..".toList
    ∧ (path.Split "../foo".toList).1 = "../".toList := by
  decide

end ProtoGql
